import Mathlib

/-!
# text2babe: cipher codec (internal/crypto) and configuration (internal/config)

A shallow embedding of `EncryptData`, `DecryptData` and `parseBinaryString`
from `internal/crypto/crypto.go`, together with the parts of the Go standard
library they call (`encoding/hex`, `encoding/base64`, `strconv.ParseUint`,
`fmt.Sprintf("%08b")`, ranging over a string), and theorems about them.

Go strings and byte slices are sequences of bytes; both are `List Byte` here.
The AES-GCM primitive and the random source are inputs of the embedding;
`aesGCM` is the AES-GCM of the Go standard library, for the statements that
depend on the bytes it produces.
-/

namespace Text2Babe

/-! ## Bytes, strings, errors -/

/-- One Go `byte`. -/
abbrev Byte := Fin 256

/-- A Go `string` or `[]byte`: its bytes in order. -/
abbrev Bytes := List Byte

/-- The errors the codec can return (the Go code builds them with
`fmt.Errorf`; the constructor records which one). -/
inductive Err where
  /-- The error "failed to create cipher: ...". -/
  | createCipher
  /-- The error "failed to create GCM: ..." (not reachable with an AES block). -/
  | createGCM
  /-- The error "failed to generate nonce: ...". -/
  | generateNonce
  /-- The error "ciphertext too short". -/
  | ciphertextTooShort
  /-- The error "failed to decrypt data: ...". -/
  | decryptFailed
  /-- The error "empty binary string". -/
  | emptyBinary
  /-- The error "invalid binary character: ...". -/
  | invalidBinaryChar
  /-- The error "binary string length (..) must be divisible by 8". -/
  | binaryLength
  /-- The error "failed to parse binary byte ...". -/
  | parseBinaryByte
  deriving DecidableEq, Repr

/-! ## Configuration (internal/config/config.go) -/

/-- The `discord.Client` struct, without its network session. -/
structure Client where
  token : Bytes
  dmID : Bytes
  enabled : Bool
  deriving DecidableEq, Repr

/-- The `config.Config` struct. -/
structure Config where
  Mode : String
  DataType : String
  OutputMode : String
  Key : Bytes
  KeySource : Bytes
  Discord : Option Client
  SendToDiscord : Bool
  UseEncryption : Bool
  deriving DecidableEq, Repr

/-! ## encoding/hex -/

/-- The table `hextable = "0123456789abcdef"` of encoding/hex, indexed by a
nibble. -/
def hextable (n : Nat) : Byte :=
  if n < 10 then Fin.ofNat (0x30 + n) else Fin.ofNat (0x61 + (n - 10))

/-- Go `hex.EncodeToString`: two lowercase digits per byte,
`hextable[v>>4]` then `hextable[v&0x0f]`. -/
def hexEncodeToString : Bytes → Bytes
  | [] => []
  | v :: rest =>
    hextable (v.val >>> 4) :: hextable (v.val &&& 0x0f) :: hexEncodeToString rest

/-- The table `reverseHexTable` of encoding/hex: the value of a hex digit of
either case, `0xff` for any other byte. -/
def reverseHexTable (c : Byte) : Nat :=
  if 0x30 ≤ c.val ∧ c.val ≤ 0x39 then c.val - 0x30
  else if 0x61 ≤ c.val ∧ c.val ≤ 0x66 then c.val - 0x61 + 10
  else if 0x41 ≤ c.val ∧ c.val ≤ 0x46 then c.val - 0x41 + 10
  else 0xff

/-- Go `hex.DecodeString`, with `none` for a returned error
(`InvalidByteError` or `ErrLength`): pairs of digits are decoded left to
right as `(a << 4) | b`; an odd length is an error. -/
def hexDecodeString : Bytes → Option Bytes
  | [] => some []
  | [_] => none
  | p :: q :: rest =>
    let a := reverseHexTable p
    let b := reverseHexTable q
    if a > 0x0f then none
    else if b > 0x0f then none
    else
      match hexDecodeString rest with
      | none => none
      | some out => some (Fin.ofNat ((a <<< 4) ||| b) :: out)

/-! ## Binary digits: fmt.Sprintf("%08b"), strconv.ParseUint, range over a string -/

/-- Go `fmt.Sprintf("%08b", b)` for a byte: the base-2 digits of `b`, most
significant first, padded on the left with '0' to a width of 8. -/
def sprintf08b (b : Byte) : Bytes :=
  let digits : Bytes := (Nat.toDigits 2 b.val).map (fun c => Fin.ofNat c.toNat)
  List.replicate (8 - digits.length) 0x30 ++ digits

/-- The loop `for _, b := range outputBytes { binaryStr += Sprintf("%08b", b) }`
of `EncryptData`. -/
def binaryDigits : Bytes → Bytes
  | [] => []
  | b :: rest => sprintf08b b ++ binaryDigits rest

/-- Go `strconv.ParseUint(s, 2, 8)`, with `none` for a returned error: the
empty string and any character other than '0' and '1' are syntax errors, a
value above 255 is a range error. -/
def parseUint2w8 (s : Bytes) : Option Nat :=
  if s = [] then none
  else
    s.foldl
      (fun acc c =>
        match acc with
        | none => none
        | some n =>
          if c.val = 0x30 ∨ c.val = 0x31 then
            let n1 := n * 2 + (c.val - 0x30)
            if n1 > 255 then none else some n1
          else none)
      (some 0)

/-- The continuation bytes of `utf8.DecodeRuneInString` for a leading byte
`s0` that announces `sz` bytes, the second of them within `lo..hi`
(`acceptRanges`), the later ones within 0x80..0xBF: the rune and its width,
or `RuneError` (U+FFFD) of width 1 when a byte is missing or out of range.
The masks and shifts of the Go code are written as remainders and
products. -/
def decodeContinuation (sz lo hi : Nat) (s0 : Byte) (t : Bytes) : Nat × Nat :=
  match sz, t with
  | 2, s1 :: _ =>
    if s1.val < lo ∨ hi < s1.val then (0xFFFD, 1)
    else ((s0.val % 32) * 64 + s1.val % 64, 2)
  | 3, s1 :: s2 :: _ =>
    if s1.val < lo ∨ hi < s1.val then (0xFFFD, 1)
    else if s2.val < 0x80 ∨ 0xBF < s2.val then (0xFFFD, 1)
    else ((s0.val % 16) * 4096 + (s1.val % 64) * 64 + s2.val % 64, 3)
  | 4, s1 :: s2 :: s3 :: _ =>
    if s1.val < lo ∨ hi < s1.val then (0xFFFD, 1)
    else if s2.val < 0x80 ∨ 0xBF < s2.val then (0xFFFD, 1)
    else if s3.val < 0x80 ∨ 0xBF < s3.val then (0xFFFD, 1)
    else
      ((s0.val % 8) * 262144 + (s1.val % 64) * 4096 + (s2.val % 64) * 64
        + s3.val % 64, 4)
  | _, _ => (0xFFFD, 1)

/-- Go `utf8.DecodeRuneInString`: the first rune of `s` and its width in
bytes. A byte below 0x80 is its own rune; 0x80..0xC1 and 0xF5..0xFF are
invalid leading bytes; the table `first` gives the other leading bytes their
length and the range of their second byte. The empty string is `RuneError`
of width 0. -/
def decodeRuneInString (s : Bytes) : Nat × Nat :=
  match s with
  | [] => (0xFFFD, 0)
  | s0 :: t =>
    if s0.val < 0x80 then (s0.val, 1)
    else if s0.val < 0xC2 ∨ 0xF4 < s0.val then (0xFFFD, 1)
    else if s0.val < 0xE0 then decodeContinuation 2 0x80 0xBF s0 t
    else if s0.val = 0xE0 then decodeContinuation 3 0xA0 0xBF s0 t
    else if s0.val = 0xED then decodeContinuation 3 0x80 0x9F s0 t
    else if s0.val < 0xF0 then decodeContinuation 3 0x80 0xBF s0 t
    else if s0.val = 0xF0 then decodeContinuation 4 0x90 0xBF s0 t
    else if s0.val = 0xF4 then decodeContinuation 4 0x80 0x8F s0 t
    else decodeContinuation 4 0x80 0xBF s0 t

/-- The loop `for _, r := range s { if r != '0' && r != '1' { ...; break } }`
shared by `DecryptData` and `parseBinaryString`: `true` when the loop runs to
the end of `s` without meeting a rune other than '0' and '1'. The first
argument bounds the number of iterations; `s.length` is enough. -/
def onlyBinaryRunes : Nat → Bytes → Bool
  | 0, _ => true
  | _ + 1, [] => true
  | fuel + 1, c :: t =>
    let rw := decodeRuneInString (c :: t)
    if rw.1 ≠ 0x30 ∧ rw.1 ≠ 0x31 then false
    else onlyBinaryRunes fuel ((c :: t).drop rw.2)

/-- Go `strings.ReplaceAll(s, old, "")` for a one-byte `old`. -/
def removeByte (old : Byte) (s : Bytes) : Bytes :=
  s.filter (fun c => c ≠ old)

/-- The loop `for i := 0; i < len(binaryStr); i += 8` of `parseBinaryString`:
each slice `binaryStr[i:i+8]` goes through `strconv.ParseUint(_, 2, 8)` and is
appended to the result. The first argument bounds the number of iterations. -/
def parseBinaryChunks : Nat → Bytes → Except Err Bytes
  | 0, _ => .ok []
  | fuel + 1, s =>
    if s = [] then .ok []
    else
      match parseUint2w8 (s.take 8) with
      | none => .error .parseBinaryByte
      | some b =>
        match parseBinaryChunks fuel (s.drop 8) with
        | .error e => .error e
        | .ok out => .ok (Fin.ofNat b :: out)

/-- Go `parseBinaryString` (crypto.go): converts a string of 0s and 1s to
bytes. -/
def parseBinaryString (binaryStr : Bytes) : Except Err Bytes :=
  let s := removeByte 0x20 binaryStr
  let s := removeByte 0x0A s
  let s := removeByte 0x0D s
  let s := removeByte 0x09 s
  if s.length = 0 then .error .emptyBinary
  else if ¬ onlyBinaryRunes s.length s then .error .invalidBinaryChar
  else if s.length % 8 ≠ 0 then .error .binaryLength
  else parseBinaryChunks s.length s

/-! ## encoding/base64 (StdEncoding: standard alphabet, '=' padding, not strict) -/

/-- The alphabet of `base64.StdEncoding`,
"ABCDEFGHIJKLMNOPQRSTUVWXYZabcdefghijklmnopqrstuvwxyz0123456789+/", indexed
by a 6-bit value. -/
def encodeStd (n : Nat) : Byte :=
  if n < 26 then Fin.ofNat (0x41 + n)
  else if n < 52 then Fin.ofNat (0x61 + (n - 26))
  else if n < 62 then Fin.ofNat (0x30 + (n - 52))
  else if n = 62 then 0x2B
  else 0x2F

/-- Go `base64.StdEncoding.EncodeToString`: each 3 bytes give 4 characters
of `val = b0<<16 | b1<<8 | b2`; a remainder of 1 or 2 bytes gives 2 or 3
characters and '=' padding up to 4. -/
def base64EncodeToString : Bytes → Bytes
  | [] => []
  | [b0] =>
    let val := b0.val <<< 16
    [encodeStd (val >>> 18 &&& 0x3F), encodeStd (val >>> 12 &&& 0x3F), 0x3D, 0x3D]
  | [b0, b1] =>
    let val := b0.val <<< 16 ||| b1.val <<< 8
    [encodeStd (val >>> 18 &&& 0x3F), encodeStd (val >>> 12 &&& 0x3F),
      encodeStd (val >>> 6 &&& 0x3F), 0x3D]
  | b0 :: b1 :: b2 :: rest =>
    let val := b0.val <<< 16 ||| b1.val <<< 8 ||| b2.val
    encodeStd (val >>> 18 &&& 0x3F) :: encodeStd (val >>> 12 &&& 0x3F)
      :: encodeStd (val >>> 6 &&& 0x3F) :: encodeStd (val &&& 0x3F)
      :: base64EncodeToString rest

/-- The table `decodeMap` of `base64.StdEncoding`: the 6-bit value of an
alphabet character, `0xff` for any other byte. -/
def decodeMapStd (c : Byte) : Nat :=
  if 0x41 ≤ c.val ∧ c.val ≤ 0x5A then c.val - 0x41
  else if 0x61 ≤ c.val ∧ c.val ≤ 0x7A then c.val - 0x61 + 26
  else if 0x30 ≤ c.val ∧ c.val ≤ 0x39 then c.val - 0x30 + 52
  else if c.val = 0x2B then 62
  else if c.val = 0x2F then 63
  else 0xff

/-- The loop `for si < len(src) && (src[si] == '\n' || src[si] == '\r')` of
`decodeQuantum`: what is left of the input after the newlines in front. -/
def skipNewlines : Bytes → Bytes
  | [] => []
  | c :: t => if c.val = 0x0A ∨ c.val = 0x0D then skipNewlines t else c :: t

/-- The end of `decodeQuantum`: the `dlen` collected 6-bit values `dbuf`
(missing ones are 0) make `val = d0<<18 | d1<<12 | d2<<6 | d3`, of which the
first `dlen - 1` bytes `val>>16, val>>8, val` are written. -/
def quantumBytes (dbuf : List Nat) (dlen : Nat) : Bytes :=
  let val := dbuf.getD 0 0 <<< 18 ||| dbuf.getD 1 0 <<< 12 ||| dbuf.getD 2 0 <<< 6
    ||| dbuf.getD 3 0
  ([Fin.ofNat (val >>> 16), Fin.ofNat (val >>> 8), Fin.ofNat val] : Bytes).take (dlen - 1)

/-- The decoding loop of `base64.StdEncoding.Decode` (repeated
`decodeQuantum`), with `none` for a returned `CorruptInputError`. The second
argument is the part of the current quantum read so far (`dbuf[0..j]`).
'\r' and '\n' are skipped anywhere; '=' is accepted only as the padding that
ends the input after 2 or 3 characters of a quantum; the input may not end
inside a quantum. -/
def base64DecodeFrom : Bytes → List Nat → Option Bytes
  | [], dbuf => if dbuf = [] then some [] else none
  | c :: t, dbuf =>
    let out := decodeMapStd c
    if out ≠ 0xff then
      if dbuf.length = 3 then
        match base64DecodeFrom t [] with
        | none => none
        | some rest => some (quantumBytes (dbuf ++ [out]) 4 ++ rest)
      else base64DecodeFrom t (dbuf ++ [out])
    else if c.val = 0x0A ∨ c.val = 0x0D then base64DecodeFrom t dbuf
    else if c.val ≠ 0x3D then none
    else if dbuf.length < 2 then none
    else if dbuf.length = 2 then
      match skipNewlines t with
      | [] => none
      | c2 :: t2 =>
        if c2.val ≠ 0x3D then none
        else if skipNewlines t2 ≠ [] then none
        else some (quantumBytes dbuf 2)
    else if skipNewlines t ≠ [] then none
    else some (quantumBytes dbuf 3)

/-- Go `base64.StdEncoding.DecodeString`, with `none` for a returned error. -/
def base64DecodeString (s : Bytes) : Option Bytes :=
  base64DecodeFrom s []

/-! ## AES-GCM and the random source -/

/-- The AEAD primitive behind `cipher.NewGCM(aes.NewCipher(key))`: `Seal key
nonce plaintext` is the ciphertext followed by the tag, `Open key nonce
sealed` the plaintext or `none` when authentication fails (no associated
data in either). -/
structure AEAD where
  Seal : Bytes → Bytes → Bytes → Bytes
  Open : Bytes → Bytes → Bytes → Option Bytes

/-- Go `aes.NewCipher`: a key of 16, 24 or 32 bytes is accepted, any other
length is a `KeySizeError`. -/
def aesNewCipher (key : Bytes) : Bool :=
  key.length = 16 ∨ key.length = 24 ∨ key.length = 32

/-- Go `gcm.NonceSize()` for the standard GCM: 12 bytes. -/
def gcmNonceSize : Nat := 12

/-! ## crypto/aes and crypto/cipher: AES in Galois/Counter Mode

The block cipher of FIPS 197 and the mode of NIST SP 800-38D with a 12-byte
nonce, a 16-byte tag and no associated data, which is what
`cipher.NewGCM(aes.NewCipher(key))` computes. Bytes are natural numbers below
256 here; a block is the list of its 16 bytes in the order of the input. -/

/-- The S-box of AES (FIPS 197, figure 7), row by row. -/
def aesSBoxTable : List Nat := [
  0x63, 0x7c, 0x77, 0x7b, 0xf2, 0x6b, 0x6f, 0xc5, 0x30, 0x01, 0x67, 0x2b, 0xfe, 0xd7, 0xab, 0x76,
  0xca, 0x82, 0xc9, 0x7d, 0xfa, 0x59, 0x47, 0xf0, 0xad, 0xd4, 0xa2, 0xaf, 0x9c, 0xa4, 0x72, 0xc0,
  0xb7, 0xfd, 0x93, 0x26, 0x36, 0x3f, 0xf7, 0xcc, 0x34, 0xa5, 0xe5, 0xf1, 0x71, 0xd8, 0x31, 0x15,
  0x04, 0xc7, 0x23, 0xc3, 0x18, 0x96, 0x05, 0x9a, 0x07, 0x12, 0x80, 0xe2, 0xeb, 0x27, 0xb2, 0x75,
  0x09, 0x83, 0x2c, 0x1a, 0x1b, 0x6e, 0x5a, 0xa0, 0x52, 0x3b, 0xd6, 0xb3, 0x29, 0xe3, 0x2f, 0x84,
  0x53, 0xd1, 0x00, 0xed, 0x20, 0xfc, 0xb1, 0x5b, 0x6a, 0xcb, 0xbe, 0x39, 0x4a, 0x4c, 0x58, 0xcf,
  0xd0, 0xef, 0xaa, 0xfb, 0x43, 0x4d, 0x33, 0x85, 0x45, 0xf9, 0x02, 0x7f, 0x50, 0x3c, 0x9f, 0xa8,
  0x51, 0xa3, 0x40, 0x8f, 0x92, 0x9d, 0x38, 0xf5, 0xbc, 0xb6, 0xda, 0x21, 0x10, 0xff, 0xf3, 0xd2,
  0xcd, 0x0c, 0x13, 0xec, 0x5f, 0x97, 0x44, 0x17, 0xc4, 0xa7, 0x7e, 0x3d, 0x64, 0x5d, 0x19, 0x73,
  0x60, 0x81, 0x4f, 0xdc, 0x22, 0x2a, 0x90, 0x88, 0x46, 0xee, 0xb8, 0x14, 0xde, 0x5e, 0x0b, 0xdb,
  0xe0, 0x32, 0x3a, 0x0a, 0x49, 0x06, 0x24, 0x5c, 0xc2, 0xd3, 0xac, 0x62, 0x91, 0x95, 0xe4, 0x79,
  0xe7, 0xc8, 0x37, 0x6d, 0x8d, 0xd5, 0x4e, 0xa9, 0x6c, 0x56, 0xf4, 0xea, 0x65, 0x7a, 0xae, 0x08,
  0xba, 0x78, 0x25, 0x2e, 0x1c, 0xa6, 0xb4, 0xc6, 0xe8, 0xdd, 0x74, 0x1f, 0x4b, 0xbd, 0x8b, 0x8a,
  0x70, 0x3e, 0xb5, 0x66, 0x48, 0x03, 0xf6, 0x0e, 0x61, 0x35, 0x57, 0xb9, 0x86, 0xc1, 0x1d, 0x9e,
  0xe1, 0xf8, 0x98, 0x11, 0x69, 0xd9, 0x8e, 0x94, 0x9b, 0x1e, 0x87, 0xe9, 0xce, 0x55, 0x28, 0xdf,
  0x8c, 0xa1, 0x89, 0x0d, 0xbf, 0xe6, 0x42, 0x68, 0x41, 0x99, 0x2d, 0x0f, 0xb0, 0x54, 0xbb, 0x16]

/-- The S-box applied to one byte. -/
def aesSBox (x : Nat) : Nat := aesSBoxTable.getD x 0

/-- The function `xtime` of FIPS 197: multiplication by x in GF(2^8) modulo
x^8 + x^4 + x^3 + x + 1. -/
def aesXtime (a : Nat) : Nat :=
  if a < 0x80 then a <<< 1 else ((a <<< 1) ^^^ 0x11b)

/-- The transformation `SubBytes`. -/
def aesSubBytes (s : List Nat) : List Nat := s.map aesSBox

/-- The transformation `ShiftRows`: row `r` of the state (the bytes at the
indices `r`, `r + 4`, `r + 8`, `r + 12`) is rotated left by `r`. -/
def aesShiftRows (s : List Nat) : List Nat :=
  [0, 5, 10, 15, 4, 9, 14, 3, 8, 13, 2, 7, 12, 1, 6, 11].map fun i => s.getD i 0

/-- The transformation `MixColumns` on one column: multiplication by the
matrix with the rows (2 3 1 1), (1 2 3 1), (1 1 2 3), (3 1 1 2). -/
def aesMixColumn (a0 a1 a2 a3 : Nat) : List Nat :=
  [aesXtime a0 ^^^ (aesXtime a1 ^^^ a1) ^^^ a2 ^^^ a3,
   a0 ^^^ aesXtime a1 ^^^ (aesXtime a2 ^^^ a2) ^^^ a3,
   a0 ^^^ a1 ^^^ aesXtime a2 ^^^ (aesXtime a3 ^^^ a3),
   (aesXtime a0 ^^^ a0) ^^^ a1 ^^^ a2 ^^^ aesXtime a3]

/-- The transformation `MixColumns`. -/
def aesMixColumns : List Nat → List Nat
  | a0 :: a1 :: a2 :: a3 :: rest => aesMixColumn a0 a1 a2 a3 ++ aesMixColumns rest
  | _ => []

/-- The transformation `AddRoundKey`, and the exclusive or of two byte
strings in general (up to the length of the shorter). -/
def aesAddRoundKey (s k : List Nat) : List Nat := List.zipWith (fun a b => a ^^^ b) s k

/-- The function `SubWord` of the key expansion. -/
def aesSubWord (w : List Nat) : List Nat := w.map aesSBox

/-- The function `RotWord` of the key expansion. -/
def aesRotWord : List Nat → List Nat
  | a :: rest => rest ++ [a]
  | [] => []

/-- The loop of `KeyExpansion` (FIPS 197, figure 11) for a key of `nk` words:
`ws` holds the words `w[0]` to `w[i - 1]`, `rc` is the first byte of
`Rcon[i / nk]`, and the first argument counts the words still to add. -/
def aesExpandLoop (nk : Nat) : Nat → Nat → Nat → List (List Nat) → List (List Nat)
  | 0, _, _, ws => ws
  | n + 1, i, rc, ws =>
    let prev := ws.getD (i - 1) []
    let temp :=
      if i % nk = 0 then aesAddRoundKey (aesSubWord (aesRotWord prev)) [rc, 0, 0, 0]
      else if 6 < nk ∧ i % nk = 4 then aesSubWord prev
      else prev
    aesExpandLoop nk n (i + 1) (if i % nk = 0 then aesXtime rc else rc)
      (ws ++ [aesAddRoundKey (ws.getD (i - nk) []) temp])

/-- The words of a byte string, four bytes each. -/
def aesWords : List Nat → List (List Nat)
  | a :: b :: c :: d :: rest => [a, b, c, d] :: aesWords rest
  | _ => []

/-- The routine `KeyExpansion`: the `4 * (Nr + 1)` words of the key schedule,
with `Nk = len(key) / 4` and `Nr = Nk + 6`. -/
def aesKeyExpansion (key : List Nat) : List (List Nat) :=
  aesExpandLoop (key.length / 4) (4 * (key.length / 4 + 7) - key.length / 4) (key.length / 4) 1
    (aesWords key)

/-- The round key of round `r`: the words `w[4r]` to `w[4r + 3]`. -/
def aesRoundKey (w : List (List Nat)) (r : Nat) : List Nat :=
  ((w.drop (4 * r)).take 4).flatten

/-- The rounds `r`, `r + 1`, ... of `Cipher`, as many as the first argument
says: `SubBytes`, `ShiftRows`, `MixColumns`, `AddRoundKey`. -/
def aesRounds (w : List (List Nat)) : Nat → Nat → List Nat → List Nat
  | 0, _, s => s
  | n + 1, r, s =>
    aesRounds w n (r + 1)
      (aesAddRoundKey (aesMixColumns (aesShiftRows (aesSubBytes s))) (aesRoundKey w r))

/-- The routine `Cipher` (FIPS 197, figure 5): the encryption of one block
under the key schedule `w` with `nr` rounds; the last round has no
`MixColumns`. -/
def aesCipher (w : List (List Nat)) (nr : Nat) (input : List Nat) : List Nat :=
  aesAddRoundKey
    (aesShiftRows (aesSubBytes (aesRounds w (nr - 1) 1 (aesAddRoundKey input (aesRoundKey w 0)))))
    (aesRoundKey w nr)

/-- The number a byte string stands for, most significant byte first. -/
def beNat (bs : List Nat) : Nat := bs.foldl (fun n b => n <<< 8 ||| b) 0

/-- The `n` low bytes of a number, most significant first. -/
def beBytes : Nat → Nat → List Nat
  | 0, _ => []
  | n + 1, x => ((x >>> (8 * n)) &&& 0xff) :: beBytes n x

/-- The loop of the multiplication in GF(2^128) of SP 800-38D (algorithm 1):
the bits of `x` are read from the most significant one, `z` collects the
product and `v` is shifted right with the reduction by R = 11100001 || 0^120. -/
def gcmMulLoop (x : Nat) : Nat → Nat → Nat → Nat
  | 0, z, _ => z
  | n + 1, z, v =>
    gcmMulLoop x n (if (x >>> n) &&& 1 = 1 then z ^^^ v else z)
      (if v &&& 1 = 1 then (v >>> 1) ^^^ (0xe1 <<< 120) else v >>> 1)

/-- The product of two blocks in GF(2^128). -/
def gcmMul (x y : Nat) : Nat := gcmMulLoop x 128 0 y

/-- The blocks of a byte string, 16 bytes each (the last one may be shorter);
the first argument bounds their number. -/
def gcmBlocks : Nat → List Nat → List (List Nat)
  | 0, _ => []
  | n + 1, bs => if bs = [] then [] else bs.take 16 :: gcmBlocks n (bs.drop 16)

/-- The function GHASH of SP 800-38D (algorithm 2) under the hash subkey
`h`, on a byte string whose length is a multiple of 16. -/
def gcmGHASH (h : Nat) (data : List Nat) : Nat :=
  (gcmBlocks data.length data).foldl (fun y blk => gcmMul (y ^^^ beNat blk) h) 0

/-- A byte string padded with zero bytes to a multiple of 16 bytes. -/
def gcmPad (bs : List Nat) : List Nat := bs ++ List.replicate ((16 - bs.length % 16) % 16) 0

/-- The counter block with the 12-byte nonce and the 32-bit counter `c`. -/
def gcmCounterBlock (nonce : List Nat) (c : Nat) : List Nat := nonce ++ beBytes 4 (c % 2 ^ 32)

/-- The function GCTR of SP 800-38D (algorithm 3) from the counter `c` on:
each block of the text is combined with the encryption of the next counter
block; the first argument bounds the number of blocks. -/
def gcmCTR (w : List (List Nat)) (nr : Nat) (nonce : List Nat) :
    Nat → Nat → List Nat → List Nat
  | 0, _, _ => []
  | n + 1, c, bs =>
    if bs = [] then []
    else
      aesAddRoundKey (bs.take 16) (aesCipher w nr (gcmCounterBlock nonce c))
        ++ gcmCTR w nr nonce n (c + 1) (bs.drop 16)

/-- The tag of a ciphertext: GHASH under H = Cipher(0^128) of the padded
ciphertext followed by the two 64-bit lengths in bits (no associated data),
combined with the encryption of the counter block J0 (counter 1). -/
def gcmTag (w : List (List Nat)) (nr : Nat) (nonce ct : List Nat) : List Nat :=
  aesAddRoundKey
    (beBytes 16 (gcmGHASH (beNat (aesCipher w nr (List.replicate 16 0)))
      (gcmPad ct ++ beBytes 8 0 ++ beBytes 8 (8 * ct.length))))
    (aesCipher w nr (gcmCounterBlock nonce 1))

/-- Go `gcm.Seal(nil, nonce, plaintext, nil)`: the ciphertext (GCTR from the
counter 2 on) followed by the tag. -/
def gcmSeal (key nonce p : List Nat) : List Nat :=
  let w := aesKeyExpansion key
  let nr := key.length / 4 + 6
  let ct := gcmCTR w nr nonce p.length 2 p
  ct ++ gcmTag w nr nonce ct

/-- Go `gcm.Open(nil, nonce, ciphertext, nil)`: `none` (the error "message
authentication failed") when the text is shorter than a tag or its last 16
bytes are not the tag of the rest, the decryption of the rest otherwise. -/
def gcmOpen (key nonce sealed : List Nat) : Option (List Nat) :=
  if sealed.length < 16 then none
  else
    let w := aesKeyExpansion key
    let nr := key.length / 4 + 6
    let ct := sealed.take (sealed.length - 16)
    if gcmTag w nr nonce ct = sealed.drop (sealed.length - 16) then
      some (gcmCTR w nr nonce ct.length 2 ct)
    else none

/-- The AEAD of `cipher.NewGCM(aes.NewCipher(key))` for a key of 16, 24 or
32 bytes and a 12-byte nonce, the only calls `EncryptData` and `DecryptData`
make. -/
def aesGCM : AEAD where
  Seal := fun key nonce p =>
    (gcmSeal (key.map fun c => c.val) (nonce.map fun c => c.val) (p.map fun c => c.val)).map
      fun n => Fin.ofNat n
  Open := fun key nonce sealed =>
    (gcmOpen (key.map fun c => c.val) (nonce.map fun c => c.val)
      (sealed.map fun c => c.val)).map fun l => l.map fun n => Fin.ofNat n

/-! ## internal/crypto/crypto.go -/

/-- Go `EncryptData`. `rnd` is what `io.ReadFull(rand.Reader, nonce)` leaves
in the 12-byte nonce buffer, `none` when it returns an error.
`gcm.Seal(nonce, nonce, inputBytes, nil)` appends the sealed bytes to the
nonce. `cipher.NewGCM` has no error for an AES block. -/
def EncryptData (A : AEAD) (rnd : Option Bytes) (data : Bytes) (cfg : Config) :
    Except Err Bytes :=
  let inputBytes := data
  let sealed : Except Err Bytes :=
    if cfg.UseEncryption then
      if ¬ aesNewCipher cfg.Key then .error .createCipher
      else
        match rnd with
        | none => .error .generateNonce
        | some nonce => .ok (nonce ++ A.Seal cfg.Key nonce inputBytes)
    else .ok inputBytes
  match sealed with
  | .error e => .error e
  | .ok outputBytes =>
    if cfg.OutputMode = "hex" then .ok (hexEncodeToString outputBytes)
    else if cfg.OutputMode = "base64" then .ok (base64EncodeToString outputBytes)
    else if cfg.OutputMode = "binary" then .ok (binaryDigits outputBytes)
    else .ok (hexEncodeToString outputBytes)

/-- The flag `isBinaryFormat` of `DecryptData` after its loop:
`len(data) > 8 && len(data)%8 == 0`, cleared by the first rune other than
'0' and '1'. -/
def isBinaryFormat (data : Bytes) : Bool :=
  (decide (data.length > 8) && decide (data.length % 8 = 0))
    && onlyBinaryRunes data.length data

/-- The chain `hex.DecodeString`, then `base64.StdEncoding.DecodeString`,
then `[]byte(data)` of `DecryptData`. -/
def hexBase64OrRaw (data : Bytes) : Bytes :=
  match hexDecodeString data with
  | some b => b
  | none =>
    match base64DecodeString data with
    | some b => b
    | none => data

/-- The auto-detection block of `DecryptData` (crypto.go lines 69-103): the
value of `inputBytes` when it ends. -/
def detectInputBytes (data : Bytes) : Bytes :=
  if isBinaryFormat data then
    match parseBinaryString data with
    | .ok b => b
    | .error _ => hexBase64OrRaw data
  else hexBase64OrRaw data

/-- Go `DecryptData`. -/
def DecryptData (A : AEAD) (data : Bytes) (cfg : Config) : Except Err Bytes :=
  let inputBytes := detectInputBytes data
  if cfg.UseEncryption then
    if ¬ aesNewCipher cfg.Key then .error .createCipher
    else
      let nonceSize := gcmNonceSize
      if inputBytes.length < nonceSize then .error .ciphertextTooShort
      else
        match A.Open cfg.Key (inputBytes.take nonceSize) (inputBytes.drop nonceSize) with
        | none => .error .decryptFailed
        | some plaintext => .ok plaintext
  else .ok inputBytes

/-! ## Vocabulary of the statements -/

instance instDecidableEqExcept {ε α : Type} [DecidableEq ε] [DecidableEq α] :
    DecidableEq (Except ε α)
  | .ok a, .ok b =>
    if h : a = b then isTrue (by rw [h]) else isFalse (fun h2 => h (Except.ok.inj h2))
  | .error a, .error b =>
    if h : a = b then isTrue (by rw [h]) else isFalse (fun h2 => h (Except.error.inj h2))
  | .ok _, .error _ => isFalse (fun h => by cases h)
  | .error _, .ok _ => isFalse (fun h => by cases h)

/-- The character is '0' or '1'. -/
def isBinaryDigit (c : Byte) : Bool := c.val = 0x30 || c.val = 0x31

/-- The character is in the hex alphabet [0-9a-fA-F]. -/
def isHexDigit (c : Byte) : Bool :=
  (0x30 ≤ c.val && c.val ≤ 0x39) || (0x61 ≤ c.val && c.val ≤ 0x66)
    || (0x41 ≤ c.val && c.val ≤ 0x46)

/-- The character is a lowercase hex digit [0-9a-f]. -/
def isLowerHexDigit (c : Byte) : Bool :=
  (0x30 ≤ c.val && c.val ≤ 0x39) || (0x61 ≤ c.val && c.val ≤ 0x66)

/-- The character '0' or '1' for bit `7 - j` of `b`: position `j` of the
most-significant-bit-first binary representation of a byte. -/
def msbBitChar (b : Byte) (j : Nat) : Byte :=
  Fin.ofNat (0x30 + b.val / 2 ^ (7 - j) % 2)

/-- The value of a group of '0'/'1' characters read most significant bit
first. -/
def msbValue (s : Bytes) : Nat :=
  s.foldl (fun n c => 2 * n + (c.val - 0x30)) 0

/-- The binary-digit candidate test of the specification: more than 8
characters, a multiple of 8 of them, each '0' or '1'. -/
def isBinaryCandidate (text : Bytes) : Bool :=
  decide (text.length > 8) && decide (text.length % 8 = 0) && text.all isBinaryDigit

/-- The character '0' or '1' of a bit. -/
def bitChar (d : Fin 2) : Byte := Fin.ofNat (0x30 + d.val)

/-- A 32-byte key of zero bytes, for concrete instances. -/
def zeroKey : Bytes := List.replicate 32 0

/-- The configuration `New()` builds, with the given output mode and
encryption switch and `zeroKey` as its key, for concrete instances. -/
def sampleConfig (outputMode : String) (useEncryption : Bool) : Config :=
  Config.mk "encrypt" "text" outputMode zeroKey [] none true useEncryption

/-- A toy AEAD for concrete instances: sealing appends a tag of 16 zero
bytes to the plaintext, opening checks and removes it. It satisfies
open-after-seal for every key, nonce and plaintext. -/
def zeroTagAEAD : AEAD where
  Seal := fun _ _ p => p ++ List.replicate 16 0
  Open := fun _ _ c =>
    if 16 ≤ c.length ∧ c.drop (c.length - 16) = List.replicate 16 0 then
      some (c.take (c.length - 16))
    else none

/-- A 12-byte nonce of the bytes 0x00, 0x01, 0x10 and 0x11, for concrete
instances. -/
def misreadHexNonce : Bytes :=
  [0x01, 0x10, 0x11, 0x00, 0x01, 0x10, 0x11, 0x00, 0x01, 0x10, 0x11, 0x00]

/-- A 52-byte plaintext for concrete instances: under `zeroKey` and
`misreadHexNonce`, AES-GCM seals it to 68 bytes that are all 0x00, 0x01, 0x10
or 0x11. -/
def misreadHexPlain : Bytes :=
  [0x66, 0x7d, 0x72, 0x60, 0x15, 0xc8, 0xa3, 0x18, 0xe0, 0xda, 0xfa, 0xf4,
    0x8d, 0x17, 0x44, 0x2d, 0xe6, 0xdc, 0xeb, 0x1a, 0xe0, 0x59, 0xee, 0xe2,
    0x32, 0xd6, 0xbd, 0x57, 0xac, 0x7c, 0x73, 0xda, 0x72, 0xdb, 0x6b, 0xbb,
    0xb1, 0x3e, 0x42, 0xdb, 0x5a, 0xfe, 0xd3, 0x23, 0xae, 0x6a, 0xb1, 0x4d,
    0x75, 0x66, 0x0a, 0x57]

/-- A 12-byte nonce whose base64 text is "0123012301230123", for concrete
instances. -/
def misreadBase64Nonce : Bytes :=
  [0xd3, 0x5d, 0xb7, 0xd3, 0x5d, 0xb7, 0xd3, 0x5d, 0xb7, 0xd3, 0x5d, 0xb7]

/-- A 35-byte plaintext for concrete instances: under `zeroKey` and
`misreadBase64Nonce`, AES-GCM seals it to 51 bytes whose base64 text has the
characters '0' to '3' only. -/
def misreadBase64Plain : Bytes :=
  [0x00, 0x0b, 0x77, 0x47, 0xff, 0xc8, 0x7f, 0x59, 0x97, 0x98, 0x92, 0x5e,
    0xbc, 0x57, 0x6c, 0xb4, 0xdf, 0xdf, 0x03, 0x06, 0x94, 0x7a, 0x56, 0x4b,
    0x6a, 0xa4, 0xc8, 0x21, 0x03, 0x6c, 0x83, 0xf1, 0x4f, 0xa4, 0xa4]

/-- A 12-byte nonce (twelve 0xAA bytes), for concrete instances. -/
def sampleNonce : Bytes := List.replicate 12 0xAA

/-- The plaintext "hi", for concrete instances. -/
def samplePlain : Bytes := [0x68, 0x69]

/-! ## internal/discord/discord.go: the client -/

/-- A Go run-time panic. -/
inductive GoPanic where
  /-- The panic "slice bounds out of range". -/
  | sliceBoundsOutOfRange
  deriving DecidableEq, Repr

/-- Go `discord.New`: the token and the DM id are read from the environment
variables DISCORD_USER_TOKEN and DISCORD_DM_ID, given here as arguments. -/
def Client.New (envToken envDMID : Bytes) : Client :=
  Client.mk envToken envDMID (decide (envToken ≠ []) && decide (envDMID ≠ []))

/-- Go `(*Client).IsEnabled`. -/
def Client.IsEnabled (c : Client) : Bool := c.enabled

/-- Go `(*Client).SetDMID`: the client after the call and the returned
boolean. -/
def Client.SetDMID (c : Client) (dmID : Bytes) : Client × Bool :=
  if dmID = [] then (c, false)
  else (Client.mk c.token dmID (decide (c.token ≠ []) && decide (dmID ≠ [])), true)

/-- Go `(*Client).GetDMID`. -/
def Client.GetDMID (c : Client) : Bytes := c.dmID

/-- The Go slice expression `s[:n]` of a string: a run-time panic when `n`
exceeds the length. -/
def sliceTo (s : Bytes) (n : Nat) : Except GoPanic Bytes :=
  if n ≤ s.length then .ok (s.take n) else .error .sliceBoundsOutOfRange

/-- The bytes of a Go string literal made of ASCII characters. -/
def ascii (s : String) : Bytes :=
  s.toList.map (fun c => Fin.ofNat c.toNat)

/-- Go `(*Client).GetStatus`: the status word and the detail text, or the
panic of the slice expression `c.dmID[:8]`. -/
def Client.GetStatus (c : Client) : Except GoPanic (String × Bytes) :=
  let ready : Except GoPanic (String × Bytes) :=
    match sliceTo c.dmID 8 with
    | .error e => .error e
    | .ok head => .ok ("enabled", ascii "Ready to send to " ++ (head ++ ascii "..."))
  if ¬ c.enabled then
    if c.token = [] ∧ c.dmID = [] then
      .ok ("disabled", ascii "DISCORD_USER_TOKEN and DISCORD_DM_ID not set")
    else if c.token = [] then .ok ("disabled", ascii "DISCORD_USER_TOKEN not set")
    else if c.dmID = [] then .ok ("disabled", ascii "DISCORD_DM_ID not set")
    else ready
  else ready

/-- One call on a `Client` that changes or reads its state. -/
inductive ClientOp where
  /-- The call `SetDMID(dmID)`. -/
  | SetDMID (dmID : Bytes)
  /-- The call `IsEnabled()`. -/
  | IsEnabled
  /-- The call `GetDMID()`. -/
  | GetDMID

/-- The client after one call. -/
def Client.apply (c : Client) : ClientOp → Client
  | .SetDMID dmID => (c.SetDMID dmID).1
  | .IsEnabled => c
  | .GetDMID => c

/-- The client after a sequence of calls, first call first. -/
def Client.run (c : Client) : List ClientOp → Client
  | [] => c
  | op :: ops => Client.run (c.apply op) ops

/-! ## unicode, unicode/utf8 and strings: what `strings.TrimSpace` needs -/

/-- Go `unicode.IsSpace`: '\t', '\n', '\v', '\f', '\r', ' ', U+0085, U+00A0
in Latin-1, and beyond it the White_Space table: U+1680, U+2000..U+200A,
U+2028, U+2029, U+202F, U+205F, U+3000. -/
def isSpaceRune (r : Nat) : Bool :=
  r = 0x09 || r = 0x0A || r = 0x0B || r = 0x0C || r = 0x0D || r = 0x20 || r = 0x85
    || r = 0xA0 || r = 0x1680 || (0x2000 ≤ r && r ≤ 0x200A) || r = 0x2028 || r = 0x2029
    || r = 0x202F || r = 0x205F || r = 0x3000

/-- Go `utf8.RuneStart`: the byte is not a continuation byte (0x80..0xBF). -/
def runeStart (b : Byte) : Bool := ¬ (0x80 ≤ b.val ∧ b.val ≤ 0xBF)

/-- The end of `utf8.DecodeLastRuneInString`: the window `s[start:end]` is
decoded forwards, and the result stands only when it fills the window;
otherwise the last byte alone is `RuneError` of width 1. -/
def decodeWindow (w : Bytes) : Nat × Nat :=
  if (decodeRuneInString w).2 = w.length then decodeRuneInString w else (0xFFFD, 1)

/-- Go `utf8.DecodeLastRuneInString`: the last rune of `s` and its width. A
last byte below 0x80 is its own rune; otherwise the loop walks back over at
most 3 bytes to the nearest rune start (stopping at the start of the string,
or one byte further when none of the 3 is a rune start) and decodes the
window from there. The empty string is `RuneError` of width 0. -/
def decodeLastRuneInString (s : Bytes) : Nat × Nat :=
  match s.reverse with
  | [] => (0xFFFD, 0)
  | b0 :: before =>
    if b0.val < 0x80 then (b0.val, 1)
    else
      match before with
      | [] => decodeWindow [b0]
      | b1 :: before1 =>
        if runeStart b1 then decodeWindow [b1, b0]
        else
          match before1 with
          | [] => decodeWindow [b1, b0]
          | b2 :: before2 =>
            if runeStart b2 then decodeWindow [b2, b1, b0]
            else
              match before2 with
              | [] => decodeWindow [b2, b1, b0]
              | b3 :: before3 =>
                if runeStart b3 then decodeWindow [b3, b2, b1, b0]
                else
                  match before3 with
                  | [] => decodeWindow [b3, b2, b1, b0]
                  | b4 :: _ => decodeWindow [b4, b3, b2, b1, b0]

/-- Go `strings.TrimLeftFunc(s, unicode.IsSpace)`: the runes of `s` are
ranged over from the front and `s` is cut at the first one that is not a
space; the empty string when there is none. The first argument bounds the
number of iterations; `s.length` is enough. -/
def trimLeftSpace : Nat → Bytes → Bytes
  | 0, s => s
  | _ + 1, [] => []
  | fuel + 1, c :: t =>
    if isSpaceRune (decodeRuneInString (c :: t)).1 then
      trimLeftSpace fuel ((c :: t).drop (decodeRuneInString (c :: t)).2)
    else c :: t

/-- Go `lastIndexFunc(s, unicode.IsSpace, false)` of package strings: the
runes of `s` are decoded from the back, and the index of the last one that is
not a space is returned, `none` (the Go -1) when there is none. The first
argument bounds the number of iterations; `s.length` is enough. -/
def lastIndexNotSpace : Nat → Bytes → Option Nat
  | 0, _ => none
  | fuel + 1, s =>
    if s = [] then none
    else if isSpaceRune (decodeLastRuneInString s).1 then
      lastIndexNotSpace fuel (s.take (s.length - (decodeLastRuneInString s).2))
    else some (s.length - (decodeLastRuneInString s).2)

/-- Go `strings.TrimRightFunc(s, unicode.IsSpace)`: `s` is cut after the last
rune that is not a space, whose width is taken by decoding forwards when its
first byte is 0x80 or above. -/
def trimRightSpace (s : Bytes) : Bytes :=
  match lastIndexNotSpace s.length s with
  | none => []
  | some i =>
    if 0x80 ≤ (s.getD i 0).val then s.take (i + (decodeRuneInString (s.drop i)).2)
    else s.take (i + 1)

/-- Go `strings.TrimSpace`: `TrimFunc(s, unicode.IsSpace)`, the right trim of
the left trim (the ASCII fast path of the Go code returns the same). -/
def TrimSpace (s : Bytes) : Bytes :=
  trimRightSpace (trimLeftSpace s.length s)

/-! ## regexp: the pattern of `ValidateText2BabeMessage`

Go's regexp returns the match a backtracking search finds first. Each
construct of the pattern is a function from the rest of the input and a
continuation to the first successful result. The input is matched rune by
rune; for a literal or `\s`, whose runes are ASCII or valid UTF-8 literals,
that is the comparison of bytes. -/

/-- A literal: the input has to start with it. -/
def reLit {α : Type} : Bytes → Bytes → (Bytes → Option α) → Option α
  | [], s, k => k s
  | _ :: _, [], _ => none
  | c :: l, d :: s, k => if c = d then reLit l s k else none

/-- A character class of single bytes, such as `\s`. -/
def reClass {α : Type} (p : Byte → Bool) : Bytes → (Bytes → Option α) → Option α
  | [], _ => none
  | c :: s, k => if p c then k s else none

/-- A greedy star of a class, such as `\s*`: the longest run is tried first,
then shorter ones. -/
def reStarGreedy {α : Type} (p : Byte → Bool) : Bytes → (Bytes → Option α) → Option α
  | [], k => k []
  | c :: s, k =>
    if p c then
      match reStarGreedy p s k with
      | some r => some r
      | none => k (c :: s)
    else k (c :: s)

/-- An alternation `a|b`: the left branch first. -/
def reAlt {α : Type} (a b : Option α) : Option α :=
  match a with
  | some r => some r
  | none => b

/-- The group `(.*?)`: a lazy star of any rune but '\n'; the shortest run is
tried first, then one more rune. The continuation gets the captured text and
the rest of the input. The first argument bounds the number of runes; the
length of the input is enough. The second is the text captured so far. -/
def reLazyDot {α : Type} : Nat → Bytes → Bytes → (Bytes → Bytes → Option α) → Option α
  | 0, acc, s, k => k acc s
  | fuel + 1, acc, s, k =>
    reAlt (k acc s)
      (if s = [] then none
        else if (decodeRuneInString s).1 = 0x0A then none
        else
          reLazyDot fuel (acc ++ s.take (decodeRuneInString s).2)
            (s.drop (decodeRuneInString s).2) k)

/-- The Go regexp class `\s`: the bytes of "\t\n\f\r ". -/
def isSpaceRE (c : Byte) : Bool :=
  c.val = 0x09 || c.val = 0x0A || c.val = 0x0C || c.val = 0x0D || c.val = 0x20

/-! ## internal/discord/discord.go: the envelope -/

/-- The first direction marker, as the bytes of the source file: the emoji
literal of `SendEncryptedData` for every mode but "decrypt" and the first
alternative of the pattern. -/
def lockMarker : Bytes := [0xC3, 0xB0, 0xC5, 0xB8, 0xE2, 0x80, 0x9D, 0xE2, 0x80, 0x99]

/-- The second direction marker, as the bytes of the source file: the emoji
literal of `SendEncryptedData` for the mode "decrypt" and the second
alternative of the pattern. -/
def unlockMarker : Bytes := [0xC3, 0xB0, 0xC5, 0xB8, 0xE2, 0x80, 0x9D, 0xE2, 0x80, 0x9C]

/-- The text "**Text2Babe". -/
def text2BabeLabel : Bytes :=
  [0x2A, 0x2A, 0x54, 0x65, 0x78, 0x74, 0x32, 0x42, 0x61, 0x62, 0x65]

/-- The text "encrypt". -/
def encryptWord : Bytes := [0x65, 0x6E, 0x63, 0x72, 0x79, 0x70, 0x74]

/-- The text "decrypt". -/
def decryptWord : Bytes := [0x64, 0x65, 0x63, 0x72, 0x79, 0x70, 0x74]

/-- The text "**". -/
def boldMark : Bytes := [0x2A, 0x2A]

/-- The fence on a line of its own: a newline and three backticks (the
`\n\x60\x60\x60` of the pattern). -/
def fence : Bytes := [0x0A, 0x60, 0x60, 0x60]

/-- The message `SendEncryptedData` builds with
`fmt.Sprintf("%s **Text2Babe %s**\n` + "```" + `\n%s\n` + "```" + `", emoji,
mode, data)`, before it is sent. -/
def encryptedDataMessage (data mode : Bytes) : Bytes :=
  (if mode = decryptWord then unlockMarker else lockMarker)
    ++ ([0x20] ++ (text2BabeLabel ++ ([0x20] ++ (mode ++ (boldMark ++ (fence ++ ([0x0A]
      ++ (data ++ fence))))))))

/-- The end of the pattern, `\s*\n` and the fence and `$`, after the three
groups have been captured. -/
def patternClose (g1 g2 g3 : Bytes) (s : Bytes) : Option (Bytes × Bytes × Bytes) :=
  reStarGreedy isSpaceRE s fun s11 =>
    reLit fence s11 fun s12 => if s12 = [] then some (g1, g2, g3) else none

/-- The pattern after the mode word: `\*\*\s*\n`, the fence, `\s*(.*?)` and
`patternClose`. -/
def patternBody (g1 g2 : Bytes) (s : Bytes) : Option (Bytes × Bytes × Bytes) :=
  reLit boldMark s fun s6 =>
    reStarGreedy isSpaceRE s6 fun s7 =>
      reLit fence s7 fun s8 =>
        reStarGreedy isSpaceRE s8 fun s9 =>
          reLazyDot s9.length [] s9 fun g3 s10 => patternClose g1 g2 g3 s10

/-- The pattern after the marker: `\s\*\*Text2Babe\s(encrypt|decrypt)` and
`patternBody`. -/
def patternHead (g1 : Bytes) (s : Bytes) : Option (Bytes × Bytes × Bytes) :=
  reClass isSpaceRE s fun s2 =>
    reLit text2BabeLabel s2 fun s3 =>
      reClass isSpaceRE s3 fun s4 =>
        reAlt (reLit encryptWord s4 (patternBody g1 encryptWord))
          (reLit decryptWord s4 (patternBody g1 decryptWord))

/-- Go `text2babePattern.FindStringSubmatch(s)`: the three groups of the
first match of the pattern (the whole match is the whole of `s`, since the
pattern is anchored at both ends), or `none` for the nil slice of no match. -/
def FindStringSubmatch (s : Bytes) : Option (Bytes × Bytes × Bytes) :=
  reAlt (reLit lockMarker s (patternHead lockMarker))
    (reLit unlockMarker s (patternHead unlockMarker))

/-- The errors of `ValidateText2BabeMessage`. -/
inductive ValidateErr where
  /-- The error "message is not from text2babe (invalid format)". -/
  | notFromText2Babe
  /-- The error "no encrypted data found in message". -/
  | noEncryptedData
  deriving DecidableEq, Repr

/-- Go `(*Client).ValidateText2BabeMessage` on the content of the message:
the payload and the mode, or the error. -/
def ValidateText2BabeMessage (content : Bytes) : Except ValidateErr (Bytes × Bytes) :=
  match FindStringSubmatch (TrimSpace content) with
  | none => .error .notFromText2Babe
  | some (_, mode, g3) =>
    if TrimSpace g3 = [] then .error .noEncryptedData else .ok (TrimSpace g3, mode)

/-! ## internal/config/config.go: the methods -/

/-- The text "default-password". -/
def defaultPassword : Bytes :=
  [0x64, 0x65, 0x66, 0x61, 0x75, 0x6c, 0x74, 0x2d, 0x70, 0x61, 0x73, 0x73, 0x77, 0x6f, 0x72,
    0x64]

/-- Go `generateKey`: the SHA-256 digest of the password. `sum256` stands
for `sha256.Sum256`, whose Go result type is `[32]byte`. -/
def generateKey (sum256 : Bytes → Bytes) (password : Bytes) : Bytes :=
  sum256 password

/-- Go `config.New`. -/
def Config.New (sum256 : Bytes → Bytes) : Config :=
  Config.mk "encrypt" "text" "hex" (generateKey sum256 defaultPassword) defaultPassword none
    true false

/-- Go `(*Config).SetMode`: the configuration after the call and the
returned boolean. -/
def Config.SetMode (c : Config) (mode : String) : Config × Bool :=
  if mode = "encrypt" ∨ mode = "decrypt" then
    (Config.mk mode c.DataType c.OutputMode c.Key c.KeySource c.Discord c.SendToDiscord
      c.UseEncryption, true)
  else (c, false)

/-- Go `(*Config).SetDataType`. -/
def Config.SetDataType (c : Config) (dataType : String) : Config × Bool :=
  if dataType = "text" ∨ dataType = "binary" then
    (Config.mk c.Mode dataType c.OutputMode c.Key c.KeySource c.Discord c.SendToDiscord
      c.UseEncryption, true)
  else (c, false)

/-- Go `(*Config).SetOutputMode`. -/
def Config.SetOutputMode (c : Config) (outputMode : String) : Config × Bool :=
  if outputMode = "hex" ∨ outputMode = "base64" ∨ outputMode = "binary" then
    (Config.mk c.Mode c.DataType outputMode c.Key c.KeySource c.Discord c.SendToDiscord
      c.UseEncryption, true)
  else (c, false)

/-- Go `(*Config).ToggleMode`. -/
def Config.ToggleMode (c : Config) : Config :=
  Config.mk (if c.Mode = "encrypt" then "decrypt" else "encrypt") c.DataType c.OutputMode
    c.Key c.KeySource c.Discord c.SendToDiscord c.UseEncryption

/-- Go `(*Config).ToggleDataType`. -/
def Config.ToggleDataType (c : Config) : Config :=
  Config.mk c.Mode (if c.DataType = "text" then "binary" else "text") c.OutputMode c.Key
    c.KeySource c.Discord c.SendToDiscord c.UseEncryption

/-- Go `(*Config).ToggleOutputMode`. -/
def Config.ToggleOutputMode (c : Config) : Config :=
  Config.mk c.Mode c.DataType
    (if c.OutputMode = "hex" then "base64"
      else if c.OutputMode = "base64" then "binary"
      else if c.OutputMode = "binary" then "hex"
      else "hex")
    c.Key c.KeySource c.Discord c.SendToDiscord c.UseEncryption

/-- Go `(*Config).SetKey`. -/
def Config.SetKey (sum256 : Bytes → Bytes) (c : Config) (password : Bytes) : Config :=
  Config.mk c.Mode c.DataType c.OutputMode (generateKey sum256 password) password c.Discord
    c.SendToDiscord c.UseEncryption

/-- Go `(*Config).IsDefaultKey`. -/
def Config.IsDefaultKey (c : Config) : Bool := c.KeySource = defaultPassword

/-- Go `(*Config).GetDiscord`: the configuration after the call (the client
is created on first use from the environment) and the client. -/
def Config.GetDiscord (envToken envDMID : Bytes) (c : Config) : Config × Client :=
  match c.Discord with
  | some d => (c, d)
  | none =>
    (Config.mk c.Mode c.DataType c.OutputMode c.Key c.KeySource
      (some (Client.New envToken envDMID)) c.SendToDiscord c.UseEncryption,
      Client.New envToken envDMID)

/-- Go `(*Config).ToggleDiscord`. -/
def Config.ToggleDiscord (envToken envDMID : Bytes) (c : Config) : Config × Bool :=
  let cd := Config.GetDiscord envToken envDMID c
  if ¬ cd.2.IsEnabled then (cd.1, false)
  else
    (Config.mk cd.1.Mode cd.1.DataType cd.1.OutputMode cd.1.Key cd.1.KeySource cd.1.Discord
      (!cd.1.SendToDiscord) cd.1.UseEncryption, true)

/-- Go `(*Config).SetDiscordSending`. -/
def Config.SetDiscordSending (envToken envDMID : Bytes) (c : Config) (enabled : Bool) :
    Config × Bool :=
  let cd := Config.GetDiscord envToken envDMID c
  if enabled ∧ ¬ cd.2.IsEnabled then (cd.1, false)
  else
    (Config.mk cd.1.Mode cd.1.DataType cd.1.OutputMode cd.1.Key cd.1.KeySource cd.1.Discord
      enabled cd.1.UseEncryption, true)

/-- The mode update shared by `ToggleEncryption` and `SetEncryption`: with
encryption on, "encode" becomes "encrypt" and "decode" becomes "decrypt";
with encryption off, the other way round; any other mode is left as it is. -/
def modeForEncryption (useEncryption : Bool) (mode : String) : String :=
  if useEncryption then
    if mode = "encode" then "encrypt"
    else if mode = "decode" then "decrypt"
    else mode
  else
    if mode = "encrypt" then "encode"
    else if mode = "decrypt" then "decode"
    else mode

/-- Go `(*Config).ToggleEncryption`. -/
def Config.ToggleEncryption (c : Config) : Config :=
  Config.mk (modeForEncryption (!c.UseEncryption) c.Mode) c.DataType c.OutputMode c.Key
    c.KeySource c.Discord c.SendToDiscord (!c.UseEncryption)

/-- Go `(*Config).SetEncryption`. -/
def Config.SetEncryption (c : Config) (enabled : Bool) : Config :=
  Config.mk (modeForEncryption enabled c.Mode) c.DataType c.OutputMode c.Key c.KeySource
    c.Discord c.SendToDiscord enabled

/-- One call of a `Config` method. -/
inductive ConfigOp where
  /-- The call `SetMode(mode)`. -/
  | SetMode (mode : String)
  /-- The call `SetDataType(dataType)`. -/
  | SetDataType (dataType : String)
  /-- The call `SetOutputMode(outputMode)`. -/
  | SetOutputMode (outputMode : String)
  /-- The call `ToggleMode()`. -/
  | ToggleMode
  /-- The call `ToggleDataType()`. -/
  | ToggleDataType
  /-- The call `ToggleOutputMode()`. -/
  | ToggleOutputMode
  /-- The call `SetKey(password)`. -/
  | SetKey (password : Bytes)
  /-- The call `GetKeyFingerprint()`. -/
  | GetKeyFingerprint
  /-- The call `IsDefaultKey()`. -/
  | IsDefaultKey
  /-- The call `GetDiscord()`. -/
  | GetDiscord
  /-- The call `ToggleDiscord()`. -/
  | ToggleDiscord
  /-- The call `SetDiscordSending(enabled)`. -/
  | SetDiscordSending (enabled : Bool)
  /-- The call `ToggleEncryption()`. -/
  | ToggleEncryption
  /-- The call `SetEncryption(enabled)`. -/
  | SetEncryption (enabled : Bool)

/-- The configuration after one method call. -/
def Config.apply (sum256 : Bytes → Bytes) (envToken envDMID : Bytes) (c : Config) :
    ConfigOp → Config
  | .SetMode mode => (c.SetMode mode).1
  | .SetDataType dataType => (c.SetDataType dataType).1
  | .SetOutputMode outputMode => (c.SetOutputMode outputMode).1
  | .ToggleMode => c.ToggleMode
  | .ToggleDataType => c.ToggleDataType
  | .ToggleOutputMode => c.ToggleOutputMode
  | .SetKey password => Config.SetKey sum256 c password
  | .GetKeyFingerprint => c
  | .IsDefaultKey => c
  | .GetDiscord => (Config.GetDiscord envToken envDMID c).1
  | .ToggleDiscord => (Config.ToggleDiscord envToken envDMID c).1
  | .SetDiscordSending enabled => (Config.SetDiscordSending envToken envDMID c enabled).1
  | .ToggleEncryption => c.ToggleEncryption
  | .SetEncryption enabled => c.SetEncryption enabled

/-- The configuration after a sequence of method calls, first call first. -/
def Config.run (sum256 : Bytes → Bytes) (envToken envDMID : Bytes) (c : Config) :
    List ConfigOp → Config
  | [] => c
  | op :: ops => Config.run sum256 envToken envDMID (Config.apply sum256 envToken envDMID c op) ops

/-- A stand-in for SHA-256 in concrete instances: every digest is 32 zero
bytes. -/
def zeroSum256 : Bytes → Bytes := fun _ => zeroKey

/-- What `SetEncryption` and `ToggleEncryption` owe their caller: in `after`
the mode is an encrypt/decrypt word when encryption is on and an
encode/decode word when it is off, the direction (en- or de-) is the one of
`before`, and every field other than `Mode` and `UseEncryption` is the one of
`before`. -/
def modeFollowsEncryption (before after : Config) : Prop :=
  (after.UseEncryption = true → after.Mode = "encrypt" ∨ after.Mode = "decrypt")
    ∧ (after.UseEncryption = false → after.Mode = "encode" ∨ after.Mode = "decode")
    ∧ ((after.Mode = "encrypt" ∨ after.Mode = "encode")
        ↔ (before.Mode = "encrypt" ∨ before.Mode = "encode"))
    ∧ after.DataType = before.DataType ∧ after.OutputMode = before.OutputMode
    ∧ after.Key = before.Key ∧ after.KeySource = before.KeySource
    ∧ after.Discord = before.Discord ∧ after.SendToDiscord = before.SendToDiscord

/-- The string starts with a whitespace rune (Go `unicode.IsSpace` of its
first rune). -/
def hasLeadingSpace (s : Bytes) : Bool := isSpaceRune (decodeRuneInString s).1

/-- The string ends with a whitespace rune (Go `unicode.IsSpace` of its last
rune). -/
def hasTrailingSpace (s : Bytes) : Bool := isSpaceRune (decodeLastRuneInString s).1

/-- The text begins with one of the two direction markers, then a character
of the class `\s`, then the literal "**Text2Babe". -/
def beginsLikeEnvelope (text : Bytes) : Prop :=
  ∃ (c : Byte) (rest : Bytes), isSpaceRE c = true
    ∧ (text = lockMarker ++ (c :: (text2BabeLabel ++ rest))
      ∨ text = unlockMarker ++ (c :: (text2BabeLabel ++ rest)))

/-- The text ends with a newline followed by the closing fence. -/
def endsWithFence (text : Bytes) : Prop :=
  ∃ front : Bytes, text = front ++ fence

/-- The states of a scanner for the texts the pattern can match after the
mode word: `star1`, `star2` before and after the first '*', `gap` in the
whitespace after "**", `line` right after a newline of it, `tick1`, `tick2`
after one and two backticks, `lead` in the whitespace after the fence,
`body` in the payload, `trail` after a newline that follows the payload,
`dead` when no match is possible. -/
inductive Scan where
  | star1 | star2 | gap | line | tick1 | tick2 | lead | body | trail | dead
  deriving DecidableEq, Repr

/-- One step of the scanner. -/
def Scan.step (q : Scan) (c : Byte) : Scan :=
  match q with
  | .star1 => if c.val = 0x2A then .star2 else .dead
  | .star2 => if c.val = 0x2A then .gap else .dead
  | .gap => if c.val = 0x0A then .line else if isSpaceRE c then .gap else .dead
  | .line =>
    if c.val = 0x0A then .line
    else if isSpaceRE c then .gap
    else if c.val = 0x60 then .tick1
    else .dead
  | .tick1 => if c.val = 0x60 then .tick2 else .dead
  | .tick2 => if c.val = 0x60 then .lead else .dead
  | .lead => if isSpaceRE c then .lead else .body
  | .body => if c.val = 0x0A then .trail else .body
  | .trail => if isSpaceRE c then .trail else .dead
  | .dead => .dead

/-- The scanner run over a text. -/
def Scan.run (q : Scan) : Bytes → Scan
  | [] => q
  | c :: t => Scan.run (q.step c) t

/-! ## Lemmas: binary digits -/

set_option maxRecDepth 1000000 in
theorem sprintf08b_eq (b : Byte) :
    sprintf08b b = [msbBitChar b 0, msbBitChar b 1, msbBitChar b 2, msbBitChar b 3,
      msbBitChar b 4, msbBitChar b 5, msbBitChar b 6, msbBitChar b 7] := by
  revert b; decide

set_option maxRecDepth 1000000 in
theorem parseUint2w8_sprintf08b (b : Byte) : parseUint2w8 (sprintf08b b) = some b.val := by
  revert b; decide

set_option maxRecDepth 1000000 in
theorem sprintf08b_all_binary (b : Byte) : (sprintf08b b).all isBinaryDigit = true := by
  revert b; decide

theorem sprintf08b_length (b : Byte) : (sprintf08b b).length = 8 := by
  rw [sprintf08b_eq]; rfl

theorem binaryDigits_length (B : Bytes) : (binaryDigits B).length = 8 * B.length := by
  induction B with
  | nil => rfl
  | cons b rest ih =>
    simp only [binaryDigits, List.length_append, sprintf08b_length, ih, List.length_cons]
    omega

theorem binaryDigits_all_binary (B : Bytes) : (binaryDigits B).all isBinaryDigit = true := by
  induction B with
  | nil => rfl
  | cons b rest ih =>
    simp only [binaryDigits, List.all_append, sprintf08b_all_binary, ih, Bool.and_self]

theorem decodeContinuation_ge (sz lo hi : Nat) (s0 : Byte) (t : Bytes) (hhi : hi ≤ 0xBF)
    (h : 0xC2 ≤ s0.val ∧ s0.val < 0xE0 ∧ sz = 2
      ∨ 0xE0 ≤ s0.val ∧ s0.val < 0xF0 ∧ sz = 3 ∧ (0xE1 ≤ s0.val ∨ 0xA0 ≤ lo)
      ∨ 0xF0 ≤ s0.val ∧ s0.val < 0xF8 ∧ sz = 4 ∧ (0xF1 ≤ s0.val ∨ 0x90 ≤ lo)) :
    0x80 ≤ (decodeContinuation sz lo hi s0 t).1 := by
  have hc := s0.isLt
  unfold decodeContinuation
  split
  · split_ifs
    · simp
    · dsimp only; omega
  · rename_i s1 s2 _
    have h1 := s1.isLt
    split_ifs
    · simp
    · simp
    · dsimp only; omega
  · rename_i s1 s2 s3 _
    have h1 := s1.isLt
    split_ifs
    · simp
    · simp
    · simp
    · dsimp only; omega
  · simp

theorem decodeRune_ge (c : Byte) (t : Bytes) (h1 : ¬ c.val < 0x80) :
    0x80 ≤ (decodeRuneInString (c :: t)).1 := by
  have hc := c.isLt
  unfold decodeRuneInString
  simp only [h1, if_false]
  split_ifs
  · simp
  all_goals (apply decodeContinuation_ge <;> omega)

theorem decodeRune_binary (c : Byte) (t : Bytes)
    (h : ¬ ((decodeRuneInString (c :: t)).1 ≠ 0x30 ∧ (decodeRuneInString (c :: t)).1 ≠ 0x31)) :
    isBinaryDigit c = true ∧ (decodeRuneInString (c :: t)).2 = 1 := by
  by_cases h1 : c.val < 0x80
  · simp only [decodeRuneInString, h1, if_true] at h ⊢
    simp only [isBinaryDigit, Bool.or_eq_true, decide_eq_true_eq]
    refine ⟨?_, trivial⟩
    omega
  · have := decodeRune_ge c t h1
    omega



theorem decodeRune_of_binary (c : Byte) (t : Bytes) (h : isBinaryDigit c = true) :
    decodeRuneInString (c :: t) = (c.val, 1) := by
  simp only [isBinaryDigit, Bool.or_eq_true, decide_eq_true_eq] at h
  have h1 : c.val < 0x80 := by omega
  simp only [decodeRuneInString, h1, if_true]

theorem onlyBinaryRunes_eq (fuel : Nat) (s : Bytes) (h : s.length ≤ fuel) :
    onlyBinaryRunes fuel s = s.all isBinaryDigit := by
  induction fuel generalizing s with
  | zero =>
    cases s with
    | nil => rfl
    | cons c t => simp at h
  | succ n ih =>
    cases s with
    | nil => rfl
    | cons c t =>
      have ht : t.length ≤ n := by simpa using h
      by_cases hb : isBinaryDigit c = true
      · have hr := decodeRune_of_binary c t hb
        have hb2 := hb
        simp only [isBinaryDigit, Bool.or_eq_true, decide_eq_true_eq] at hb2
        have hne : ¬ (c.val ≠ 0x30 ∧ c.val ≠ 0x31) := by omega
        simp only [onlyBinaryRunes, hr, hne, if_false, List.all_cons, hb, Bool.true_and,
          List.drop_succ_cons, List.drop_zero]
        exact ih t ht
      · have hr : (decodeRuneInString (c :: t)).1 ≠ 0x30
            ∧ (decodeRuneInString (c :: t)).1 ≠ 0x31 := by
          by_contra hcon
          exact hb (decodeRune_binary c t hcon).1
        simp only [onlyBinaryRunes, List.all_cons]
        rw [if_pos hr]
        simp [hb]

theorem isBinaryFormat_eq (data : Bytes) : isBinaryFormat data = isBinaryCandidate data := by
  simp only [isBinaryFormat, isBinaryCandidate, onlyBinaryRunes_eq _ _ (Nat.le_refl _)]

theorem removeByte_of_binary (old : Byte) (s : Bytes) (h : s.all isBinaryDigit = true)
    (hold : isBinaryDigit old = false) : removeByte old s = s := by
  unfold removeByte
  rw [List.filter_eq_self]
  intro c hc
  rw [List.all_eq_true] at h
  have := h c hc
  simp only [ne_eq, decide_not, Bool.not_eq_eq_eq_not, Bool.not_true, decide_eq_false_iff_not]
  intro heq
  rw [heq] at this
  rw [this] at hold
  cases hold

theorem parseBinaryChunks_binaryDigits (B : Bytes) (fuel : Nat) (h : B.length ≤ fuel) :
    parseBinaryChunks fuel (binaryDigits B) = .ok B := by
  induction B generalizing fuel with
  | nil => cases fuel <;> simp [parseBinaryChunks, binaryDigits]
  | cons b rest ih =>
    cases fuel with
    | zero => simp at h
    | succ n =>
      have hn : rest.length ≤ n := by simpa using h
      have hlen := sprintf08b_length b
      have hne : sprintf08b b ++ binaryDigits rest ≠ [] := by
        intro hnil
        have := congrArg List.length hnil
        simp [hlen] at this
      have htake : (sprintf08b b ++ binaryDigits rest).take 8 = sprintf08b b := by
        rw [List.take_append_eq_append_take, hlen]; simp [List.take_of_length_le, hlen]
      have hdrop : (sprintf08b b ++ binaryDigits rest).drop 8 = binaryDigits rest := by
        rw [← hlen]; exact List.drop_left _ _
      simp only [parseBinaryChunks, binaryDigits, hne, if_false, htake, hdrop,
        parseUint2w8_sprintf08b, ih n hn]
      congr 2
      exact Fin.ext (Nat.mod_eq_of_lt b.isLt)

theorem parseBinaryString_binaryDigits (B : Bytes) (h : B ≠ []) :
    parseBinaryString (binaryDigits B) = .ok B := by
  have hall := binaryDigits_all_binary B
  have hlen := binaryDigits_length B
  have hpos : 0 < B.length := List.length_pos.mpr h
  unfold parseBinaryString
  simp only [removeByte_of_binary _ _ hall (by decide : isBinaryDigit 0x20 = false),
    removeByte_of_binary _ _ hall (by decide : isBinaryDigit 0x0A = false),
    removeByte_of_binary _ _ hall (by decide : isBinaryDigit 0x0D = false),
    removeByte_of_binary _ _ hall (by decide : isBinaryDigit 0x09 = false)]
  rw [onlyBinaryRunes_eq _ _ (Nat.le_refl _), hall]
  have h0 : ¬ (binaryDigits B).length = 0 := by omega
  have h8 : ¬ (binaryDigits B).length % 8 ≠ 0 := by omega
  simp only [h0, h8, if_false, not_true_eq_false]
  exact parseBinaryChunks_binaryDigits B _ (by omega)

theorem exists_bitChar (c : Byte) (h : isBinaryDigit c = true) : ∃ d : Fin 2, c = bitChar d := by
  simp only [isBinaryDigit, Bool.or_eq_true, decide_eq_true_eq] at h
  rcases h with h | h
  · exact ⟨0, Fin.ext h⟩
  · exact ⟨1, Fin.ext h⟩

set_option maxRecDepth 1000000 in
theorem chunk8_bits : ∀ d0 d1 d2 d3 d4 d5 d6 d7 : Fin 2,
    sprintf08b (Fin.ofNat (msbValue [bitChar d0, bitChar d1, bitChar d2, bitChar d3,
      bitChar d4, bitChar d5, bitChar d6, bitChar d7]))
      = [bitChar d0, bitChar d1, bitChar d2, bitChar d3, bitChar d4, bitChar d5, bitChar d6,
        bitChar d7] := by
  decide

theorem chunk8_eq (c0 c1 c2 c3 c4 c5 c6 c7 : Byte)
    (h : ([c0, c1, c2, c3, c4, c5, c6, c7] : Bytes).all isBinaryDigit = true) :
    sprintf08b (Fin.ofNat (msbValue [c0, c1, c2, c3, c4, c5, c6, c7]))
      = [c0, c1, c2, c3, c4, c5, c6, c7] := by
  simp only [List.all_cons, List.all_nil, Bool.and_true, Bool.and_eq_true] at h
  obtain ⟨h0, h1, h2, h3, h4, h5, h6, h7⟩ := h
  obtain ⟨d0, rfl⟩ := exists_bitChar c0 h0
  obtain ⟨d1, rfl⟩ := exists_bitChar c1 h1
  obtain ⟨d2, rfl⟩ := exists_bitChar c2 h2
  obtain ⟨d3, rfl⟩ := exists_bitChar c3 h3
  obtain ⟨d4, rfl⟩ := exists_bitChar c4 h4
  obtain ⟨d5, rfl⟩ := exists_bitChar c5 h5
  obtain ⟨d6, rfl⟩ := exists_bitChar c6 h6
  obtain ⟨d7, rfl⟩ := exists_bitChar c7 h7
  exact chunk8_bits d0 d1 d2 d3 d4 d5 d6 d7

/-- Every string of '0'/'1' characters whose length is a multiple of 8 is the
binary-digit rendering of some bytes. -/
theorem exists_binaryDigits (n : Nat) : ∀ s : Bytes, s.length = 8 * n →
    s.all isBinaryDigit = true → ∃ B : Bytes, B.length = n ∧ binaryDigits B = s := by
  induction n with
  | zero =>
    intro s hl _
    exact ⟨[], rfl, by
      have : s = [] := List.length_eq_zero.mp (by simpa using hl)
      rw [this]; rfl⟩
  | succ k ih =>
    intro s hl hall
    match s, hl, hall with
    | c0 :: c1 :: c2 :: c3 :: c4 :: c5 :: c6 :: c7 :: rest, hl, hall =>
      have hrl : rest.length = 8 * k := by
        simp only [List.length_cons] at hl; omega
      have hsplit : (c0 :: c1 :: c2 :: c3 :: c4 :: c5 :: c6 :: c7 :: rest)
          = [c0, c1, c2, c3, c4, c5, c6, c7] ++ rest := rfl
      rw [hsplit, List.all_append, Bool.and_eq_true] at hall
      obtain ⟨B, hB, hBs⟩ := ih rest hrl hall.2
      refine ⟨Fin.ofNat (msbValue [c0, c1, c2, c3, c4, c5, c6, c7]) :: B, by simp [hB], ?_⟩
      rw [hsplit, binaryDigits, chunk8_eq _ _ _ _ _ _ _ _ hall.1, hBs]
    | [], hl, _ => exfalso; simp only [List.length_cons, List.length_nil] at hl; omega
    | [_], hl, _ => exfalso; simp only [List.length_cons, List.length_nil] at hl; omega
    | [_, _], hl, _ => exfalso; simp only [List.length_cons, List.length_nil] at hl; omega
    | [_, _, _], hl, _ => exfalso; simp only [List.length_cons, List.length_nil] at hl; omega
    | [_, _, _, _], hl, _ => exfalso; simp only [List.length_cons, List.length_nil] at hl; omega
    | [_, _, _, _, _], hl, _ => exfalso; simp only [List.length_cons, List.length_nil] at hl; omega
    | [_, _, _, _, _, _], hl, _ => exfalso; simp only [List.length_cons, List.length_nil] at hl; omega
    | [_, _, _, _, _, _, _], hl, _ => exfalso; simp only [List.length_cons, List.length_nil] at hl; omega



set_option maxRecDepth 1000000 in
theorem msbValue_sprintf08b (b : Byte) : msbValue (sprintf08b b) = b.val := by
  revert b; decide

theorem binaryDigits_group (P : Bytes) (i : Nat) (hi : i < P.length) :
    ((binaryDigits P).drop (8 * i)).take 8 = sprintf08b (P.get ⟨i, hi⟩) := by
  induction P generalizing i with
  | nil => simp at hi
  | cons b rest ih =>
    have hlen := sprintf08b_length b
    cases i with
    | zero =>
      simp only [binaryDigits, Nat.mul_zero, List.drop_zero, List.get_cons_zero]
      rw [List.take_append_eq_append_take, hlen]
      simp [List.take_of_length_le, hlen]
    | succ k =>
      have hk : k < rest.length := by simpa using hi
      have h8 : 8 * (k + 1) = (sprintf08b b).length + 8 * k := by omega
      simp only [binaryDigits, List.get_cons_succ]
      rw [h8, List.drop_append]
      exact ih k hk

/-! ## Lemmas: hex -/

set_option maxRecDepth 1000000 in
theorem hex_byte_roundtrip : ∀ v : Byte,
    reverseHexTable (hextable (v.val >>> 4)) ≤ 0x0f
      ∧ reverseHexTable (hextable (v.val &&& 0x0f)) ≤ 0x0f
      ∧ (Fin.ofNat ((reverseHexTable (hextable (v.val >>> 4)) <<< 4)
          ||| reverseHexTable (hextable (v.val &&& 0x0f))) : Byte) = v := by
  decide

set_option maxRecDepth 1000000 in
theorem reverseHexTable_le_iff : ∀ c : Byte,
    reverseHexTable c ≤ 0x0f ↔ isHexDigit c = true := by
  decide

set_option maxRecDepth 1000000 in
theorem reverseHexTable_lower : ∀ c : Byte, isLowerHexDigit c = true →
    reverseHexTable c ≤ 0x0f ∧ hextable (reverseHexTable c) = c := by
  decide

set_option maxRecDepth 1000000 in
theorem nibbles_of_byte : ∀ a b : Fin 16,
    (Fin.ofNat (a.val <<< 4 ||| b.val) : Byte).val >>> 4 = a.val
      ∧ (Fin.ofNat (a.val <<< 4 ||| b.val) : Byte).val &&& 0x0f = b.val := by
  decide

set_option maxRecDepth 1000000 in
theorem isHexDigit_of_binary : ∀ c : Byte, isBinaryDigit c = true → isLowerHexDigit c = true := by
  decide

set_option maxRecDepth 1000000 in
theorem isHexDigit_of_lower : ∀ c : Byte, isLowerHexDigit c = true → isHexDigit c = true := by
  decide

theorem hexDecodeString_encode (B : Bytes) :
    hexDecodeString (hexEncodeToString B) = some B := by
  induction B with
  | nil => rfl
  | cons v rest ih =>
    obtain ⟨h1, h2, h3⟩ := hex_byte_roundtrip v
    simp only [hexEncodeToString, hexDecodeString, ih, h3]
    rw [if_neg (by omega), if_neg (by omega)]

theorem hexEncodeToString_length (B : Bytes) :
    (hexEncodeToString B).length = 2 * B.length := by
  induction B with
  | nil => rfl
  | cons v rest ih => simp only [hexEncodeToString, List.length_cons, ih]; omega

theorem hexDecodeString_none_of_nonhex : ∀ s : Bytes,
    (∃ c ∈ s, isHexDigit c = false) → hexDecodeString s = none
  | [], h => by simp at h
  | [_], _ => rfl
  | p :: q :: rest, h => by
    simp only [hexDecodeString]
    by_cases hp : isHexDigit p = true
    · by_cases hq : isHexDigit q = true
      · have hrest : ∃ c ∈ rest, isHexDigit c = false := by
          obtain ⟨c, hc, hcf⟩ := h
          simp only [List.mem_cons] at hc
          rcases hc with rfl | rfl | hc
          · rw [hp] at hcf; cases hcf
          · rw [hq] at hcf; cases hcf
          · exact ⟨c, hc, hcf⟩
        rw [hexDecodeString_none_of_nonhex rest hrest]
        split_ifs <;> rfl
      · have : ¬ reverseHexTable q ≤ 0x0f := fun h2 => hq ((reverseHexTable_le_iff q).mp h2)
        split_ifs <;> first | rfl | omega
    · have : ¬ reverseHexTable p ≤ 0x0f := fun h2 => hp ((reverseHexTable_le_iff p).mp h2)
      split_ifs <;> first | rfl | omega

theorem hexDecodeString_length : ∀ (s B : Bytes),
    hexDecodeString s = some B → 2 * B.length = s.length
  | [], B, h => by
    simp only [hexDecodeString, Option.some.injEq] at h
    rw [← h]; rfl
  | [_], B, h => by simp [hexDecodeString] at h
  | p :: q :: rest, B, h => by
    simp only [hexDecodeString] at h
    split_ifs at h
    cases hr : hexDecodeString rest with
    | none => rw [hr] at h; cases h
    | some out =>
      rw [hr] at h
      simp only [Option.some.injEq] at h
      have := hexDecodeString_length rest out hr
      rw [← h]
      simp only [List.length_cons]
      omega

theorem hexDecodeString_lower : ∀ s : Bytes, s.all isLowerHexDigit = true →
    s.length % 2 = 0 →
    ∃ B : Bytes, hexDecodeString s = some B ∧ hexEncodeToString B = s
  | [], _, _ => ⟨[], rfl, rfl⟩
  | [_], _, h => by simp at h
  | p :: q :: rest, hall, hlen => by
    simp only [List.all_cons, Bool.and_eq_true] at hall
    obtain ⟨hp, hq, hrest⟩ := hall
    have hl : rest.length % 2 = 0 := by simp only [List.length_cons] at hlen; omega
    obtain ⟨B, hB, hBs⟩ := hexDecodeString_lower rest hrest hl
    obtain ⟨hp1, hp2⟩ := reverseHexTable_lower p hp
    obtain ⟨hq1, hq2⟩ := reverseHexTable_lower q hq
    obtain ⟨hn1, hn2⟩ := nibbles_of_byte ⟨reverseHexTable p, by omega⟩ ⟨reverseHexTable q, by omega⟩
    simp only [] at hn1 hn2
    refine ⟨Fin.ofNat ((reverseHexTable p <<< 4) ||| reverseHexTable q) :: B, ?_, ?_⟩
    · simp only [hexDecodeString, hB]
      rw [if_neg (by omega), if_neg (by omega)]
    · simp only [hexEncodeToString, hn1, hn2, hp2, hq2, hBs]

/-! ## Lemmas: the auto-detection block -/

theorem detect_not_candidate (s : Bytes) (h : isBinaryCandidate s = false) :
    detectInputBytes s = hexBase64OrRaw s := by
  simp only [detectInputBytes, isBinaryFormat_eq, h, Bool.false_eq_true, if_false]

theorem detect_binaryDigits (B : Bytes) (h : 2 ≤ B.length) :
    detectInputBytes (binaryDigits B) = B := by
  have hne : B ≠ [] := by intro h0; rw [h0] at h; simp at h
  have hc : isBinaryCandidate (binaryDigits B) = true := by
    simp only [isBinaryCandidate, binaryDigits_length, binaryDigits_all_binary, Bool.and_true,
      Bool.and_eq_true, decide_eq_true_eq]
    omega
  simp only [detectInputBytes, isBinaryFormat_eq, hc, if_true,
    parseBinaryString_binaryDigits B hne]

theorem detect_candidate (s : Bytes) (h : isBinaryCandidate s = true) :
    ∃ B : Bytes, 8 * B.length = s.length ∧ binaryDigits B = s ∧ detectInputBytes s = B := by
  simp only [isBinaryCandidate, Bool.and_eq_true, decide_eq_true_eq] at h
  obtain ⟨⟨h8, hm⟩, hall⟩ := h
  obtain ⟨B, hB, hBs⟩ := exists_binaryDigits (s.length / 8) s (by omega) hall
  refine ⟨B, by omega, hBs, ?_⟩
  rw [← hBs]
  exact detect_binaryDigits B (by omega)

theorem detect_hex (B : Bytes) (h : isBinaryCandidate (hexEncodeToString B) = false) :
    detectInputBytes (hexEncodeToString B) = B := by
  rw [detect_not_candidate _ h]
  simp only [hexBase64OrRaw, hexDecodeString_encode]

theorem decrypt_plain (A : AEAD) (data : Bytes) (cfg : Config)
    (hplain : cfg.UseEncryption = false) :
    DecryptData A data cfg = .ok (detectInputBytes data) := by
  simp only [DecryptData, hplain, Bool.false_eq_true, if_false]

/-! ## Lemmas: base64 -/

theorem or_eq_add (x y i : Nat) (hx : 2 ^ i ∣ x) (hy : y < 2 ^ i) : x ||| y = x + y := by
  obtain ⟨a, rfl⟩ := hx
  exact (Nat.mul_add_lt_is_or hy a).symm

theorem and_63 (x : Nat) : x &&& 0x3F = x % 64 := Nat.and_pow_two_sub_one_eq_mod x 6

theorem val3_eq (b0 b1 b2 : Nat) (h1 : b1 < 256) (h2 : b2 < 256) :
    b0 <<< 16 ||| b1 <<< 8 ||| b2 = b0 * 65536 + b1 * 256 + b2 := by
  simp only [Nat.shiftLeft_eq]
  norm_num
  rw [or_eq_add (b0 * 65536) (b1 * 256) 16 (by norm_num) (by norm_num; omega)]
  rw [or_eq_add (b0 * 65536 + b1 * 256) b2 8 (by norm_num; omega) (by norm_num; omega)]

theorem val4_eq (d0 d1 d2 d3 : Nat) (h1 : d1 < 64) (h2 : d2 < 64) (h3 : d3 < 64) :
    d0 <<< 18 ||| d1 <<< 12 ||| d2 <<< 6 ||| d3
      = d0 * 262144 + d1 * 4096 + d2 * 64 + d3 := by
  simp only [Nat.shiftLeft_eq]
  norm_num
  rw [or_eq_add (d0 * 262144) (d1 * 4096) 18 (by norm_num) (by norm_num; omega)]
  rw [or_eq_add (d0 * 262144 + d1 * 4096) (d2 * 64) 12 (by norm_num; omega)
    (by norm_num; omega)]
  rw [or_eq_add (d0 * 262144 + d1 * 4096 + d2 * 64) d3 6 (by norm_num; omega)
    (by norm_num; omega)]

set_option maxRecDepth 1000000 in
theorem decodeMapStd_encodeStd : ∀ d : Fin 64, decodeMapStd (encodeStd d.val) = d.val := by
  decide

theorem decodeMapStd_encodeStd_mod (x : Nat) : decodeMapStd (encodeStd (x % 64)) = x % 64 :=
  decodeMapStd_encodeStd ⟨x % 64, Nat.mod_lt _ (by norm_num)⟩

/-- Decoding one full quantum of four alphabet characters. -/
theorem base64DecodeFrom_quantum (c0 c1 c2 c3 : Byte) (rest : Bytes)
    (h0 : decodeMapStd c0 ≠ 0xff) (h1 : decodeMapStd c1 ≠ 0xff)
    (h2 : decodeMapStd c2 ≠ 0xff) (h3 : decodeMapStd c3 ≠ 0xff) :
    base64DecodeFrom (c0 :: c1 :: c2 :: c3 :: rest) []
      = match base64DecodeFrom rest [] with
        | none => none
        | some r =>
          some (quantumBytes [decodeMapStd c0, decodeMapStd c1, decodeMapStd c2,
            decodeMapStd c3] 4 ++ r) := by
  simp [base64DecodeFrom, h0, h1, h2, h3]

theorem quantum_three (b0 b1 b2 : Byte) :
    quantumBytes [(b0.val * 65536 + b1.val * 256 + b2.val) / 262144 % 64,
      (b0.val * 65536 + b1.val * 256 + b2.val) / 4096 % 64,
      (b0.val * 65536 + b1.val * 256 + b2.val) / 64 % 64,
      (b0.val * 65536 + b1.val * 256 + b2.val) % 64] 4 = [b0, b1, b2] := by
  have h0 := b0.isLt
  have h1 := b1.isLt
  have h2 := b2.isLt
  have hv : ∀ x : Nat, (Fin.ofNat x : Byte).val = x % 256 := fun _ => rfl
  simp only [quantumBytes, List.getD_cons_zero, List.getD_cons_succ]
  rw [val4_eq _ _ _ _ (Nat.mod_lt _ (by norm_num)) (Nat.mod_lt _ (by norm_num))
    (Nat.mod_lt _ (by norm_num))]
  simp only [Nat.shiftRight_eq_div_pow]
  norm_num
  refine ⟨?_, ?_, ?_⟩ <;> (apply Fin.ext; rw [hv]; omega)



theorem quantum_two (b0 b1 : Byte) :
    quantumBytes [(b0.val * 65536 + b1.val * 256) / 262144 % 64,
      (b0.val * 65536 + b1.val * 256) / 4096 % 64,
      (b0.val * 65536 + b1.val * 256) / 64 % 64] 3 = [b0, b1] := by
  have h0 := b0.isLt
  have h1 := b1.isLt
  have hv : ∀ x : Nat, (Fin.ofNat x : Byte).val = x % 256 := fun _ => rfl
  simp only [quantumBytes, List.getD_cons_zero, List.getD_cons_succ, List.getD_nil]
  rw [val4_eq _ _ _ _ (Nat.mod_lt _ (by norm_num)) (Nat.mod_lt _ (by norm_num))
    (by norm_num)]
  simp only [Nat.shiftRight_eq_div_pow]
  norm_num
  refine ⟨?_, ?_⟩ <;> (apply Fin.ext; rw [hv]; omega)

theorem quantum_one (b0 : Byte) :
    quantumBytes [(b0.val * 65536) / 262144 % 64, (b0.val * 65536) / 4096 % 64] 2 = [b0] := by
  have h0 := b0.isLt
  have hv : ∀ x : Nat, (Fin.ofNat x : Byte).val = x % 256 := fun _ => rfl
  simp only [quantumBytes, List.getD_cons_zero, List.getD_cons_succ, List.getD_nil]
  rw [val4_eq _ _ _ _ (Nat.mod_lt _ (by norm_num)) (by norm_num) (by norm_num)]
  simp only [Nat.shiftRight_eq_div_pow]
  norm_num
  apply Fin.ext; rw [hv]; omega

theorem val2_eq (b0 b1 : Nat) (h1 : b1 < 256) :
    b0 <<< 16 ||| b1 <<< 8 = b0 * 65536 + b1 * 256 := by
  have := val3_eq b0 b1 0 h1 (by norm_num)
  simpa using this

theorem base64EncodeToString_three (b0 b1 b2 : Byte) (rest : Bytes) :
    base64EncodeToString (b0 :: b1 :: b2 :: rest)
      = encodeStd ((b0.val * 65536 + b1.val * 256 + b2.val) / 262144 % 64)
        :: encodeStd ((b0.val * 65536 + b1.val * 256 + b2.val) / 4096 % 64)
        :: encodeStd ((b0.val * 65536 + b1.val * 256 + b2.val) / 64 % 64)
        :: encodeStd ((b0.val * 65536 + b1.val * 256 + b2.val) % 64)
        :: base64EncodeToString rest := by
  simp only [base64EncodeToString, val3_eq _ _ _ b1.isLt b2.isLt, and_63,
    Nat.shiftRight_eq_div_pow]

theorem base64EncodeToString_two (b0 b1 : Byte) :
    base64EncodeToString [b0, b1]
      = [encodeStd ((b0.val * 65536 + b1.val * 256) / 262144 % 64),
        encodeStd ((b0.val * 65536 + b1.val * 256) / 4096 % 64),
        encodeStd ((b0.val * 65536 + b1.val * 256) / 64 % 64), 0x3D] := by
  simp only [base64EncodeToString, val2_eq _ _ b1.isLt, and_63, Nat.shiftRight_eq_div_pow]

theorem base64EncodeToString_one (b0 : Byte) :
    base64EncodeToString [b0]
      = [encodeStd ((b0.val * 65536) / 262144 % 64),
        encodeStd ((b0.val * 65536) / 4096 % 64), 0x3D, 0x3D] := by
  simp only [base64EncodeToString, Nat.shiftLeft_eq, and_63, Nat.shiftRight_eq_div_pow]

theorem decodeMapStd_ne (x : Nat) : decodeMapStd (encodeStd (x % 64)) ≠ 0xff := by
  rw [decodeMapStd_encodeStd_mod]
  have : x % 64 < 64 := Nat.mod_lt _ (by norm_num)
  omega

theorem base64DecodeFrom_pad2 (c0 c1 : Byte)
    (h0 : decodeMapStd c0 ≠ 0xff) (h1 : decodeMapStd c1 ≠ 0xff) :
    base64DecodeFrom [c0, c1, 0x3D, 0x3D] []
      = some (quantumBytes [decodeMapStd c0, decodeMapStd c1] 2) := by
  have e1 : decodeMapStd (0x3D : Byte) = 0xff := by decide
  have e2 : ((0x3D : Byte).val = 0x0A ∨ (0x3D : Byte).val = 0x0D) = False := by decide
  have e3 : ((0x3D : Byte).val ≠ 0x3D) = False := by decide
  simp [base64DecodeFrom, h0, h1, e1, e2, e3, skipNewlines]

theorem base64DecodeFrom_pad1 (c0 c1 c2 : Byte)
    (h0 : decodeMapStd c0 ≠ 0xff) (h1 : decodeMapStd c1 ≠ 0xff)
    (h2 : decodeMapStd c2 ≠ 0xff) :
    base64DecodeFrom [c0, c1, c2, 0x3D] []
      = some (quantumBytes [decodeMapStd c0, decodeMapStd c1, decodeMapStd c2] 3) := by
  have e1 : decodeMapStd (0x3D : Byte) = 0xff := by decide
  have e2 : ((0x3D : Byte).val = 0x0A ∨ (0x3D : Byte).val = 0x0D) = False := by decide
  have e3 : ((0x3D : Byte).val ≠ 0x3D) = False := by decide
  simp [base64DecodeFrom, h0, h1, h2, e1, e2, e3, skipNewlines]

theorem base64DecodeString_encode : ∀ B : Bytes,
    base64DecodeString (base64EncodeToString B) = some B
  | [] => rfl
  | [b0] => by
    rw [base64EncodeToString_one, base64DecodeString,
      base64DecodeFrom_pad2 _ _ (decodeMapStd_ne _) (decodeMapStd_ne _)]
    simp only [decodeMapStd_encodeStd_mod, quantum_one]
  | [b0, b1] => by
    rw [base64EncodeToString_two, base64DecodeString,
      base64DecodeFrom_pad1 _ _ _ (decodeMapStd_ne _) (decodeMapStd_ne _) (decodeMapStd_ne _)]
    simp only [decodeMapStd_encodeStd_mod, quantum_two]
  | b0 :: b1 :: b2 :: rest => by
    have ih := base64DecodeString_encode rest
    unfold base64DecodeString at ih ⊢
    rw [base64EncodeToString_three,
      base64DecodeFrom_quantum _ _ _ _ _ (decodeMapStd_ne _) (decodeMapStd_ne _)
        (decodeMapStd_ne _) (decodeMapStd_ne _), ih]
    simp only [decodeMapStd_encodeStd_mod, quantum_three]
    rfl



set_option maxRecDepth 1000000 in
theorem decodeMapStd_ascii : ∀ c : Byte, decodeMapStd c ≠ 0xff → c.val < 0x80 := by
  decide

theorem skipNewlines_mem (c : Byte) (hc : 0x80 ≤ c.val) :
    ∀ t : Bytes, c ∈ t → c ∈ skipNewlines t
  | [], h => by simp at h
  | d :: t, h => by
    simp only [skipNewlines]
    split_ifs with hd
    · simp only [List.mem_cons] at h
      rcases h with rfl | h
      · omega
      · exact skipNewlines_mem c hc t h
    · exact h

theorem base64DecodeFrom_nonascii (c : Byte) (hc : 0x80 ≤ c.val) :
    ∀ (s : Bytes) (dbuf : List Nat), c ∈ s → base64DecodeFrom s dbuf = none
  | [], _, h => by simp at h
  | d :: t, dbuf, h => by
    simp only [List.mem_cons] at h
    unfold base64DecodeFrom
    simp only []
    by_cases hd : decodeMapStd d ≠ 0xff
    · have hdl := decodeMapStd_ascii d hd
      have hct : c ∈ t := by
        rcases h with rfl | h
        · omega
        · exact h
      rw [if_pos hd]
      split_ifs
      · rw [base64DecodeFrom_nonascii c hc t [] hct]
      · exact base64DecodeFrom_nonascii c hc t _ hct
    · rw [if_neg hd]
      by_cases hnl : d.val = 0x0A ∨ d.val = 0x0D
      · have hct : c ∈ t := by
          rcases h with rfl | h
          · omega
          · exact h
        rw [if_pos hnl]
        exact base64DecodeFrom_nonascii c hc t dbuf hct
      · rw [if_neg hnl]
        by_cases hpad : d.val ≠ 0x3D
        · rw [if_pos hpad]
        · rw [if_neg hpad]
          have hct : c ∈ t := by
            rcases h with rfl | h
            · omega
            · exact h
          have hsk := skipNewlines_mem c hc t hct
          split_ifs with h1 h2 h3
          · rfl
          · cases hs : skipNewlines t with
            | nil => rfl
            | cons c2 t2 =>
              simp only []
              rw [hs] at hsk
              simp only [List.mem_cons] at hsk
              split_ifs with h4 h5
              · rfl
              · rfl
              · exfalso
                rcases hsk with rfl | hsk
                · omega
                · have := skipNewlines_mem c hc t2 hsk
                  rw [not_not.mp h5] at this
                  simp at this
          · rfl
          · exfalso
            rw [not_not.mp h3] at hsk
            simp at hsk

theorem base64EncodeToString_length : ∀ B : Bytes,
    (base64EncodeToString B).length % 4 = 0
  | [] => rfl
  | [_] => by simp [base64EncodeToString]
  | [_, _] => by simp [base64EncodeToString]
  | _ :: _ :: _ :: rest => by
    have := base64EncodeToString_length rest
    simp only [base64EncodeToString, List.length_cons]
    omega

theorem base64EncodeToString_hex_length : ∀ B : Bytes,
    (base64EncodeToString B).all isHexDigit = true →
      3 * (base64EncodeToString B).length = 4 * B.length
  | [], _ => rfl
  | [_], h => by
    exfalso
    simp only [base64EncodeToString, List.all_cons, List.all_nil, Bool.and_true,
      Bool.and_eq_true] at h
    exact absurd h.2.2 (by decide)
  | [_, _], h => by
    exfalso
    simp only [base64EncodeToString, List.all_cons, List.all_nil, Bool.and_true,
      Bool.and_eq_true] at h
    exact absurd h.2.2.2 (by decide)
  | _ :: _ :: _ :: rest, h => by
    simp only [base64EncodeToString, List.all_cons, Bool.and_eq_true] at h
    have := base64EncodeToString_hex_length rest h.2.2.2.2
    simp only [base64EncodeToString, List.length_cons]
    omega

theorem hexDecodeString_some_of_hex : ∀ s : Bytes, s.all isHexDigit = true →
    s.length % 2 = 0 → ∃ B : Bytes, hexDecodeString s = some B
  | [], _, _ => ⟨[], rfl⟩
  | [_], _, h => by simp at h
  | p :: q :: rest, hall, hlen => by
    simp only [List.all_cons, Bool.and_eq_true] at hall
    obtain ⟨hp, hq, hrest⟩ := hall
    have hl : rest.length % 2 = 0 := by simp only [List.length_cons] at hlen; omega
    obtain ⟨B, hB⟩ := hexDecodeString_some_of_hex rest hrest hl
    have hp1 := (reverseHexTable_le_iff p).mpr hp
    have hq1 := (reverseHexTable_le_iff q).mpr hq
    refine ⟨Fin.ofNat ((reverseHexTable p <<< 4) ||| reverseHexTable q) :: B, ?_⟩
    simp only [hexDecodeString, hB]
    rw [if_neg (by omega), if_neg (by omega)]

theorem not_candidate_of_nonhex (s : Bytes) (h : ∃ c ∈ s, isHexDigit c = false) :
    isBinaryCandidate s = false := by
  obtain ⟨c, hc, hcf⟩ := h
  by_contra hcon
  rw [Bool.not_eq_false] at hcon
  simp only [isBinaryCandidate, Bool.and_eq_true, List.all_eq_true] at hcon
  have := isHexDigit_of_lower c (isHexDigit_of_binary c (hcon.2 c hc))
  rw [this] at hcf
  cases hcf

theorem detect_base64 (B : Bytes)
    (h : ∃ c ∈ base64EncodeToString B, isHexDigit c = false) :
    detectInputBytes (base64EncodeToString B) = B := by
  rw [detect_not_candidate _ (not_candidate_of_nonhex _ h)]
  simp only [hexBase64OrRaw, hexDecodeString_none_of_nonhex _ h, base64DecodeString_encode]

theorem detect_length_of_hex (s : Bytes) (hall : s.all isHexDigit = true)
    (hlen : s.length % 2 = 0) :
    2 * (detectInputBytes s).length = s.length ∨ 8 * (detectInputBytes s).length = s.length := by
  by_cases hc : isBinaryCandidate s = true
  · obtain ⟨B, hB, _, hd⟩ := detect_candidate s hc
    right; rw [hd]; exact hB
  · rw [Bool.not_eq_true] at hc
    obtain ⟨B, hB⟩ := hexDecodeString_some_of_hex s hall hlen
    left
    rw [detect_not_candidate _ hc]
    simp only [hexBase64OrRaw, hB]
    exact hexDecodeString_length s B hB

/-! ## Lemmas: EncryptData and DecryptData -/

theorem encrypt_plain (A : AEAD) (rnd : Option Bytes) (P : Bytes) (cfg : Config)
    (hplain : cfg.UseEncryption = false) :
    EncryptData A rnd P cfg
      = .ok (if cfg.OutputMode = "hex" then hexEncodeToString P
          else if cfg.OutputMode = "base64" then base64EncodeToString P
          else if cfg.OutputMode = "binary" then binaryDigits P
          else hexEncodeToString P) := by
  simp only [EncryptData, hplain, Bool.false_eq_true, if_false]
  split_ifs <;> rfl

theorem encrypt_sealed (A : AEAD) (nonce P : Bytes) (cfg : Config)
    (henc : cfg.UseEncryption = true) (hkey : cfg.Key.length = 32) :
    EncryptData A (some nonce) P cfg
      = .ok (if cfg.OutputMode = "hex" then
            hexEncodeToString (nonce ++ A.Seal cfg.Key nonce P)
          else if cfg.OutputMode = "base64" then
            base64EncodeToString (nonce ++ A.Seal cfg.Key nonce P)
          else if cfg.OutputMode = "binary" then
            binaryDigits (nonce ++ A.Seal cfg.Key nonce P)
          else hexEncodeToString (nonce ++ A.Seal cfg.Key nonce P)) := by
  have hk : aesNewCipher cfg.Key = true := by simp [aesNewCipher, hkey]
  simp only [EncryptData, henc, if_true, hk, not_true_eq_false, if_false]
  split_ifs <;> rfl

theorem decrypt_sealed (A : AEAD) (nonce sealed P S : Bytes) (cfg : Config)
    (henc : cfg.UseEncryption = true) (hkey : cfg.Key.length = 32)
    (hnonce : nonce.length = 12) (hdet : detectInputBytes S = nonce ++ sealed)
    (hopen : A.Open cfg.Key nonce sealed = some P) :
    DecryptData A S cfg = .ok P := by
  have hk : aesNewCipher cfg.Key = true := by simp [aesNewCipher, hkey]
  have hlen : ¬ (nonce ++ sealed).length < gcmNonceSize := by
    simp only [List.length_append, hnonce, gcmNonceSize]; omega
  have htake : (nonce ++ sealed).take gcmNonceSize = nonce := by
    rw [gcmNonceSize, ← hnonce]; exact List.take_left _ _
  have hdrop : (nonce ++ sealed).drop gcmNonceSize = sealed := by
    rw [gcmNonceSize, ← hnonce]; exact List.drop_left _ _
  simp only [DecryptData, henc, if_true, hk, not_true_eq_false, if_false, hdet, hlen, htake,
    hdrop, hopen]

set_option maxRecDepth 1000000 in
theorem not_hex_of_nonascii : ∀ c : Byte, 0x80 ≤ c.val → isHexDigit c = false := by
  decide

/-! ## The claims -/

/-- C1 (as stated, refuted): in plain mode the round trip through
`EncryptData` and `DecryptData` does not return the plaintext for eight zero
bytes in hex (the 16 digits are taken for binary digits and give 2 bytes), for
the text "kat" in base64 (its encoding "a2F0" is taken for hex and gives
2 bytes), and for the single byte 'a' in binary (its 8 digits are taken for
hex and give 4 bytes). -/
theorem plain_round_trip_counterexample :
    (EncryptData zeroTagAEAD none (List.replicate 8 0) (sampleConfig "hex" false)
        = .ok (List.replicate 16 0x30)
      ∧ DecryptData zeroTagAEAD (List.replicate 16 0x30) (sampleConfig "hex" false)
        = .ok [0, 0])
    ∧ (EncryptData zeroTagAEAD none [0x6b, 0x61, 0x74] (sampleConfig "base64" false)
        = .ok [0x61, 0x32, 0x46, 0x30]
      ∧ DecryptData zeroTagAEAD [0x61, 0x32, 0x46, 0x30] (sampleConfig "base64" false)
        = .ok [0xa2, 0xf0])
    ∧ (EncryptData zeroTagAEAD none [0x61] (sampleConfig "binary" false)
        = .ok [0x30, 0x31, 0x31, 0x30, 0x30, 0x30, 0x30, 0x31]
      ∧ DecryptData zeroTagAEAD [0x30, 0x31, 0x31, 0x30, 0x30, 0x30, 0x30, 0x31]
          (sampleConfig "binary" false)
        = .ok [0x01, 0x10, 0x00, 0x01]) := by
  decide

/-- C1 (amended): with `UseEncryption = false`, `EncryptData` returns an
encoded text with no error and `DecryptData` of that text returns no error;
for each output format among hex, base64 and binary it returns the plaintext
whenever no earlier detection step claims the text: for hex when the text is
not a binary-digit candidate, for base64 when the plaintext is empty or the
text has a character outside the hex alphabet, for binary when the plaintext
is not exactly one byte long. -/
theorem plain_round_trip (A : AEAD) (rnd : Option Bytes) (cfg : Config) (P : Bytes)
    (hplain : cfg.UseEncryption = false) :
    ∃ S out : Bytes, EncryptData A rnd P cfg = .ok S ∧ DecryptData A S cfg = .ok out
      ∧ (cfg.OutputMode = "hex" → isBinaryCandidate S = false → out = P)
      ∧ (cfg.OutputMode = "base64" → (P = [] ∨ ∃ c ∈ S, isHexDigit c = false) → out = P)
      ∧ (cfg.OutputMode = "binary" → P.length ≠ 1 → out = P) := by
  refine ⟨_, _, encrypt_plain A rnd P cfg hplain, decrypt_plain A _ cfg hplain, ?_, ?_, ?_⟩
  · intro hm hc
    simp only [hm, if_true] at hc ⊢
    exact detect_hex P hc
  · intro hm hc
    have hne : ¬ cfg.OutputMode = "hex" := by rw [hm]; decide
    simp only [hm, hne, if_true, if_false] at hc ⊢
    rcases hc with rfl | hc
    · rfl
    · exact detect_base64 P hc
  · intro hm hl
    have hne : ¬ cfg.OutputMode = "hex" := by rw [hm]; decide
    have hne2 : ¬ cfg.OutputMode = "base64" := by rw [hm]; decide
    simp only [hm, hne, hne2, if_true, if_false]
    cases P with
    | nil => rfl
    | cons b rest =>
      cases rest with
      | nil => simp at hl
      | cons b2 rest2 => exact detect_binaryDigits _ (by simp)

/-- Witness for C1 (amended): the plaintext "hi" in hex. -/
theorem plain_round_trip_witness :
    ∃ S out : Bytes,
      EncryptData zeroTagAEAD none [0x68, 0x69] (sampleConfig "hex" false) = .ok S
      ∧ DecryptData zeroTagAEAD S (sampleConfig "hex" false) = .ok out
      ∧ ((sampleConfig "hex" false).OutputMode = "hex" → isBinaryCandidate S = false
          → out = [0x68, 0x69])
      ∧ ((sampleConfig "hex" false).OutputMode = "base64"
          → (([0x68, 0x69] : Bytes) = [] ∨ ∃ c ∈ S, isHexDigit c = false)
          → out = [0x68, 0x69])
      ∧ ((sampleConfig "hex" false).OutputMode = "binary"
          → ([0x68, 0x69] : Bytes).length ≠ 1 → out = [0x68, 0x69]) :=
  plain_round_trip zeroTagAEAD none (sampleConfig "hex" false) [0x68, 0x69] rfl



/-! ## Lemmas: AES-GCM on published vectors -/

set_option maxRecDepth 1000000 in
/-- The example vectors of FIPS 197, appendices C.1 and C.3: the block
00112233445566778899aabbccddeeff under the keys 00 01 .. 0f and 00 01 .. 1f. -/
theorem aesCipher_example_vectors :
    aesCipher (aesKeyExpansion (List.range 16)) 10
        [0x00, 0x11, 0x22, 0x33, 0x44, 0x55, 0x66, 0x77, 0x88, 0x99, 0xaa, 0xbb, 0xcc, 0xdd,
          0xee, 0xff]
      = [0x69, 0xc4, 0xe0, 0xd8, 0x6a, 0x7b, 0x04, 0x30, 0xd8, 0xcd, 0xb7, 0x80, 0x70, 0xb4,
          0xc5, 0x5a]
      ∧ aesCipher (aesKeyExpansion (List.range 32)) 14
          [0x00, 0x11, 0x22, 0x33, 0x44, 0x55, 0x66, 0x77, 0x88, 0x99, 0xaa, 0xbb, 0xcc, 0xdd,
            0xee, 0xff]
        = [0x8e, 0xa2, 0xb7, 0xca, 0x51, 0x67, 0x45, 0xbf, 0xea, 0xfc, 0x49, 0x90, 0x4b, 0x49,
            0x60, 0x89] :=
  ⟨by decide, by decide⟩

set_option maxRecDepth 1000000 in
/-- Test cases 13 and 14 of the GCM specification (256-bit zero key, zero
nonce): the empty plaintext gives the tag 530f8afb c74536b9 a963b4f1
c4cb738b, and a block of zero bytes gives the ciphertext cea7403d 4d606b6e
074ec5d3 baf39d18 with the tag d0d1c8a7 99996bf0 265b98b5 d48ab919. -/
theorem aesGCM_test_cases :
    aesGCM.Seal zeroKey (List.replicate 12 0) []
      = [0x53, 0x0f, 0x8a, 0xfb, 0xc7, 0x45, 0x36, 0xb9, 0xa9, 0x63, 0xb4, 0xf1, 0xc4, 0xcb,
          0x73, 0x8b]
      ∧ aesGCM.Seal zeroKey (List.replicate 12 0) (List.replicate 16 0)
        = [0xce, 0xa7, 0x40, 0x3d, 0x4d, 0x60, 0x6b, 0x6e, 0x07, 0x4e, 0xc5, 0xd3, 0xba, 0xf3,
            0x9d, 0x18, 0xd0, 0xd1, 0xc8, 0xa7, 0x99, 0x99, 0x6b, 0xf0, 0x26, 0x5b, 0x98, 0xb5,
            0xd4, 0x8a, 0xb9, 0x19] :=
  ⟨by decide, by decide⟩

set_option maxRecDepth 1000000 in
/-- C2 (counterexample), on AES-GCM itself with the 32-byte key `zeroKey`.
In hex format, the plaintext `misreadHexPlain` under the nonce
`misreadHexNonce` is sealed to bytes that are all 0x00, 0x01, 0x10 or 0x11:
`EncryptData` returns 160 characters '0' and '1', which `DecryptData` takes
for binary digits (20 bytes), and it fails with "failed to decrypt data",
although the sealed bytes open to the plaintext. In base64 format, the
plaintext `misreadBase64Plain` under the nonce `misreadBase64Nonce` gives a
text of the characters '0' to '3' only, which `DecryptData` takes for hex
digits (42 bytes), and it fails the same way. -/
theorem encrypted_round_trip_counterexample :
    (zeroKey.length = 32 ∧ misreadHexNonce.length = 12
        ∧ aesGCM.Open zeroKey misreadHexNonce
            (aesGCM.Seal zeroKey misreadHexNonce misreadHexPlain) = some misreadHexPlain
        ∧ EncryptData aesGCM (some misreadHexNonce) misreadHexPlain (sampleConfig "hex" true)
          = .ok (ascii "0110110001101100011011000000000010000101110010101100010111000001101100101101100110011111111011111111101011011111001100000001111110011111011011011000101001110001")
        ∧ DecryptData aesGCM
            (ascii "0110110001101100011011000000000010000101110010101100010111000001101100101101100110011111111011111111101011011111001100000001111110011111011011011000101001110001")
            (sampleConfig "hex" true)
          = .error .decryptFailed)
      ∧ (misreadBase64Nonce.length = 12
        ∧ aesGCM.Open zeroKey misreadBase64Nonce
            (aesGCM.Seal zeroKey misreadBase64Nonce misreadBase64Plain)
          = some misreadBase64Plain
        ∧ EncryptData aesGCM (some misreadBase64Nonce) misreadBase64Plain
            (sampleConfig "base64" true)
          = .ok (ascii "012301230123012300000221230110100020222030310021222100201302321202332131121010001031")
        ∧ DecryptData aesGCM
            (ascii "012301230123012300000221230110100020222030310021222100201302321202332131121010001031")
            (sampleConfig "base64" true)
          = .error .decryptFailed) :=
  ⟨⟨by decide, by decide, by decide, by decide, by decide⟩,
    ⟨by decide, by decide, by decide, by decide⟩⟩

/-- C2 (amended): with `UseEncryption = true`, a 32-byte key, a 12-byte nonce
from the random source and an AEAD whose open-after-seal under that key and
nonce returns the plaintext, `EncryptData` returns an encoded text with no
error, and `DecryptData` of that text returns the plaintext in binary format
always, in hex format when the text is not a binary-digit candidate, and in
base64 format when the text has a character outside the hex alphabet. -/
theorem encrypted_round_trip (A : AEAD) (cfg : Config) (nonce P : Bytes)
    (henc : cfg.UseEncryption = true) (hkey : cfg.Key.length = 32)
    (hnonce : nonce.length = 12)
    (hid : A.Open cfg.Key nonce (A.Seal cfg.Key nonce P) = some P) :
    ∃ S : Bytes, EncryptData A (some nonce) P cfg = .ok S
      ∧ (cfg.OutputMode = "binary" → DecryptData A S cfg = .ok P)
      ∧ (cfg.OutputMode = "hex" → isBinaryCandidate S = false → DecryptData A S cfg = .ok P)
      ∧ (cfg.OutputMode = "base64" → (∃ c ∈ S, isHexDigit c = false)
          → DecryptData A S cfg = .ok P) := by
  refine ⟨_, encrypt_sealed A nonce P cfg henc hkey, ?_, ?_, ?_⟩
  · intro hm
    have hne : ¬ cfg.OutputMode = "hex" := by rw [hm]; decide
    have hne2 : ¬ cfg.OutputMode = "base64" := by rw [hm]; decide
    simp only [hm, hne, hne2, if_true, if_false]
    refine decrypt_sealed A nonce _ P _ cfg henc hkey hnonce ?_ hid
    exact detect_binaryDigits _ (by simp only [List.length_append, hnonce]; omega)
  · intro hm hc
    simp only [hm, if_true] at hc ⊢
    exact decrypt_sealed A nonce _ P _ cfg henc hkey hnonce (detect_hex _ hc) hid
  · intro hm hc
    have hne : ¬ cfg.OutputMode = "hex" := by rw [hm]; decide
    simp only [hm, hne, if_true, if_false] at hc ⊢
    exact decrypt_sealed A nonce _ P _ cfg henc hkey hnonce (detect_base64 _ hc) hid

set_option maxRecDepth 1000000 in
/-- Witness for C2 (amended): the plaintext "hi" sealed by AES-GCM under the
zero key and the nonce of twelve 0xAA bytes, in hex format. -/
theorem encrypted_round_trip_witness :
    ∃ S : Bytes,
      EncryptData aesGCM (some sampleNonce) samplePlain (sampleConfig "hex" true) = .ok S
      ∧ ((sampleConfig "hex" true).OutputMode = "binary"
          → DecryptData aesGCM S (sampleConfig "hex" true) = .ok samplePlain)
      ∧ ((sampleConfig "hex" true).OutputMode = "hex" → isBinaryCandidate S = false
          → DecryptData aesGCM S (sampleConfig "hex" true) = .ok samplePlain)
      ∧ ((sampleConfig "hex" true).OutputMode = "base64"
          → (∃ c ∈ S, isHexDigit c = false)
          → DecryptData aesGCM S (sampleConfig "hex" true) = .ok samplePlain) :=
  encrypted_round_trip aesGCM (sampleConfig "hex" true) sampleNonce samplePlain rfl
    (by decide) (by decide) (by decide)

/-- C4: with `UseEncryption = false`, `DecryptData` returns no error for
every input string and every configuration (whatever its key), and for
the empty string it returns the empty string. -/
theorem decode_totality (A : AEAD) (cfg : Config) (data : Bytes)
    (hplain : cfg.UseEncryption = false) :
    (∃ out : Bytes, DecryptData A data cfg = .ok out) ∧ DecryptData A [] cfg = .ok [] := by
  refine ⟨⟨_, decrypt_plain A data cfg hplain⟩, ?_⟩
  rw [decrypt_plain A [] cfg hplain]
  rfl

/-- Witness for C4: the input "zz" under a configuration whose key is
empty (not a valid AES key length). -/
theorem decode_totality_witness :
    (∃ out : Bytes, DecryptData zeroTagAEAD [0x7a, 0x7a]
        (Config.mk "decode" "text" "hex" [] [] none true false) = .ok out)
      ∧ DecryptData zeroTagAEAD [] (Config.mk "decode" "text" "hex" [] [] none true false)
        = .ok [] :=
  decode_totality zeroTagAEAD (Config.mk "decode" "text" "hex" [] [] none true false)
    [0x7a, 0x7a] rfl



/-- C5: in plain mode, for every string of exactly 16 characters each '0' or
'1', `DecryptData` returns exactly 2 bytes, byte i being the value of
characters 8i..8i+7 read most significant bit first; hex decoding of the same
string succeeds with 8 bytes, which is not what is returned. -/
theorem binary_digit_auto_detection (A : AEAD) (cfg : Config) (s : Bytes)
    (hplain : cfg.UseEncryption = false) (hlen : s.length = 16)
    (hbin : ∀ c ∈ s, c = 0x30 ∨ c = 0x31) :
    ∃ b0 b1 : Byte, DecryptData A s cfg = .ok [b0, b1]
      ∧ b0.val = msbValue (s.take 8) ∧ b1.val = msbValue ((s.drop 8).take 8)
      ∧ ∃ H : Bytes, hexDecodeString s = some H ∧ H.length = 8
          ∧ DecryptData A s cfg ≠ .ok H := by
  have hall : s.all isBinaryDigit = true := by
    rw [List.all_eq_true]
    intro c hc
    rcases hbin c hc with rfl | rfl <;> decide
  have hcand : isBinaryCandidate s = true := by
    simp only [isBinaryCandidate, hlen, hall]; decide
  obtain ⟨B, hB, hBs, hdet⟩ := detect_candidate s hcand
  have hB2 : B.length = 2 := by omega
  match B, hB2 with
  | [b0, b1], _ =>
    have hhex : s.all isHexDigit = true := by
      rw [List.all_eq_true] at hall ⊢
      intro c hc
      exact isHexDigit_of_lower c (isHexDigit_of_binary c (hall c hc))
    obtain ⟨H, hH⟩ := hexDecodeString_some_of_hex s hhex (by omega)
    have hHl := hexDecodeString_length s H hH
    have g0 := binaryDigits_group [b0, b1] 0 (by simp)
    have g1 := binaryDigits_group [b0, b1] 1 (by simp)
    rw [hBs] at g0 g1
    simp only [Nat.mul_zero, List.drop_zero, Nat.mul_one] at g0 g1
    refine ⟨b0, b1, ?_, ?_, ?_, H, hH, by omega, ?_⟩
    · rw [decrypt_plain A s cfg hplain, hdet]
    · rw [g0]; exact (msbValue_sprintf08b _).symm
    · rw [g1]; exact (msbValue_sprintf08b _).symm
    · rw [decrypt_plain A s cfg hplain, hdet]
      intro hcon
      have := congrArg List.length (Except.ok.inj hcon)
      simp only [List.length_cons, List.length_nil] at this
      omega

set_option maxRecDepth 100000 in
/-- Witness for C5: the string "0110000101100010" gives the bytes 'a', 'b'. -/
theorem binary_digit_auto_detection_witness :
    ∃ b0 b1 : Byte,
      DecryptData zeroTagAEAD
          [0x30, 0x31, 0x31, 0x30, 0x30, 0x30, 0x30, 0x31,
            0x30, 0x31, 0x31, 0x30, 0x30, 0x30, 0x31, 0x30]
          (sampleConfig "hex" false) = .ok [b0, b1]
      ∧ b0.val = msbValue (([0x30, 0x31, 0x31, 0x30, 0x30, 0x30, 0x30, 0x31,
            0x30, 0x31, 0x31, 0x30, 0x30, 0x30, 0x31, 0x30] : Bytes).take 8)
      ∧ b1.val = msbValue ((([0x30, 0x31, 0x31, 0x30, 0x30, 0x30, 0x30, 0x31,
            0x30, 0x31, 0x31, 0x30, 0x30, 0x30, 0x31, 0x30] : Bytes).drop 8).take 8)
      ∧ ∃ H : Bytes,
          hexDecodeString [0x30, 0x31, 0x31, 0x30, 0x30, 0x30, 0x30, 0x31,
            0x30, 0x31, 0x31, 0x30, 0x30, 0x30, 0x31, 0x30] = some H
          ∧ H.length = 8
          ∧ DecryptData zeroTagAEAD
              [0x30, 0x31, 0x31, 0x30, 0x30, 0x30, 0x30, 0x31,
                0x30, 0x31, 0x31, 0x30, 0x30, 0x30, 0x31, 0x30]
              (sampleConfig "hex" false) ≠ .ok H :=
  binary_digit_auto_detection zeroTagAEAD (sampleConfig "hex" false) _ rfl rfl (by decide)

/-- C6 (as stated, refuted): the 32-character lowercase hex string of 32 '0'
digits hex-decodes to 16 zero bytes, but plain-mode `DecryptData` takes it
for binary digits and returns 4 zero bytes. -/
theorem hex_auto_detection_counterexample :
    (List.replicate 32 (0x30 : Byte)).length = 32
      ∧ (List.replicate 32 (0x30 : Byte)).all isLowerHexDigit = true
      ∧ hexDecodeString (List.replicate 32 0x30) = some (List.replicate 16 0)
      ∧ DecryptData zeroTagAEAD (List.replicate 32 0x30) (sampleConfig "hex" false)
        = .ok [0, 0, 0, 0] := by
  decide

/-- C6 (amended): in plain mode, for every 32-character string of lowercase
hex digits that has at least one character other than '0' and '1',
`DecryptData` returns the 16 bytes obtained by hex-decoding that string (the
bytes whose hex encoding is the string). -/
theorem hex_auto_detection (A : AEAD) (cfg : Config) (s : Bytes)
    (hplain : cfg.UseEncryption = false) (hlen : s.length = 32)
    (hhex : ∀ c ∈ s, isLowerHexDigit c = true)
    (hnb : ∃ c ∈ s, isBinaryDigit c = false) :
    ∃ B : Bytes, B.length = 16 ∧ hexDecodeString s = some B ∧ hexEncodeToString B = s
      ∧ DecryptData A s cfg = .ok B := by
  obtain ⟨B, hB, hBs⟩ := hexDecodeString_lower s (List.all_eq_true.mpr hhex) (by omega)
  have hl := hexDecodeString_length s B hB
  have hnc : isBinaryCandidate s = false := by
    obtain ⟨c, hc, hcf⟩ := hnb
    by_contra hcon
    rw [Bool.not_eq_false] at hcon
    simp only [isBinaryCandidate, Bool.and_eq_true, List.all_eq_true] at hcon
    rw [hcon.2 c hc] at hcf
    cases hcf
  refine ⟨B, by omega, hB, hBs, ?_⟩
  rw [decrypt_plain A s cfg hplain, detect_not_candidate s hnc]
  simp only [hexBase64OrRaw, hB]

set_option maxRecDepth 100000 in
/-- Witness for C6 (amended): the hex text of the 16 bytes 0xab. -/
theorem hex_auto_detection_witness :
    ∃ B : Bytes, B.length = 16
      ∧ hexDecodeString (hexEncodeToString (List.replicate 16 0xab)) = some B
      ∧ hexEncodeToString B = hexEncodeToString (List.replicate 16 0xab)
      ∧ DecryptData zeroTagAEAD (hexEncodeToString (List.replicate 16 0xab))
          (sampleConfig "hex" false) = .ok B :=
  hex_auto_detection zeroTagAEAD (sampleConfig "hex" false)
    (hexEncodeToString (List.replicate 16 0xab)) rfl (by decide) (by decide) (by decide)

/-- C7: in plain mode, for every byte sequence B whose standard padded base64
encoding has at least one character outside the hex alphabet [0-9a-fA-F],
`DecryptData` of that encoding returns B. -/
theorem base64_auto_detection (A : AEAD) (cfg : Config) (B : Bytes)
    (hplain : cfg.UseEncryption = false)
    (h : ∃ c ∈ base64EncodeToString B, isHexDigit c = false) :
    DecryptData A (base64EncodeToString B) cfg = .ok B := by
  rw [decrypt_plain A _ cfg hplain, detect_base64 B h]

/-- Witness for C7: the bytes "hello", whose base64 text is "aGVsbG8=". -/
theorem base64_auto_detection_witness :
    DecryptData zeroTagAEAD (base64EncodeToString [0x68, 0x65, 0x6c, 0x6c, 0x6f])
      (sampleConfig "base64" false) = .ok [0x68, 0x65, 0x6c, 0x6c, 0x6f] :=
  base64_auto_detection zeroTagAEAD (sampleConfig "base64" false)
    [0x68, 0x65, 0x6c, 0x6c, 0x6f] rfl (by decide)

/-- C8: in plain mode, for every text that is not a binary-digit candidate,
that `hex.DecodeString` rejects and that `base64.StdEncoding.DecodeString`
rejects, `DecryptData` returns the text byte for byte unchanged; every text
with a non-ASCII byte (0x80 or above) is such a text. -/
theorem raw_fallback (A : AEAD) (cfg : Config) (text : Bytes)
    (hplain : cfg.UseEncryption = false) :
    ((isBinaryCandidate text = false ∧ hexDecodeString text = none
        ∧ base64DecodeString text = none) → DecryptData A text cfg = .ok text)
      ∧ ((∃ c ∈ text, 0x80 ≤ c.val) →
          isBinaryCandidate text = false ∧ hexDecodeString text = none
            ∧ base64DecodeString text = none) := by
  constructor
  · rintro ⟨hc, hh, hb⟩
    rw [decrypt_plain A text cfg hplain, detect_not_candidate text hc]
    simp only [hexBase64OrRaw, hh, hb]
  · rintro ⟨c, hc, hge⟩
    have hnh : ∃ c ∈ text, isHexDigit c = false := ⟨c, hc, not_hex_of_nonascii c hge⟩
    exact ⟨not_candidate_of_nonhex text hnh, hexDecodeString_none_of_nonhex text hnh,
      base64DecodeFrom_nonascii c hge text [] hc⟩

/-- Witness for C8: the two bytes c3 a9 (the UTF-8 text "é"). -/
theorem raw_fallback_witness :
    DecryptData zeroTagAEAD [0xc3, 0xa9] (sampleConfig "hex" false) = .ok [0xc3, 0xa9] :=
  (raw_fallback zeroTagAEAD (sampleConfig "hex" false) [0xc3, 0xa9] rfl).1
    ((raw_fallback zeroTagAEAD (sampleConfig "hex" false) [0xc3, 0xa9] rfl).2
      ⟨0xc3, by decide, by decide⟩)

/-- C9: with `UseEncryption = true` and a key of a valid AES length (16, 24
or 32 bytes), for every input text whose auto-detected bytes are fewer than
the 12 bytes of a GCM nonce, `DecryptData` fails with "ciphertext too short";
so it does for the empty string; the result is the same for every AEAD, so
`Open` has no part in it. -/
theorem too_short (A : AEAD) (cfg : Config) (text : Bytes)
    (henc : cfg.UseEncryption = true)
    (hkey : cfg.Key.length = 16 ∨ cfg.Key.length = 24 ∨ cfg.Key.length = 32)
    (hshort : (detectInputBytes text).length < 12) :
    DecryptData A text cfg = .error .ciphertextTooShort
      ∧ DecryptData A [] cfg = .error .ciphertextTooShort
      ∧ ∀ A2 : AEAD, DecryptData A2 text cfg = DecryptData A text cfg := by
  have hk : aesNewCipher cfg.Key = true := by simp [aesNewCipher, hkey]
  have h1 : ∀ A3 : AEAD, DecryptData A3 text cfg = .error .ciphertextTooShort := by
    intro A3
    simp only [DecryptData, henc, if_true, hk, not_true_eq_false, if_false, gcmNonceSize,
      hshort]
  refine ⟨h1 A, ?_, fun A2 => by rw [h1 A2, h1 A]⟩
  simp only [DecryptData, henc, if_true, hk, not_true_eq_false, if_false, gcmNonceSize]
  rfl

/-- Witness for C9: the text "abcd" hex-decodes to 2 bytes. -/
theorem too_short_witness :
    DecryptData zeroTagAEAD [0x61, 0x62, 0x63, 0x64] (sampleConfig "hex" true)
        = .error .ciphertextTooShort
      ∧ DecryptData zeroTagAEAD [] (sampleConfig "hex" true) = .error .ciphertextTooShort
      ∧ ∀ A2 : AEAD, DecryptData A2 [0x61, 0x62, 0x63, 0x64] (sampleConfig "hex" true)
          = DecryptData zeroTagAEAD [0x61, 0x62, 0x63, 0x64] (sampleConfig "hex" true) :=
  too_short zeroTagAEAD (sampleConfig "hex" true) [0x61, 0x62, 0x63, 0x64] rfl
    (Or.inr (Or.inr (by decide))) (by decide)

/-- C10: with `UseEncryption = false` and `OutputMode = "binary"`, for every
plaintext P, `EncryptData` returns a string of exactly 8*len(P) characters,
each '0' or '1' (so no separators), whose i-th group of 8 characters is the
most-significant-bit-first binary representation of the i-th byte of P. -/
theorem binary_digits_encoding (A : AEAD) (rnd : Option Bytes) (cfg : Config) (P : Bytes)
    (hplain : cfg.UseEncryption = false) (hmode : cfg.OutputMode = "binary") :
    ∃ S : Bytes, EncryptData A rnd P cfg = .ok S ∧ S.length = 8 * P.length
      ∧ (∀ c ∈ S, c = 0x30 ∨ c = 0x31)
      ∧ ∀ (i : Nat) (hi : i < P.length),
          (S.drop (8 * i)).take 8
            = [msbBitChar (P.get ⟨i, hi⟩) 0, msbBitChar (P.get ⟨i, hi⟩) 1,
                msbBitChar (P.get ⟨i, hi⟩) 2, msbBitChar (P.get ⟨i, hi⟩) 3,
                msbBitChar (P.get ⟨i, hi⟩) 4, msbBitChar (P.get ⟨i, hi⟩) 5,
                msbBitChar (P.get ⟨i, hi⟩) 6, msbBitChar (P.get ⟨i, hi⟩) 7] := by
  have hne : ¬ cfg.OutputMode = "hex" := by rw [hmode]; decide
  have hne2 : ¬ cfg.OutputMode = "base64" := by rw [hmode]; decide
  refine ⟨binaryDigits P, ?_, binaryDigits_length P, ?_, ?_⟩
  · rw [encrypt_plain A rnd P cfg hplain, if_neg hne, if_neg hne2, if_pos hmode]
  · intro c hc
    have := List.all_eq_true.mp (binaryDigits_all_binary P) c hc
    simp only [isBinaryDigit, Bool.or_eq_true, decide_eq_true_eq] at this
    rcases this with h | h
    · exact Or.inl (Fin.ext h)
    · exact Or.inr (Fin.ext h)
  · intro i hi
    rw [binaryDigits_group P i hi, sprintf08b_eq]

/-- Witness for C10: the plaintext "hi". -/
theorem binary_digits_encoding_witness :
    ∃ S : Bytes,
      EncryptData zeroTagAEAD none [0x68, 0x69] (sampleConfig "binary" false) = .ok S
      ∧ S.length = 8 * ([0x68, 0x69] : Bytes).length
      ∧ (∀ c ∈ S, c = 0x30 ∨ c = 0x31)
      ∧ ∀ (i : Nat) (hi : i < ([0x68, 0x69] : Bytes).length),
          (S.drop (8 * i)).take 8
            = [msbBitChar (([0x68, 0x69] : Bytes).get ⟨i, hi⟩) 0,
                msbBitChar (([0x68, 0x69] : Bytes).get ⟨i, hi⟩) 1,
                msbBitChar (([0x68, 0x69] : Bytes).get ⟨i, hi⟩) 2,
                msbBitChar (([0x68, 0x69] : Bytes).get ⟨i, hi⟩) 3,
                msbBitChar (([0x68, 0x69] : Bytes).get ⟨i, hi⟩) 4,
                msbBitChar (([0x68, 0x69] : Bytes).get ⟨i, hi⟩) 5,
                msbBitChar (([0x68, 0x69] : Bytes).get ⟨i, hi⟩) 6,
                msbBitChar (([0x68, 0x69] : Bytes).get ⟨i, hi⟩) 7] :=
  binary_digits_encoding zeroTagAEAD none (sampleConfig "binary" false) [0x68, 0x69] rfl rfl

/-! ## Tampering with the encoded text -/

theorem Config.apply_key (sum256 : Bytes → Bytes) (envToken envDMID : Bytes) (c : Config)
    (op : ConfigOp) (hsum : ∀ p : Bytes, (sum256 p).length = 32) (hc : c.Key.length = 32) :
    (Config.apply sum256 envToken envDMID c op).Key.length = 32 := by
  cases op with
  | SetMode mode => simp only [Config.apply, Config.SetMode]; split_ifs <;> exact hc
  | SetDataType dataType => simp only [Config.apply, Config.SetDataType]; split_ifs <;> exact hc
  | SetOutputMode outputMode =>
    simp only [Config.apply, Config.SetOutputMode]; split_ifs <;> exact hc
  | ToggleMode => exact hc
  | ToggleDataType => exact hc
  | ToggleOutputMode => exact hc
  | SetKey password => exact hsum password
  | GetKeyFingerprint => exact hc
  | IsDefaultKey => exact hc
  | GetDiscord =>
    simp only [Config.apply, Config.GetDiscord]
    cases c.Discord <;> exact hc
  | ToggleDiscord =>
    simp only [Config.apply, Config.ToggleDiscord, Config.GetDiscord]
    cases c.Discord <;> simp only [] <;> split_ifs <;> exact hc
  | SetDiscordSending enabled =>
    simp only [Config.apply, Config.SetDiscordSending, Config.GetDiscord]
    cases c.Discord <;> simp only [] <;> split_ifs <;> exact hc
  | ToggleEncryption => exact hc
  | SetEncryption enabled => exact hc

theorem Config.run_key (sum256 : Bytes → Bytes) (envToken envDMID : Bytes)
    (hsum : ∀ p : Bytes, (sum256 p).length = 32) (ops : List ConfigOp) :
    ∀ c : Config, c.Key.length = 32 →
      (Config.run sum256 envToken envDMID c ops).Key.length = 32 := by
  induction ops with
  | nil => intro c hc; exact hc
  | cons op ops ih =>
    intro c hc
    exact ih _ (Config.apply_key sum256 envToken envDMID c op hsum hc)

theorem no_cipher_error (A : AEAD) (rnd : Option Bytes) (data : Bytes) (cfg : Config)
    (hkey : cfg.Key.length = 32) :
    EncryptData A rnd data cfg ≠ .error .createCipher
      ∧ DecryptData A data cfg ≠ .error .createCipher := by
  have hk : aesNewCipher cfg.Key = true := by simp [aesNewCipher, hkey]
  constructor
  · simp only [EncryptData, hk, not_true_eq_false, if_false]
    cases cfg.UseEncryption <;> cases rnd <;> simp <;> split_ifs <;> simp
  · simp only [DecryptData, hk, not_true_eq_false, if_false]
    cases cfg.UseEncryption
    · simp
    · simp only [if_true]
      split_ifs
      · simp
      · cases A.Open cfg.Key (List.take gcmNonceSize (detectInputBytes data))
          (List.drop gcmNonceSize (detectInputBytes data)) <;> simp

/-- C15: in every `Config` state reached from `New()` by any sequence of
`Config` method calls (whatever the passwords given to `SetKey` and whatever
the environment), `Key` has exactly 32 bytes, the width of a SHA-256 digest;
so neither `EncryptData` nor `DecryptData` returns the "failed to create
cipher" error for such a configuration. -/
theorem key_width_invariant (sum256 : Bytes → Bytes) (envToken envDMID : Bytes)
    (ops : List ConfigOp) (A : AEAD) (rnd : Option Bytes) (data : Bytes)
    (hsum : ∀ p : Bytes, (sum256 p).length = 32) :
    (Config.run sum256 envToken envDMID (Config.New sum256) ops).Key.length = 32
      ∧ EncryptData A rnd data (Config.run sum256 envToken envDMID (Config.New sum256) ops)
          ≠ .error .createCipher
      ∧ DecryptData A data (Config.run sum256 envToken envDMID (Config.New sum256) ops)
          ≠ .error .createCipher := by
  have h := Config.run_key sum256 envToken envDMID hsum ops (Config.New sum256)
    (hsum defaultPassword)
  exact ⟨h, no_cipher_error A rnd data _ h⟩

/-- Witness for C15: the key is set from a password, encryption is toggled
and the Discord client is created, with the stand-in digest. -/
theorem key_width_invariant_witness :
    (Config.run zeroSum256 [] [] (Config.New zeroSum256)
        [.SetKey samplePlain, .ToggleEncryption, .ToggleDiscord]).Key.length = 32
      ∧ EncryptData zeroTagAEAD none samplePlain
          (Config.run zeroSum256 [] [] (Config.New zeroSum256)
            [.SetKey samplePlain, .ToggleEncryption, .ToggleDiscord])
          ≠ .error .createCipher
      ∧ DecryptData zeroTagAEAD samplePlain
          (Config.run zeroSum256 [] [] (Config.New zeroSum256)
            [.SetKey samplePlain, .ToggleEncryption, .ToggleDiscord])
          ≠ .error .createCipher :=
  key_width_invariant zeroSum256 [] [] [.SetKey samplePlain, .ToggleEncryption, .ToggleDiscord]
    zeroTagAEAD none samplePlain (fun _ => rfl)

/-- C16: for every `Config` whose `Mode` is one of encrypt, decrypt, encode,
decode, after `SetEncryption(b)` the flag `UseEncryption` is `b`, after
`ToggleEncryption()` it is negated, and in both cases the mode matches the
resulting flag (encrypt/decrypt when on, encode/decode when off) with the
direction preserved and every other field unchanged. -/
theorem mode_follows_encryption (c : Config) (b : Bool)
    (hmode : c.Mode = "encrypt" ∨ c.Mode = "decrypt" ∨ c.Mode = "encode"
      ∨ c.Mode = "decode") :
    ((c.SetEncryption b).UseEncryption = b ∧ modeFollowsEncryption c (c.SetEncryption b))
      ∧ (c.ToggleEncryption.UseEncryption = !c.UseEncryption
        ∧ modeFollowsEncryption c c.ToggleEncryption) := by
  have key : ∀ u : Bool,
      (u = true → modeForEncryption u c.Mode = "encrypt"
          ∨ modeForEncryption u c.Mode = "decrypt")
        ∧ (u = false → modeForEncryption u c.Mode = "encode"
          ∨ modeForEncryption u c.Mode = "decode")
        ∧ ((modeForEncryption u c.Mode = "encrypt" ∨ modeForEncryption u c.Mode = "encode")
          ↔ (c.Mode = "encrypt" ∨ c.Mode = "encode")) := by
    intro u
    rcases hmode with h | h | h | h <;> cases u <;> rw [h] <;> decide
  refine ⟨⟨rfl, ?_⟩, rfl, ?_⟩
  · obtain ⟨k1, k2, k3⟩ := key b
    exact ⟨k1, k2, k3, rfl, rfl, rfl, rfl, rfl, rfl⟩
  · obtain ⟨k1, k2, k3⟩ := key (!c.UseEncryption)
    exact ⟨k1, k2, k3, rfl, rfl, rfl, rfl, rfl, rfl⟩

/-- Witness for C16: the configuration of `New()`, whose mode is "encrypt"
with encryption off. -/
theorem mode_follows_encryption_witness :
    (((Config.New zeroSum256).SetEncryption true).UseEncryption = true
        ∧ modeFollowsEncryption (Config.New zeroSum256)
          ((Config.New zeroSum256).SetEncryption true))
      ∧ ((Config.New zeroSum256).ToggleEncryption.UseEncryption
          = !(Config.New zeroSum256).UseEncryption
        ∧ modeFollowsEncryption (Config.New zeroSum256)
          (Config.New zeroSum256).ToggleEncryption) :=
  mode_follows_encryption (Config.New zeroSum256) true (Or.inl rfl)



/-! ## Exact conditions of the plain round trip -/

set_option maxRecDepth 1000000 in
theorem hex_digits_binary_iff : ∀ v : Byte,
    (isBinaryDigit (hextable (v.val >>> 4)) && isBinaryDigit (hextable (v.val &&& 0x0f)))
      = decide (v = 0x00 ∨ v = 0x01 ∨ v = 0x10 ∨ v = 0x11) := by
  decide

theorem hexEncodeToString_binary_iff (P : Bytes) :
    (hexEncodeToString P).all isBinaryDigit = true
      ↔ ∀ b ∈ P, b = 0x00 ∨ b = 0x01 ∨ b = 0x10 ∨ b = 0x11 := by
  induction P with
  | nil => simp [hexEncodeToString]
  | cons v rest ih =>
    have hv := hex_digits_binary_iff v
    simp only [hexEncodeToString, List.all_cons, List.forall_mem_cons, ← ih]
    rw [← Bool.and_assoc, hv, Bool.and_eq_true, decide_eq_true_eq]

theorem detect_candidate_ne (s P : Bytes) (h : isBinaryCandidate s = true)
    (hne : s.length ≠ 8 * P.length) :
    detectInputBytes s ≠ P := by
  obtain ⟨B, hB, _, hd⟩ := detect_candidate s h
  rw [hd]
  intro hcon
  rw [hcon] at hB
  omega

/-- C17: with `UseEncryption = false` and `OutputMode = "hex"`,
`DecryptData` of what `EncryptData` returns for P is P if and only if the hex
text of P is not a binary-digit candidate; and the hex text is a
binary-digit candidate exactly when len(P) >= 8, len(P) is divisible by 4 and
every byte of P is 0x00, 0x01, 0x10 or 0x11. -/
theorem hex_round_trip_exact (A : AEAD) (rnd : Option Bytes) (cfg : Config) (P : Bytes)
    (hplain : cfg.UseEncryption = false) (hmode : cfg.OutputMode = "hex") :
    ∃ S : Bytes, EncryptData A rnd P cfg = .ok S
      ∧ (DecryptData A S cfg = .ok P ↔ isBinaryCandidate S = false)
      ∧ (isBinaryCandidate S = true
          ↔ 8 ≤ P.length ∧ P.length % 4 = 0
            ∧ ∀ b ∈ P, b = 0x00 ∨ b = 0x01 ∨ b = 0x10 ∨ b = 0x11) := by
  have hlen := hexEncodeToString_length P
  refine ⟨hexEncodeToString P, ?_, ?_, ?_⟩
  · rw [encrypt_plain A rnd P cfg hplain, if_pos hmode]
  · rw [decrypt_plain A _ cfg hplain]
    constructor
    · intro h
      by_contra hc
      rw [Bool.not_eq_false] at hc
      have hc2 := hc
      simp only [isBinaryCandidate, Bool.and_eq_true, decide_eq_true_eq] at hc2
      exact detect_candidate_ne _ P hc (by omega) (Except.ok.inj h)
    · intro h
      rw [detect_hex P h]
  · simp only [isBinaryCandidate, Bool.and_eq_true, decide_eq_true_eq, hlen,
      hexEncodeToString_binary_iff]
    constructor
    · rintro ⟨⟨h1, h2⟩, h3⟩
      exact ⟨by omega, by omega, h3⟩
    · rintro ⟨h1, h2, h3⟩
      exact ⟨⟨by omega, by omega⟩, h3⟩

/-- Witness for C17: the plaintext "hi". -/
theorem hex_round_trip_exact_witness :
    ∃ S : Bytes, EncryptData zeroTagAEAD none samplePlain (sampleConfig "hex" false) = .ok S
      ∧ (DecryptData zeroTagAEAD S (sampleConfig "hex" false) = .ok samplePlain
          ↔ isBinaryCandidate S = false)
      ∧ (isBinaryCandidate S = true
          ↔ 8 ≤ samplePlain.length ∧ samplePlain.length % 4 = 0
            ∧ ∀ b ∈ samplePlain, b = 0x00 ∨ b = 0x01 ∨ b = 0x10 ∨ b = 0x11) :=
  hex_round_trip_exact zeroTagAEAD none (sampleConfig "hex" false) samplePlain rfl rfl

/-- C18: with `UseEncryption = false` and `OutputMode = "binary"`,
`DecryptData` of what `EncryptData` returns for P is P if and only if
len(P) != 1; for a one-byte P the output has 8 characters, is not a
binary-digit candidate, and is hex-decoded into 4 bytes, which is what
`DecryptData` returns. -/
theorem binary_round_trip_exact (A : AEAD) (rnd : Option Bytes) (cfg : Config) (P : Bytes)
    (hplain : cfg.UseEncryption = false) (hmode : cfg.OutputMode = "binary") :
    ∃ S : Bytes, EncryptData A rnd P cfg = .ok S
      ∧ (DecryptData A S cfg = .ok P ↔ P.length ≠ 1)
      ∧ (P.length = 1 → S.length = 8 ∧ isBinaryCandidate S = false
          ∧ ∃ H : Bytes, hexDecodeString S = some H ∧ H.length = 4
            ∧ DecryptData A S cfg = .ok H) := by
  have hne : ¬ cfg.OutputMode = "hex" := by rw [hmode]; decide
  have hne2 : ¬ cfg.OutputMode = "base64" := by rw [hmode]; decide
  have hlen := binaryDigits_length P
  have hall := binaryDigits_all_binary P
  have hone : P.length = 1 → (binaryDigits P).length = 8
      ∧ isBinaryCandidate (binaryDigits P) = false
      ∧ ∃ H : Bytes, hexDecodeString (binaryDigits P) = some H ∧ H.length = 4
        ∧ detectInputBytes (binaryDigits P) = H := by
    intro h1
    have hnc : isBinaryCandidate (binaryDigits P) = false := by
      simp only [isBinaryCandidate, hlen, h1]; rfl
    have hhex : (binaryDigits P).all isHexDigit = true := by
      rw [List.all_eq_true] at hall ⊢
      intro c hc
      exact isHexDigit_of_lower c (isHexDigit_of_binary c (hall c hc))
    obtain ⟨H, hH⟩ := hexDecodeString_some_of_hex _ hhex (by omega)
    have hHl := hexDecodeString_length _ H hH
    refine ⟨by omega, hnc, H, hH, by omega, ?_⟩
    rw [detect_not_candidate _ hnc]
    simp only [hexBase64OrRaw, hH]
  refine ⟨binaryDigits P, ?_, ?_, ?_⟩
  · rw [encrypt_plain A rnd P cfg hplain, if_neg hne, if_neg hne2, if_pos hmode]
  · rw [decrypt_plain A _ cfg hplain]
    constructor
    · intro h h1
      obtain ⟨_, _, H, _, hH4, hd⟩ := hone h1
      have := Except.ok.inj h
      rw [hd] at this
      rw [this] at hH4
      omega
    · intro h
      cases P with
      | nil => rfl
      | cons b rest =>
        cases rest with
        | nil => simp at h
        | cons b2 rest2 => rw [detect_binaryDigits _ (by simp)]
  · intro h1
    obtain ⟨h8, hnc, H, hH, hH4, hd⟩ := hone h1
    exact ⟨h8, hnc, H, hH, hH4, by rw [decrypt_plain A _ cfg hplain, hd]⟩

/-- Witness for C18: the plaintext "hi". -/
theorem binary_round_trip_exact_witness :
    ∃ S : Bytes, EncryptData zeroTagAEAD none samplePlain (sampleConfig "binary" false) = .ok S
      ∧ (DecryptData zeroTagAEAD S (sampleConfig "binary" false) = .ok samplePlain
          ↔ samplePlain.length ≠ 1)
      ∧ (samplePlain.length = 1 → S.length = 8 ∧ isBinaryCandidate S = false
          ∧ ∃ H : Bytes, hexDecodeString S = some H ∧ H.length = 4
            ∧ DecryptData zeroTagAEAD S (sampleConfig "binary" false) = .ok H) :=
  binary_round_trip_exact zeroTagAEAD none (sampleConfig "binary" false) samplePlain rfl rfl

/-! ## GetStatus -/

theorem Client.apply_enabled (c : Client) (op : ClientOp)
    (h : c.enabled = (decide (c.token ≠ []) && decide (c.dmID ≠ []))) :
    (c.apply op).enabled
      = (decide ((c.apply op).token ≠ []) && decide ((c.apply op).dmID ≠ [])) := by
  cases op with
  | SetDMID dmID =>
    simp only [Client.apply, Client.SetDMID]
    split_ifs
    · exact h
    · rfl
  | IsEnabled => exact h
  | GetDMID => exact h

theorem Client.run_enabled (ops : List ClientOp) :
    ∀ c : Client, c.enabled = (decide (c.token ≠ []) && decide (c.dmID ≠ [])) →
      (c.run ops).enabled
        = (decide ((c.run ops).token ≠ []) && decide ((c.run ops).dmID ≠ [])) := by
  induction ops with
  | nil => intro c h; exact h
  | cons op ops ih => intro c h; exact ih _ (Client.apply_enabled c op h)

/-- What `GetStatus` does in the states where `enabled` holds exactly when
token and DM id are both non-empty: it returns "disabled" when the client is
not enabled, "enabled" when it is enabled with a DM id of at least 8 bytes,
and panics when it is enabled with a shorter DM id. -/
theorem Client.getStatus_cases (c : Client)
    (h : c.enabled = (decide (c.token ≠ []) && decide (c.dmID ≠ []))) :
    (c.enabled = false → ∃ detail : Bytes, c.GetStatus = .ok ("disabled", detail))
      ∧ (c.enabled = true → 8 ≤ c.dmID.length →
          ∃ detail : Bytes, c.GetStatus = .ok ("enabled", detail))
      ∧ (c.enabled = true → c.dmID.length < 8 →
          c.GetStatus = .error .sliceBoundsOutOfRange) := by
  refine ⟨?_, ?_, ?_⟩
  · intro he
    rw [he] at h
    have h2 : c.token = [] ∨ c.dmID = [] := by
      by_contra hcon
      rw [not_or] at hcon
      simp [hcon.1, hcon.2] at h
    simp only [Client.GetStatus, he, Bool.false_eq_true, not_false_eq_true, if_true]
    by_cases ht : c.token = []
    · by_cases hd : c.dmID = []
      · exact ⟨_, by rw [if_pos ⟨ht, hd⟩]⟩
      · exact ⟨_, by rw [if_neg (fun hx => hd hx.2), if_pos ht]⟩
    · have hd : c.dmID = [] := by
        rcases h2 with h2 | h2
        · exact absurd h2 ht
        · exact h2
      exact ⟨_, by rw [if_neg (fun hx => ht hx.1), if_neg ht, if_pos hd]⟩
  · intro he hl
    simp only [Client.GetStatus, he, not_true_eq_false, if_false, sliceTo, hl, if_true]
    exact ⟨_, rfl⟩
  · intro he hl
    have hl2 : ¬ 8 ≤ c.dmID.length := by omega
    simp only [Client.GetStatus, he, not_true_eq_false, if_false, sliceTo, hl2]

/-- C20 (the code departs from the claim): the client built by `New` with
the token "token" and no DM id, after `SetDMID("123")`, is in a state where
`enabled` holds exactly when token and DM id are both non-empty, is enabled,
and `GetStatus` panics on the slice `c.dmID[:8]` instead of returning a
pair. -/
theorem getStatus_short_dmID :
    ((Client.New (ascii "token") []).run [.SetDMID (ascii "123")]).enabled
        = (decide (((Client.New (ascii "token") []).run [.SetDMID (ascii "123")]).token ≠ [])
          && decide (((Client.New (ascii "token") []).run [.SetDMID (ascii "123")]).dmID ≠ []))
      ∧ ((Client.New (ascii "token") []).run [.SetDMID (ascii "123")]).enabled = true
      ∧ ((Client.New (ascii "token") []).run [.SetDMID (ascii "123")]).dmID = ascii "123"
      ∧ ((Client.New (ascii "token") []).run [.SetDMID (ascii "123")]).GetStatus
        = .error .sliceBoundsOutOfRange := by
  decide

/-! ## Lemmas: decoding runes -/

theorem decodeContinuation_cases (sz lo hi : Nat) (s0 : Byte) (t : Bytes)
    (hlo : 0x80 ≤ lo) (hhi : hi ≤ 0xBF) :
    decodeContinuation sz lo hi s0 t = (0xFFFD, 1)
      ∨ ((decodeContinuation sz lo hi s0 t).2 = sz ∧ 2 ≤ sz ∧ sz ≤ t.length + 1
        ∧ ∀ c ∈ t.take (sz - 1), 0x80 ≤ c.val ∧ c.val ≤ 0xBF) := by
  unfold decodeContinuation
  split
  · rename_i s1 _
    split_ifs with h1
    · exact Or.inl rfl
    · right
      refine ⟨rfl, by omega, by simp, ?_⟩
      intro c hc
      simp only [Nat.add_one_sub_one, List.take_succ_cons, List.take_zero,
        List.mem_singleton] at hc
      subst hc
      omega
  · rename_i s1 s2 _
    split_ifs with h1 h2
    · exact Or.inl rfl
    · exact Or.inl rfl
    · right
      refine ⟨rfl, by omega, by simp, ?_⟩
      intro c hc
      simp only [Nat.add_one_sub_one, List.take_succ_cons, List.take_zero, List.mem_cons,
        List.mem_singleton, List.not_mem_nil, or_false] at hc
      rcases hc with rfl | rfl <;> omega
  · rename_i s1 s2 s3 _
    split_ifs with h1 h2 h3
    · exact Or.inl rfl
    · exact Or.inl rfl
    · exact Or.inl rfl
    · right
      refine ⟨rfl, by omega, by simp, ?_⟩
      intro c hc
      simp only [Nat.add_one_sub_one, List.take_succ_cons, List.take_zero, List.mem_cons,
        List.mem_singleton, List.not_mem_nil, or_false] at hc
      rcases hc with rfl | rfl | rfl <;> omega
  · exact Or.inl rfl

theorem decodeContinuation_append (sz lo hi : Nat) (s0 : Byte) (t y : Bytes)
    (h : sz ≤ t.length + 1) :
    decodeContinuation sz lo hi s0 (t ++ y) = decodeContinuation sz lo hi s0 t := by
  match sz, t, h with
  | 0, _, _ => simp [decodeContinuation]
  | 1, _, _ => simp [decodeContinuation]
  | 2, s1 :: t1, _ => simp [decodeContinuation]
  | 3, s1 :: s2 :: t2, _ => simp [decodeContinuation]
  | 4, s1 :: s2 :: s3 :: t3, _ => simp [decodeContinuation]
  | n + 5, _, _ => simp [decodeContinuation]
  | 2, [], h => simp at h
  | 3, [], h => simp at h
  | 3, [_], h => simp at h
  | 4, [], h => simp at h
  | 4, [_], h => simp at h
  | 4, [_, _], h => simp at h

/-- The shape of `decodeRuneInString` on a first byte of 0x80 or above. -/
theorem decodeRune_shape (s0 : Byte) (h : 0x80 ≤ s0.val) :
    (∀ t : Bytes, decodeRuneInString (s0 :: t) = (0xFFFD, 1))
      ∨ ∃ sz lo hi : Nat, 0x80 ≤ lo ∧ hi ≤ 0xBF ∧ 0xC2 ≤ s0.val
        ∧ ∀ t : Bytes, decodeRuneInString (s0 :: t) = decodeContinuation sz lo hi s0 t := by
  have h1 : ¬ s0.val < 0x80 := by omega
  by_cases h2 : s0.val < 0xC2 ∨ 0xF4 < s0.val
  · left
    intro t
    simp only [decodeRuneInString, h1, if_false, h2, if_true]
  · right
    have hc : 0xC2 ≤ s0.val := by omega
    by_cases h3 : s0.val < 0xE0
    · exact ⟨2, 0x80, 0xBF, by omega, by omega, hc, fun t => by
        unfold decodeRuneInString
        dsimp only
        rw [if_neg h1, if_neg h2, if_pos h3]⟩
    by_cases h4 : s0.val = 0xE0
    · exact ⟨3, 0xA0, 0xBF, by omega, by omega, hc, fun t => by
        unfold decodeRuneInString
        dsimp only
        rw [if_neg h1, if_neg h2, if_neg h3, if_pos h4]⟩
    by_cases h5 : s0.val = 0xED
    · exact ⟨3, 0x80, 0x9F, by omega, by omega, hc, fun t => by
        unfold decodeRuneInString
        dsimp only
        rw [if_neg h1, if_neg h2, if_neg h3, if_neg h4, if_pos h5]⟩
    by_cases h6 : s0.val < 0xF0
    · exact ⟨3, 0x80, 0xBF, by omega, by omega, hc, fun t => by
        unfold decodeRuneInString
        dsimp only
        rw [if_neg h1, if_neg h2, if_neg h3, if_neg h4, if_neg h5, if_pos h6]⟩
    by_cases h7 : s0.val = 0xF0
    · exact ⟨4, 0x90, 0xBF, by omega, by omega, hc, fun t => by
        unfold decodeRuneInString
        dsimp only
        rw [if_neg h1, if_neg h2, if_neg h3, if_neg h4, if_neg h5, if_neg h6, if_pos h7]⟩
    by_cases h8 : s0.val = 0xF4
    · exact ⟨4, 0x80, 0x8F, by omega, by omega, hc, fun t => by
        unfold decodeRuneInString
        dsimp only
        rw [if_neg h1, if_neg h2, if_neg h3, if_neg h4, if_neg h5, if_neg h6, if_neg h7,
          if_pos h8]⟩
    · exact ⟨4, 0x80, 0xBF, by omega, by omega, hc, fun t => by
        unfold decodeRuneInString
        dsimp only
        rw [if_neg h1, if_neg h2, if_neg h3, if_neg h4, if_neg h5, if_neg h6, if_neg h7,
          if_neg h8]⟩

theorem decodeRune_ascii (s0 : Byte) (t : Bytes) (h : s0.val < 0x80) :
    decodeRuneInString (s0 :: t) = (s0.val, 1) := by
  simp only [decodeRuneInString, h, if_true]

/-- Every decoded rune is `RuneError` of width 1, or an ASCII byte of width
1, or has a width from 2 to 4 within the string, a first byte of 0xC2 or
above and continuation bytes after it. -/
theorem decodeRune_cases (s0 : Byte) (t : Bytes) :
    decodeRuneInString (s0 :: t) = (0xFFFD, 1)
      ∨ (s0.val < 0x80 ∧ decodeRuneInString (s0 :: t) = (s0.val, 1))
      ∨ (0xC2 ≤ s0.val ∧ 2 ≤ (decodeRuneInString (s0 :: t)).2
        ∧ (decodeRuneInString (s0 :: t)).2 ≤ t.length + 1
        ∧ ∀ c ∈ t.take ((decodeRuneInString (s0 :: t)).2 - 1), 0x80 ≤ c.val ∧ c.val ≤ 0xBF) := by
  by_cases h : s0.val < 0x80
  · exact Or.inr (Or.inl ⟨h, decodeRune_ascii s0 t h⟩)
  · rcases decodeRune_shape s0 (by omega) with h1 | ⟨sz, lo, hi, hlo, hhi, hc, h1⟩
    · exact Or.inl (h1 t)
    · rw [h1 t]
      rcases decodeContinuation_cases sz lo hi s0 t hlo hhi with h2 | ⟨h2, h3, h4, h5⟩
      · exact Or.inl h2
      · right; right
        rw [h2]
        exact ⟨hc, h3, h4, h5⟩

theorem decodeRune_width (s0 : Byte) (t : Bytes) :
    1 ≤ (decodeRuneInString (s0 :: t)).2
      ∧ (decodeRuneInString (s0 :: t)).2 ≤ t.length + 1 := by
  rcases decodeRune_cases s0 t with h | ⟨_, h⟩ | ⟨_, h2, h3, _⟩
  · rw [h]; simp
  · rw [h]; simp
  · omega

/-- A decoded rune that is not `RuneError` of width 1 is the same when the
string is extended. -/
theorem decodeRune_append (s0 : Byte) (t y : Bytes)
    (h : decodeRuneInString (s0 :: t) ≠ (0xFFFD, 1)) :
    decodeRuneInString (s0 :: (t ++ y)) = decodeRuneInString (s0 :: t) := by
  by_cases ha : s0.val < 0x80
  · rw [decodeRune_ascii s0 _ ha, decodeRune_ascii s0 _ ha]
  · rcases decodeRune_shape s0 (by omega) with h1 | ⟨sz, lo, hi, hlo, hhi, hc, h1⟩
    · exact absurd (h1 t) h
    · rw [h1 t] at h
      rw [h1 t, h1 (t ++ y)]
      rcases decodeContinuation_cases sz lo hi s0 t hlo hhi with h2 | ⟨_, _, h4, _⟩
      · exact absurd h2 h
      · exact decodeContinuation_append sz lo hi s0 t y h4

/-- A rune decoded from an extended string within the first part is the rune
of the first part. -/
theorem decodeRune_restrict (s0 : Byte) (t y : Bytes)
    (h : (decodeRuneInString (s0 :: (t ++ y))).2 ≤ t.length + 1) :
    decodeRuneInString (s0 :: t) = decodeRuneInString (s0 :: (t ++ y)) := by
  by_cases ha : s0.val < 0x80
  · rw [decodeRune_ascii s0 _ ha, decodeRune_ascii s0 _ ha]
  · rcases decodeRune_shape s0 (by omega) with h1 | ⟨sz, lo, hi, hlo, hhi, hc, h1⟩
    · rw [h1 t, h1 (t ++ y)]
    · rw [h1 (t ++ y)] at h
      rw [h1 t, h1 (t ++ y)]
      rcases decodeContinuation_cases sz lo hi s0 (t ++ y) hlo hhi with h2 | ⟨h3, _, _, _⟩
      · rw [h2]
        rcases decodeContinuation_cases sz lo hi s0 t hlo hhi with h4 | ⟨_, _, h6, _⟩
        · exact h4
        · rw [← h2]
          exact (decodeContinuation_append sz lo hi s0 t y h6).symm
      · rw [h3] at h
        exact (decodeContinuation_append sz lo hi s0 t y h).symm

set_option maxRecDepth 100000 in
theorem isSpaceRune_ne_error : isSpaceRune 0xFFFD = false := by decide

set_option maxRecDepth 1000000 in
theorem isSpaceRune_ascii : ∀ c : Byte, c.val < 0x80 →
    (isSpaceRune c.val = true ↔ (c.val = 0x09 ∨ c.val = 0x0A ∨ c.val = 0x0B ∨ c.val = 0x0C
      ∨ c.val = 0x0D ∨ c.val = 0x20)) := by
  decide

set_option maxRecDepth 1000000 in
theorem isSpaceRE_space : ∀ c : Byte, isSpaceRE c = true →
    c.val < 0x80 ∧ isSpaceRune c.val = true := by
  decide



theorem decodeRune_nil : decodeRuneInString [] = (0xFFFD, 0) := rfl

/-- What `decodeWindow` returns on a window that ends the string: a rune that
fills the window, or `RuneError` for the last byte alone. -/
theorem decodeWindow_spec (front w : Bytes) (b0 : Byte) :
    ∃ front2 win : Bytes, front ++ (w ++ [b0]) = front2 ++ win
      ∧ win.length = (decodeWindow (w ++ [b0])).2 ∧ 1 ≤ win.length
      ∧ (decodeRuneInString win = decodeWindow (w ++ [b0])
        ∨ decodeWindow (w ++ [b0]) = (0xFFFD, 1)) := by
  unfold decodeWindow
  split_ifs with h
  · exact ⟨front, w ++ [b0], rfl, h.symm, by simp, Or.inl rfl⟩
  · exact ⟨front ++ w, [b0], by simp, rfl, by simp, Or.inr rfl⟩

/-- The last rune of a non-empty string is decoded from a window at its end:
the string is `front ++ win`, the width is the length of `win`, and the rune
is the one decoded forwards from `win` unless it is `RuneError` of width
1. -/
theorem decodeLast_spec (s : Bytes) (hs : s ≠ []) :
    ∃ front win : Bytes, s = front ++ win
      ∧ win.length = (decodeLastRuneInString s).2 ∧ 1 ≤ win.length
      ∧ (decodeRuneInString win = decodeLastRuneInString s
        ∨ decodeLastRuneInString s = (0xFFFD, 1)) := by
  have hrev : s = s.reverse.reverse := (List.reverse_reverse s).symm
  unfold decodeLastRuneInString
  cases h : s.reverse with
  | nil =>
    rw [h] at hrev
    exact absurd hrev hs
  | cons b0 before =>
    rw [h] at hrev
    simp only [List.reverse_cons] at hrev
    simp only []
    split_ifs with ha
    · exact ⟨before.reverse, [b0], hrev, rfl, by simp,
        Or.inl (decodeRune_ascii b0 [] ha)⟩
    · cases before with
      | nil =>
        rw [hrev]
        exact decodeWindow_spec [] [] b0
      | cons b1 before1 =>
        simp only [List.reverse_cons, List.append_assoc] at hrev
        simp only []
        split_ifs with h1
        · rw [hrev]
          exact decodeWindow_spec before1.reverse [b1] b0
        · cases before1 with
          | nil =>
            rw [hrev]
            exact decodeWindow_spec [] [b1] b0
          | cons b2 before2 =>
            simp only [List.reverse_cons, List.append_assoc] at hrev
            simp only []
            split_ifs with h2
            · rw [hrev]
              exact decodeWindow_spec before2.reverse [b2, b1] b0
            · cases before2 with
              | nil =>
                rw [hrev]
                exact decodeWindow_spec [] [b2, b1] b0
              | cons b3 before3 =>
                simp only [List.reverse_cons, List.append_assoc] at hrev
                simp only []
                split_ifs with h3
                · rw [hrev]
                  exact decodeWindow_spec before3.reverse [b3, b2, b1] b0
                · cases before3 with
                  | nil =>
                    rw [hrev]
                    exact decodeWindow_spec [] [b3, b2, b1] b0
                  | cons b4 before4 =>
                    simp only [List.reverse_cons, List.append_assoc] at hrev
                    simp only []
                    rw [hrev]
                    exact decodeWindow_spec before4.reverse [b4, b3, b2, b1] b0

theorem decodeLast_ascii (front : Bytes) (c : Byte) (h : c.val < 0x80) :
    decodeLastRuneInString (front ++ [c]) = (c.val, 1) := by
  simp [decodeLastRuneInString, h]

theorem decodeLast_width (s : Bytes) (hs : s ≠ []) :
    1 ≤ (decodeLastRuneInString s).2 ∧ (decodeLastRuneInString s).2 ≤ s.length := by
  obtain ⟨front, win, h1, h2, h3, _⟩ := decodeLast_spec s hs
  have := congrArg List.length h1
  simp only [List.length_append] at this
  omega



/-! ## Lemmas: strings.TrimSpace -/

theorem trimLeft_drop : ∀ (fuel : Nat) (s : Bytes), ∃ k : Nat, trimLeftSpace fuel s = s.drop k
  | 0, s => ⟨0, rfl⟩
  | _ + 1, [] => ⟨0, rfl⟩
  | fuel + 1, c :: t => by
    unfold trimLeftSpace
    split_ifs
    · obtain ⟨k, hk⟩ := trimLeft_drop fuel ((c :: t).drop (decodeRuneInString (c :: t)).2)
      exact ⟨(decodeRuneInString (c :: t)).2 + k, by rw [hk, List.drop_drop]⟩
    · exact ⟨0, rfl⟩

/-- The left trim is empty or starts with a rune that is not a space. -/
theorem trimLeft_first : ∀ (fuel : Nat) (s : Bytes), s.length ≤ fuel →
    trimLeftSpace fuel s = []
      ∨ isSpaceRune (decodeRuneInString (trimLeftSpace fuel s)).1 = false
  | 0, s, h => by
    have : s = [] := List.length_eq_zero.mp (by omega)
    subst this
    exact Or.inl rfl
  | _ + 1, [], _ => Or.inl rfl
  | fuel + 1, c :: t, h => by
    unfold trimLeftSpace
    split_ifs with hsp
    · have hw := decodeRune_width c t
      refine trimLeft_first fuel _ ?_
      simp only [List.length_drop, List.length_cons] at h ⊢
      omega
    · right
      simpa using hsp

theorem trimLeft_id (fuel : Nat) (c : Byte) (t : Bytes)
    (h : isSpaceRune (decodeRuneInString (c :: t)).1 = false) :
    trimLeftSpace (fuel + 1) (c :: t) = c :: t := by
  unfold trimLeftSpace
  rw [if_neg (by rw [h]; simp)]

theorem trimLeft_ascii_space (fuel : Nat) (c : Byte) (t : Bytes) (h : isSpaceRE c = true) :
    trimLeftSpace (fuel + 1) (c :: t) = trimLeftSpace fuel t := by
  obtain ⟨h1, h2⟩ := isSpaceRE_space c h
  simp only [trimLeftSpace, decodeRune_ascii c t h1, h2, if_true, List.drop_succ_cons,
    List.drop_zero]

theorem trimLeft_spaces : ∀ (W : Bytes) (fuel : Nat) (rest : Bytes),
    W.all isSpaceRE = true →
    trimLeftSpace (W.length + fuel) (W ++ rest) = trimLeftSpace fuel rest
  | [], fuel, rest, _ => by simp
  | c :: W, fuel, rest, h => by
    simp only [List.all_cons, Bool.and_eq_true] at h
    have e : (c :: W).length + fuel = (W.length + fuel) + 1 := by
      simp only [List.length_cons]; omega
    rw [e, List.cons_append, trimLeft_ascii_space _ c _ h.1]
    exact trimLeft_spaces W fuel rest h.2

/-- When the left trim of a text followed by ASCII bytes is empty, so is the
left trim of the text. -/
theorem trimLeft_of_append : ∀ (fuel : Nat) (g W : Bytes), (∀ c ∈ W, c.val < 0x80) →
    g.length ≤ fuel → trimLeftSpace (fuel + W.length) (g ++ W) = [] →
    trimLeftSpace fuel g = []
  | 0, g, W, _, hg, _ => by
    have : g = [] := List.length_eq_zero.mp (by omega)
    subst this
    rfl
  | _ + 1, [], _, _, _, _ => rfl
  | fuel + 1, c :: g, W, hW, hg, h => by
    have e : fuel + 1 + W.length = (fuel + W.length) + 1 := by omega
    rw [e, List.cons_append] at h
    unfold trimLeftSpace at h ⊢
    by_cases hsp : isSpaceRune (decodeRuneInString (c :: (g ++ W))).1 = true
    · rw [if_pos hsp] at h
      have hwid : (decodeRuneInString (c :: (g ++ W))).2 ≤ g.length + 1 := by
        rcases decodeRune_cases c (g ++ W) with h1 | ⟨_, h1⟩ | ⟨_, h2, h3, h4⟩
        · rw [h1]; simp
        · rw [h1]; simp
        · by_contra hcon
          have hlt : g.length < (decodeRuneInString (c :: (g ++ W))).2 - 1 := by omega
          have hlen : g.length < (g ++ W).length := by
            simp only [List.length_append] at h3 ⊢; omega
          have hmem : (g ++ W).get ⟨g.length, hlen⟩
              ∈ (g ++ W).take ((decodeRuneInString (c :: (g ++ W))).2 - 1) := by
            rw [List.mem_take_iff_getElem]
            exact ⟨g.length, by omega, rfl⟩
          have hcont := h4 _ hmem
          have hinW : (g ++ W).get ⟨g.length, hlen⟩ ∈ W := by
            rw [List.get_eq_getElem, List.getElem_append_right (Nat.le_refl _)]
            exact List.getElem_mem _
          have := hW _ hinW
          omega
      have hres := decodeRune_restrict c g W hwid
      rw [hres, if_pos hsp]
      have hdrop : (c :: (g ++ W)).drop (decodeRuneInString (c :: (g ++ W))).2
          = (c :: g).drop (decodeRuneInString (c :: (g ++ W))).2 ++ W := by
        rw [← List.cons_append]
        exact List.drop_append_of_le_length (by simpa using hwid)
      rw [hdrop] at h
      have hw := decodeRune_width c (g ++ W)
      refine trimLeft_of_append fuel _ W hW ?_ h
      simp only [List.length_drop, List.length_cons] at hg ⊢
      omega
    · rw [if_neg hsp] at h
      cases h



/-- The first byte of a rune that is a space is a rune start. -/
theorem runeStart_of_space (c : Byte) (t : Bytes)
    (h : isSpaceRune (decodeRuneInString (c :: t)).1 = true) : runeStart c = true := by
  rcases decodeRune_cases c t with h1 | ⟨h1, _⟩ | ⟨h1, _⟩
  · rw [h1, isSpaceRune_ne_error] at h; cases h
  · simp only [runeStart, decide_eq_true_eq]; omega
  · simp only [runeStart, decide_eq_true_eq]; omega

/-- A byte of 0x80 or above followed by a rune start decodes with width 1. -/
theorem decodeRune_before_start (b : Byte) (rest : Bytes) (hb : 0x80 ≤ b.val)
    (hrest : ∀ (c : Byte) (r : Bytes), rest = c :: r → runeStart c = true) :
    (decodeRuneInString (b :: rest)).2 = 1 := by
  rcases decodeRune_cases b rest with h1 | ⟨h1, _⟩ | ⟨_, h2, h3, h4⟩
  · rw [h1]
  · omega
  · exfalso
    cases rest with
    | nil => simp at h3; omega
    | cons c r =>
      have hc := hrest c r rfl
      have hmem : c ∈ (c :: r).take ((decodeRuneInString (b :: c :: r)).2 - 1) := by
        have : (decodeRuneInString (b :: c :: r)).2 - 1
            = ((decodeRuneInString (b :: c :: r)).2 - 2) + 1 := by omega
        rw [this, List.take_succ_cons]
        exact List.mem_cons_self _ _
      have := h4 c hmem
      simp only [runeStart, decide_eq_true_eq] at hc
      exact hc this

/-- What the backwards loop of `TrimRightFunc` finds: a window `w[:j]` whose
last rune is not a space, with only spaces behind it. -/
theorem lastIndex_some : ∀ (fuel : Nat) (w : Bytes) (i : Nat),
    lastIndexNotSpace fuel w = some i →
    ∃ j : Nat, j ≤ w.length ∧ 1 ≤ j
      ∧ i + (decodeLastRuneInString (w.take j)).2 = j
      ∧ isSpaceRune (decodeLastRuneInString (w.take j)).1 = false
      ∧ (j = w.length ∨ isSpaceRune (decodeLastRuneInString w).1 = true)
      ∧ ∀ (c : Byte) (r : Bytes), w.drop j = c :: r → runeStart c = true
  | 0, _, _, h => by simp [lastIndexNotSpace] at h
  | fuel + 1, w, i, h => by
    unfold lastIndexNotSpace at h
    by_cases hw : w = []
    · rw [if_pos hw] at h; cases h
    · rw [if_neg hw] at h
      have hwid := decodeLast_width w hw
      by_cases hsp : isSpaceRune (decodeLastRuneInString w).1 = true
      · rw [if_pos hsp] at h
        obtain ⟨j, h1, h1b, h2, h3, _, h5⟩ := lastIndex_some fuel _ i h
        have hj : j ≤ w.length - (decodeLastRuneInString w).2 := by
          simpa [List.length_take] using h1
        have htake : (w.take (w.length - (decodeLastRuneInString w).2)).take j = w.take j := by
          rw [List.take_take, Nat.min_eq_left hj]
        rw [htake] at h2 h3
        refine ⟨j, by omega, h1b, h2, h3, Or.inr hsp, ?_⟩
        intro c r hcr
        obtain ⟨front, win, e1, e2, e3, e4⟩ := decodeLast_spec w hw
        have hfl : front.length = w.length - (decodeLastRuneInString w).2 := by
          have := congrArg List.length e1
          simp only [List.length_append] at this
          omega
        have hfront : w.take (w.length - (decodeLastRuneInString w).2) = front := by
          rw [← hfl, e1, List.take_left]
        rw [hfront] at h5
        by_cases hjl : j = front.length
        · have hd : w.drop j = win := by rw [hjl, e1, List.drop_left]
          rw [hd] at hcr
          rcases e4 with e4 | e4
          · rw [← e4, hcr] at hsp
            exact runeStart_of_space c r hsp
          · rw [e4, isSpaceRune_ne_error] at hsp; cases hsp
        · have hjlt : j < front.length := by omega
          have hd : w.drop j = front.drop j ++ win := by
            rw [e1]
            exact List.drop_append_of_le_length (by omega)
          cases hfd : front.drop j with
          | nil =>
            have := congrArg List.length hfd
            simp only [List.length_drop, List.length_nil] at this
            omega
          | cons c2 r2 =>
            rw [hd, hfd, List.cons_append] at hcr
            have := h5 c2 r2 hfd
            rw [(List.cons.inj hcr).1] at this
            exact this
      · rw [if_neg hsp] at h
        have hi : i = w.length - (decodeLastRuneInString w).2 := (Option.some.inj h).symm
        refine ⟨w.length, Nat.le_refl _, by omega, ?_, ?_, Or.inl rfl, ?_⟩
        · rw [List.take_length]; omega
        · rw [List.take_length]; simpa using hsp
        · intro c r hcr
          rw [List.drop_length] at hcr
          cases hcr

theorem lastIndex_none : ∀ (fuel : Nat) (w : Bytes), w.length ≤ fuel →
    lastIndexNotSpace fuel w = none →
    w = [] ∨ isSpaceRune (decodeRuneInString w).1 = true
  | 0, w, h, _ => Or.inl (List.length_eq_zero.mp (by omega))
  | fuel + 1, w, hlen, h => by
    unfold lastIndexNotSpace at h
    by_cases hw : w = []
    · exact Or.inl hw
    · rw [if_neg hw] at h
      right
      have hwid := decodeLast_width w hw
      by_cases hsp : isSpaceRune (decodeLastRuneInString w).1 = true
      · rw [if_pos hsp] at h
        obtain ⟨front, win, e1, e2, e3, e4⟩ := decodeLast_spec w hw
        have hfl : front.length = w.length - (decodeLastRuneInString w).2 := by
          have := congrArg List.length e1
          simp only [List.length_append] at this
          omega
        have hfront : w.take (w.length - (decodeLastRuneInString w).2) = front := by
          rw [← hfl, e1, List.take_left]
        rw [hfront] at h
        have hwin : isSpaceRune (decodeRuneInString win).1 = true := by
          rcases e4 with e4 | e4
          · rw [e4]; exact hsp
          · rw [e4, isSpaceRune_ne_error] at hsp; cases hsp
        have hfrontlen : front.length ≤ fuel := by omega
        rcases lastIndex_none fuel front hfrontlen h with hf | hf
        · rw [e1, hf, List.nil_append]; exact hwin
        · cases front with
          | nil => simp [decodeRuneInString, isSpaceRune_ne_error] at hf
          | cons c f =>
            have hne : decodeRuneInString (c :: f) ≠ (0xFFFD, 1) := by
              intro hcon
              rw [hcon, isSpaceRune_ne_error] at hf
              cases hf
            rw [e1, List.cons_append, decodeRune_append c f win hne]
            exact hf
      · rw [if_neg hsp] at h
        cases h

/-- The right trim is empty because no rune from the back is not a space, or
it is the window `t[:j]` the backwards loop stopped at, whose last rune is
not a space. -/
theorem trimRight_spec (t : Bytes) :
    (trimRightSpace t = [] ∧ lastIndexNotSpace t.length t = none)
      ∨ ∃ j : Nat, 1 ≤ j ∧ j ≤ t.length ∧ trimRightSpace t = t.take j
        ∧ isSpaceRune (decodeLastRuneInString (t.take j)).1 = false
        ∧ (j = t.length ∨ isSpaceRune (decodeLastRuneInString t).1 = true) := by
  unfold trimRightSpace
  cases hidx : lastIndexNotSpace t.length t with
  | none => exact Or.inl ⟨rfl, rfl⟩
  | some i =>
    right
    obtain ⟨j, h1, h1b, h2, h3, h4, h5⟩ := lastIndex_some _ t i hidx
    refine ⟨j, h1b, h1, ?_, h3, h4⟩
    have hWne : t.take j ≠ [] := by
      intro hcon
      have := congrArg List.length hcon
      simp only [List.length_take, List.length_nil] at this
      omega
    obtain ⟨front, win, e1, e2, e3, e4⟩ := decodeLast_spec (t.take j) hWne
    have hfl : front.length = i := by
      have := congrArg List.length e1
      simp only [List.length_append, List.length_take] at this
      omega
    have ht : t = front ++ (win ++ t.drop j) := by
      rw [← List.append_assoc, ← e1, List.take_append_drop]
    cases win with
    | nil => simp at e3
    | cons b win2 =>
      have hget : t.getD i 0 = b := by
        rw [ht, ← hfl, List.getD_append_right _ _ _ _ (Nat.le_refl _)]
        simp
      have hdrop : t.drop i = b :: (win2 ++ t.drop j) := by
        conv_lhs => rw [ht, ← hfl]
        rw [List.drop_left]
        rfl
      simp only []
      rw [hget, hdrop]
      have hsize1 : decodeLastRuneInString (t.take j) = (0xFFFD, 1) → win2 = [] := by
        intro h
        rw [h] at e2
        simp only [List.length_cons] at e2
        exact List.length_eq_zero.mp (by omega)
      split_ifs with hb
      · -- first byte 0x80 or above: the forward width is the backward width
        have hwid : (decodeRuneInString (b :: (win2 ++ t.drop j))).2
            = (decodeLastRuneInString (t.take j)).2 := by
          by_cases herr : decodeLastRuneInString (t.take j) = (0xFFFD, 1)
          · have hw2 := hsize1 herr
            subst hw2
            rw [herr, List.nil_append]
            exact decodeRune_before_start b _ hb h5
          · rcases e4 with e4 | e4
            · rw [← e4] at herr ⊢
              rw [decodeRune_append b win2 _ herr]
            · exact absurd e4 herr
        rw [hwid, h2]
      · -- an ASCII first byte: the width is 1
        have hw1 : (decodeLastRuneInString (t.take j)).2 = 1 := by
          rcases e4 with e4 | e4
          · rw [← e4, decodeRune_ascii b win2 (by omega)]
          · rw [e4]
        rw [hw1] at h2
        rw [h2]

/-- A non-empty string whose first and last runes are not spaces is left
unchanged by `TrimSpace`. -/
theorem trimSpace_fixed (s : Bytes) (hs : s ≠ [])
    (h1 : isSpaceRune (decodeRuneInString s).1 = false)
    (h2 : isSpaceRune (decodeLastRuneInString s).1 = false) : TrimSpace s = s := by
  unfold TrimSpace
  cases s with
  | nil => exact absurd rfl hs
  | cons c t =>
    have hl : trimLeftSpace (c :: t).length (c :: t) = c :: t := trimLeft_id t.length c t h1
    rw [hl]
    rcases trimRight_spec (c :: t) with ⟨_, h⟩ | ⟨j, _, _, h3, _, h5⟩
    · rcases lastIndex_none _ _ (Nat.le_refl _) h with h4 | h4
      · cases h4
      · rw [h1] at h4; cases h4
    · rcases h5 with h5 | h5
      · rw [h3, h5, List.take_length]
      · rw [h2] at h5; cases h5

/-- A non-empty result of `TrimSpace` starts and ends with a rune that is not
a space. -/
theorem trimSpace_edges (s : Bytes) (h : TrimSpace s ≠ []) :
    isSpaceRune (decodeRuneInString (TrimSpace s)).1 = false
      ∧ isSpaceRune (decodeLastRuneInString (TrimSpace s)).1 = false := by
  unfold TrimSpace at h ⊢
  rcases trimRight_spec (trimLeftSpace s.length s) with ⟨h1, _⟩ | ⟨j, h1, h2, h3, h4, _⟩
  · exact absurd h1 h
  · rw [h3]
    refine ⟨?_, h4⟩
    rcases trimLeft_first s.length s (Nat.le_refl _) with h5 | h5
    · rw [h5] at h2; simp at h2; omega
    · cases ht : trimLeftSpace s.length s with
      | nil => rw [ht] at h2; simp at h2; omega
      | cons c t =>
        rw [ht] at h5
        have hj : j = (j - 1) + 1 := by omega
        rw [hj, List.take_succ_cons]
        by_contra hcon
        rw [Bool.not_eq_false] at hcon
        have hne : decodeRuneInString (c :: t.take (j - 1)) ≠ (0xFFFD, 1) := by
          intro he
          rw [he, isSpaceRune_ne_error] at hcon
          cases hcon
        have := decodeRune_append c (t.take (j - 1)) (t.drop (j - 1)) hne
        rw [List.take_append_drop] at this
        rw [this, hcon] at h5
        cases h5

theorem trimSpace_mem (s : Bytes) (c : Byte) (h : c ∈ TrimSpace s) : c ∈ s := by
  unfold TrimSpace at h
  obtain ⟨k, hk⟩ := trimLeft_drop s.length s
  rcases trimRight_spec (trimLeftSpace s.length s) with ⟨h1, _⟩ | ⟨j, _, _, h3, _, _⟩
  · rw [h1] at h; cases h
  · rw [h3, hk] at h
    exact List.mem_of_mem_drop (List.mem_of_mem_take h)

/-- A string that `TrimSpace` empties is emptied by the left trim alone:
every rune of it is a space. -/
theorem trimSpace_blank (s : Bytes) (h : TrimSpace s = []) :
    trimLeftSpace s.length s = [] := by
  unfold TrimSpace at h
  rcases trimRight_spec (trimLeftSpace s.length s) with ⟨_, h2⟩ | ⟨j, h1, h2, h3, _, _⟩
  · obtain ⟨k, hk⟩ := trimLeft_drop s.length s
    have hlen : (trimLeftSpace s.length s).length ≤ (trimLeftSpace s.length s).length :=
      Nat.le_refl _
    rcases lastIndex_none _ _ hlen h2 with h4 | h4
    · exact h4
    · rcases trimLeft_first s.length s (Nat.le_refl _) with h5 | h5
      · exact h5
      · rw [h4] at h5; cases h5
  · rw [h] at h3
    have := congrArg List.length h3
    simp only [List.length_nil, List.length_take] at this
    exact List.length_eq_zero.mp (by omega)

theorem trimSpace_of_left_blank (s : Bytes) (h : trimLeftSpace s.length s = []) :
    TrimSpace s = [] := by
  unfold TrimSpace
  rw [h]
  rfl

theorem not_spaceRE_of_first (c : Byte) (t : Bytes)
    (h : isSpaceRune (decodeRuneInString (c :: t)).1 = false) : isSpaceRE c = false := by
  by_contra hcon
  rw [Bool.not_eq_false] at hcon
  obtain ⟨h1, h2⟩ := isSpaceRE_space c hcon
  rw [decodeRune_ascii c t h1, h2] at h
  cases h

theorem not_spaceRE_of_last (front : Bytes) (c : Byte)
    (h : isSpaceRune (decodeLastRuneInString (front ++ [c])).1 = false) :
    isSpaceRE c = false := by
  by_contra hcon
  rw [Bool.not_eq_false] at hcon
  obtain ⟨h1, h2⟩ := isSpaceRE_space c hcon
  rw [decodeLast_ascii front c h1, h2] at h
  cases h

/-- The message `SendEncryptedData` builds has no space at either end. -/
theorem trimSpace_message (data mode : Bytes) :
    TrimSpace (encryptedDataMessage data mode) = encryptedDataMessage data mode := by
  have hlast : ∃ front : Bytes, encryptedDataMessage data mode = front ++ [0x60] := by
    refine ⟨(if mode = decryptWord then unlockMarker else lockMarker)
      ++ ([0x20] ++ (text2BabeLabel ++ ([0x20] ++ (mode ++ (boldMark ++ (fence ++ ([0x0A]
      ++ (data ++ [0x0A, 0x60, 0x60])))))))), ?_⟩
    simp [encryptedDataMessage, fence]
  have hfirst : ∃ t : Bytes, encryptedDataMessage data mode = 0xC3 :: 0xB0 :: t := by
    unfold encryptedDataMessage
    split_ifs
    · exact ⟨_, rfl⟩
    · exact ⟨_, rfl⟩
  obtain ⟨front, hf⟩ := hlast
  obtain ⟨t, ht⟩ := hfirst
  apply trimSpace_fixed
  · rw [ht]; simp
  · rw [ht]
    have h0 : decodeRuneInString [0xC3, 0xB0] = (0xF0, 2) := by decide
    have : decodeRuneInString (0xC3 :: ([0xB0] ++ t)) = decodeRuneInString [0xC3, 0xB0] :=
      decodeRune_append 0xC3 [0xB0] t (by rw [h0]; decide)
    rw [h0] at this
    rw [List.singleton_append] at this
    rw [this]; decide
  · rw [hf, decodeLast_ascii front 0x60 (by decide)]
    decide



/-! ## Lemmas: the pattern -/

theorem reLit_append {α : Type} : ∀ (l rest : Bytes) (k : Bytes → Option α),
    reLit l (l ++ rest) k = k rest
  | [], _, _ => rfl
  | c :: l, rest, k => by
    simp only [List.cons_append, reLit, if_true]
    exact reLit_append l rest k

theorem reLit_some {α : Type} : ∀ (l s : Bytes) (k : Bytes → Option α) (r : α),
    reLit l s k = some r → ∃ rest : Bytes, s = l ++ rest ∧ k rest = some r
  | [], s, k, r, h => ⟨s, rfl, h⟩
  | _ :: _, [], _, _, h => by simp [reLit] at h
  | c :: l, d :: s, k, r, h => by
    simp only [reLit] at h
    split_ifs at h with hcd
    obtain ⟨rest, h1, h2⟩ := reLit_some l s k r h
    exact ⟨rest, by rw [hcd, h1]; rfl, h2⟩

theorem reClass_some {α : Type} (p : Byte → Bool) (s : Bytes) (k : Bytes → Option α) (r : α)
    (h : reClass p s k = some r) :
    ∃ (c : Byte) (rest : Bytes), s = c :: rest ∧ p c = true ∧ k rest = some r := by
  cases s with
  | nil => simp [reClass] at h
  | cons c rest =>
    simp only [reClass] at h
    split_ifs at h with hp
    exact ⟨c, rest, rfl, hp, h⟩

theorem reStarGreedy_some {α : Type} (p : Byte → Bool) :
    ∀ (s : Bytes) (k : Bytes → Option α) (r : α), reStarGreedy p s k = some r →
      ∃ W rest : Bytes, s = W ++ rest ∧ W.all p = true ∧ k rest = some r
  | [], k, r, h => ⟨[], [], rfl, rfl, h⟩
  | c :: s, k, r, h => by
    simp only [reStarGreedy] at h
    split_ifs at h with hp
    · cases hr : reStarGreedy p s k with
      | none =>
        rw [hr] at h
        exact ⟨[], c :: s, rfl, rfl, h⟩
      | some r2 =>
        rw [hr] at h
        obtain ⟨W, rest, h1, h2, h3⟩ := reStarGreedy_some p s k r2 hr
        refine ⟨c :: W, rest, by rw [h1]; rfl, by simp [hp, h2], ?_⟩
        rw [h3]
        exact h
    · exact ⟨[], c :: s, rfl, rfl, h⟩

/-- A greedy star that can take the whole run, with a continuation that
succeeds right after it, gives that result. -/
theorem reStarGreedy_run {α : Type} (p : Byte → Bool) (rest : Bytes) (k : Bytes → Option α)
    (r : α) (hrest : ∀ (c : Byte) (t : Bytes), rest = c :: t → p c = false)
    (hk : k rest = some r) :
    ∀ W : Bytes, W.all p = true → reStarGreedy p (W ++ rest) k = some r
  | [], _ => by
    cases rest with
    | nil => exact hk
    | cons c t =>
      have := hrest c t rfl
      simp only [List.nil_append, reStarGreedy, this, Bool.false_eq_true, if_false]
      exact hk
  | c :: W, h => by
    simp only [List.all_cons, Bool.and_eq_true] at h
    have ih := reStarGreedy_run p rest k r hrest hk W h.2
    rw [List.cons_append]
    unfold reStarGreedy
    rw [if_pos h.1, ih]

/-- The width of a rune decoded in front of a rune start stays within the
text before that rune start. -/
theorem decodeRune_within (c : Byte) (g W : Bytes)
    (hW : ∀ (d : Byte) (r : Bytes), W = d :: r → runeStart d = true) :
    (decodeRuneInString (c :: (g ++ W))).2 ≤ g.length + 1 := by
  cases W with
  | nil =>
    rw [List.append_nil]
    exact (decodeRune_width c g).2
  | cons d r =>
    rcases decodeRune_cases c (g ++ d :: r) with h1 | ⟨_, h1⟩ | ⟨_, h2, h3, h4⟩
    · rw [h1]; simp
    · rw [h1]; simp
    · by_contra hcon
      have hd := hW d r rfl
      have hmem : d ∈ (g ++ d :: r).take ((decodeRuneInString (c :: (g ++ d :: r))).2 - 1) := by
        have e : (decodeRuneInString (c :: (g ++ d :: r))).2 - 1
            = g.length + (((decodeRuneInString (c :: (g ++ d :: r))).2 - 2 - g.length) + 1) := by
          omega
        rw [e, List.take_append, List.take_succ_cons]
        exact List.mem_append_right _ (List.mem_cons_self _ _)
      have := h4 d hmem
      simp only [runeStart, decide_eq_true_eq] at hd
      exact hd this

theorem decodeRune_newline (c : Byte) (t : Bytes)
    (h : (decodeRuneInString (c :: t)).1 = 0x0A) : c.val = 0x0A := by
  by_cases ha : c.val < 0x80
  · rw [decodeRune_ascii c t ha] at h
    exact h
  · have := decodeRune_ge c t ha
    omega

theorem decodeRune_take_no_newline (c : Byte) (t : Bytes)
    (h : ¬ (decodeRuneInString (c :: t)).1 = 0x0A) :
    ∀ d ∈ (c :: t).take (decodeRuneInString (c :: t)).2, d.val ≠ 0x0A := by
  intro d hd
  rcases decodeRune_cases c t with h1 | ⟨h0, h1⟩ | ⟨h0, h2, h3, h4⟩
  · rw [h1] at hd
    simp only [List.take_succ_cons, List.take_zero, List.mem_singleton] at hd
    subst hd
    intro hcon
    rw [decodeRune_ascii d t (by omega)] at h1
    have := congrArg Prod.fst h1
    simp only [] at this
    omega
  · rw [h1] at hd h
    simp only [List.take_succ_cons, List.take_zero, List.mem_singleton] at hd
    subst hd
    exact h
  · have e : (decodeRuneInString (c :: t)).2 = ((decodeRuneInString (c :: t)).2 - 1) + 1 := by
      omega
    rw [e, List.take_succ_cons, List.mem_cons] at hd
    rcases hd with rfl | hd
    · omega
    · have := h4 d hd
      omega

theorem reLazyDot_some {α : Type} : ∀ (fuel : Nat) (acc s : Bytes)
    (k : Bytes → Bytes → Option α) (r : α), reLazyDot fuel acc s k = some r →
    ∃ x rest : Bytes, s = x ++ rest ∧ (∀ c ∈ x, c.val ≠ 0x0A) ∧ k (acc ++ x) rest = some r
  | 0, acc, s, k, r, h => ⟨[], s, rfl, by simp, by simpa [reLazyDot] using h⟩
  | fuel + 1, acc, s, k, r, h => by
    rw [reLazyDot] at h
    cases hk : k acc s with
    | some r2 =>
      rw [hk] at h
      exact ⟨[], s, rfl, by simp, by rw [List.append_nil, hk]; exact h⟩
    | none =>
      rw [hk] at h
      simp only [reAlt] at h
      cases s with
      | nil => simp at h
      | cons c t =>
        rw [if_neg (by simp)] at h
        split_ifs at h with hnl
        obtain ⟨x, rest, h1, h2, h3⟩ := reLazyDot_some fuel _ _ k r h
        refine ⟨(c :: t).take (decodeRuneInString (c :: t)).2 ++ x, rest, ?_, ?_, ?_⟩
        · rw [List.append_assoc, ← h1, List.take_append_drop]
        · intro d hd
          rcases List.mem_append.mp hd with hd | hd
          · exact decodeRune_take_no_newline c t hnl d hd
          · exact h2 d hd
        · rw [← List.append_assoc]
          exact h3

/-- The lazy group takes exactly `p` when `p` has no newline, a rune start
follows it, the continuation fails inside `p` and succeeds after it. -/
theorem reLazyDot_capture {α : Type} (tail : Bytes) (k : Bytes → Bytes → Option α) (r : α)
    (htail : ∀ (d : Byte) (t : Bytes), tail = d :: t → runeStart d = true) :
    ∀ (fuel : Nat) (p acc : Bytes), p.length ≤ fuel → (∀ c ∈ p, c.val ≠ 0x0A) →
      (∀ x y : Bytes, p = x ++ y → y ≠ [] → k (acc ++ x) (y ++ tail) = none) →
      k (acc ++ p) tail = some r → reLazyDot fuel acc (p ++ tail) k = some r
  | 0, p, acc, hp, _, _, hk => by
    have : p = [] := List.length_eq_zero.mp (by omega)
    subst this
    simpa [reLazyDot] using hk
  | fuel + 1, [], acc, _, _, _, hk => by
    rw [List.append_nil] at hk
    rw [reLazyDot, List.nil_append, hk]
    rfl
  | fuel + 1, c :: p, acc, hp, hnl, hfail, hk => by
    have h0 := hfail [] (c :: p) rfl (by simp)
    rw [List.append_nil] at h0
    rw [reLazyDot, h0, List.cons_append]
    simp only [reAlt]
    rw [if_neg (by simp)]
    have hc : ¬ (decodeRuneInString (c :: (p ++ tail))).1 = 0x0A := by
      intro hcon
      exact hnl c (List.mem_cons_self _ _) (decodeRune_newline c _ hcon)
    rw [if_neg hc]
    have hw := decodeRune_within c p tail htail
    have hw1 := decodeRune_width c (p ++ tail)
    have htake : (c :: (p ++ tail)).take (decodeRuneInString (c :: (p ++ tail))).2
        = (c :: p).take (decodeRuneInString (c :: (p ++ tail))).2 := by
      rw [← List.cons_append]
      exact List.take_append_of_le_length (by simpa using hw)
    have hdrop : (c :: (p ++ tail)).drop (decodeRuneInString (c :: (p ++ tail))).2
        = (c :: p).drop (decodeRuneInString (c :: (p ++ tail))).2 ++ tail := by
      rw [← List.cons_append]
      exact List.drop_append_of_le_length (by simpa using hw)
    rw [htake, hdrop]
    have hsplit : (c :: p).take (decodeRuneInString (c :: (p ++ tail))).2
        ++ (c :: p).drop (decodeRuneInString (c :: (p ++ tail))).2 = c :: p :=
      List.take_append_drop _ _
    refine reLazyDot_capture tail k r htail fuel _ _ ?_ ?_ ?_ ?_
    · simp only [List.length_drop, List.length_cons] at hp ⊢
      omega
    · intro d hd
      exact hnl d (List.mem_of_mem_drop hd)
    · intro x y hxy hy
      rw [List.append_assoc]
      refine hfail _ y ?_ hy
      rw [List.append_assoc, ← hxy, hsplit]
    · rw [List.append_assoc, hsplit]
      exact hk

/-! ## Lemmas: the pattern -/

theorem reAlt_some {α : Type} (a b : Option α) (r : α) (h : reAlt a b = some r) :
    a = some r ∨ b = some r := by
  cases a with
  | none => exact Or.inr h
  | some x => exact Or.inl h

theorem patternClose_some (g1 g2 g3 s : Bytes) (r : Bytes × Bytes × Bytes)
    (h : patternClose g1 g2 g3 s = some r) :
    r = (g1, g2, g3) ∧ ∃ W : Bytes, W.all isSpaceRE = true ∧ s = W ++ fence := by
  unfold patternClose at h
  obtain ⟨W, rest, h1, h2, h3⟩ := reStarGreedy_some _ _ _ _ h
  obtain ⟨rest2, h4, h5⟩ := reLit_some _ _ _ _ h3
  split_ifs at h5 with he
  subst he
  rw [List.append_nil] at h4
  subst h4
  exact ⟨(Option.some.inj h5).symm, W, h2, h1⟩

theorem patternBody_some (g1 g2 s : Bytes) (r : Bytes × Bytes × Bytes)
    (h : patternBody g1 g2 s = some r) :
    ∃ g3 W1 W2 W3 : Bytes, r = (g1, g2, g3) ∧ W1.all isSpaceRE = true
      ∧ W2.all isSpaceRE = true ∧ W3.all isSpaceRE = true ∧ (∀ c ∈ g3, c.val ≠ 0x0A)
      ∧ s = boldMark ++ (W1 ++ (fence ++ (W2 ++ (g3 ++ (W3 ++ fence))))) := by
  unfold patternBody at h
  obtain ⟨s6, e6, h6⟩ := reLit_some _ _ _ _ h
  obtain ⟨W1, s7, e7, hW1, h7⟩ := reStarGreedy_some _ _ _ _ h6
  obtain ⟨s8, e8, h8⟩ := reLit_some _ _ _ _ h7
  obtain ⟨W2, s9, e9, hW2, h9⟩ := reStarGreedy_some _ _ _ _ h8
  obtain ⟨g3, s10, e10, hg3, h10⟩ := reLazyDot_some _ _ _ _ _ h9
  rw [List.nil_append] at h10
  obtain ⟨hr, W3, hW3, e11⟩ := patternClose_some _ _ _ _ _ h10
  refine ⟨g3, W1, W2, W3, hr, hW1, hW2, hW3, hg3, ?_⟩
  rw [e6, e7, e8, e9, e10, e11]

theorem patternHead_some (g1 s : Bytes) (r : Bytes × Bytes × Bytes)
    (h : patternHead g1 s = some r) :
    ∃ (c1 c2 : Byte) (g2 g3 W1 W2 W3 : Bytes), r = (g1, g2, g3)
      ∧ isSpaceRE c1 = true ∧ isSpaceRE c2 = true
      ∧ (g2 = encryptWord ∨ g2 = decryptWord) ∧ W1.all isSpaceRE = true
      ∧ W2.all isSpaceRE = true ∧ W3.all isSpaceRE = true ∧ (∀ c ∈ g3, c.val ≠ 0x0A)
      ∧ s = c1 :: (text2BabeLabel ++ (c2 :: (g2 ++ (boldMark ++ (W1 ++ (fence ++ (W2
          ++ (g3 ++ (W3 ++ fence))))))))) := by
  unfold patternHead at h
  obtain ⟨c1, s2, e2, hc1, h2⟩ := reClass_some _ _ _ _ h
  obtain ⟨s3, e3, h3⟩ := reLit_some _ _ _ _ h2
  obtain ⟨c2, s4, e4, hc2, h4⟩ := reClass_some _ _ _ _ h3
  rcases reAlt_some _ _ _ h4 with h5 | h5
  · obtain ⟨s5, e5, h6⟩ := reLit_some _ _ _ _ h5
    obtain ⟨g3, W1, W2, W3, hr, hW1, hW2, hW3, hg3, e6⟩ := patternBody_some _ _ _ _ h6
    refine ⟨c1, c2, encryptWord, g3, W1, W2, W3, hr, hc1, hc2, Or.inl rfl, hW1, hW2, hW3,
      hg3, ?_⟩
    rw [e2, e3, e4, e5, e6]
  · obtain ⟨s5, e5, h6⟩ := reLit_some _ _ _ _ h5
    obtain ⟨g3, W1, W2, W3, hr, hW1, hW2, hW3, hg3, e6⟩ := patternBody_some _ _ _ _ h6
    refine ⟨c1, c2, decryptWord, g3, W1, W2, W3, hr, hc1, hc2, Or.inr rfl, hW1, hW2, hW3,
      hg3, ?_⟩
    rw [e2, e3, e4, e5, e6]

/-- Soundness of the match: a text the pattern matches has the shape of the
pattern, and the groups are the marker, the mode word and a payload with no
newline. -/
theorem find_some (s g1 g2 g3 : Bytes) (h : FindStringSubmatch s = some (g1, g2, g3)) :
    (g1 = lockMarker ∨ g1 = unlockMarker) ∧ (g2 = encryptWord ∨ g2 = decryptWord)
      ∧ (∀ c ∈ g3, c.val ≠ 0x0A)
      ∧ ∃ (c1 c2 : Byte) (W1 W2 W3 : Bytes), isSpaceRE c1 = true ∧ isSpaceRE c2 = true
        ∧ W1.all isSpaceRE = true ∧ W2.all isSpaceRE = true ∧ W3.all isSpaceRE = true
        ∧ s = g1 ++ (c1 :: (text2BabeLabel ++ (c2 :: (g2 ++ (boldMark ++ (W1 ++ (fence
            ++ (W2 ++ (g3 ++ (W3 ++ fence)))))))))) := by
  unfold FindStringSubmatch at h
  rcases reAlt_some _ _ _ h with h1 | h1
  · obtain ⟨s1, e1, h2⟩ := reLit_some _ _ _ _ h1
    obtain ⟨c1, c2, g2', g3', W1, W2, W3, hr, hc1, hc2, hg2, hW1, hW2, hW3, hg3, e2⟩ :=
      patternHead_some _ _ _ h2
    simp only [Prod.mk.injEq] at hr
    obtain ⟨r1, r2, r3⟩ := hr
    subst r1 r2 r3
    refine ⟨Or.inl rfl, hg2, hg3, c1, c2, W1, W2, W3, hc1, hc2, hW1, hW2, hW3, ?_⟩
    rw [e1, e2]
  · obtain ⟨s1, e1, h2⟩ := reLit_some _ _ _ _ h1
    obtain ⟨c1, c2, g2', g3', W1, W2, W3, hr, hc1, hc2, hg2, hW1, hW2, hW3, hg3, e2⟩ :=
      patternHead_some _ _ _ h2
    simp only [Prod.mk.injEq] at hr
    obtain ⟨r1, r2, r3⟩ := hr
    subst r1 r2 r3
    refine ⟨Or.inr rfl, hg2, hg3, c1, c2, W1, W2, W3, hc1, hc2, hW1, hW2, hW3, ?_⟩
    rw [e1, e2]

/-! ## Lemmas: the scanner -/

theorem Scan.run_cons (q : Scan) (c : Byte) (t : Bytes) :
    Scan.run q (c :: t) = Scan.run (q.step c) t := rfl

theorem Scan.run_append : ∀ (a b : Bytes) (q : Scan),
    Scan.run q (a ++ b) = Scan.run (Scan.run q a) b
  | [], _, _ => rfl
  | c :: a, b, q => by
    rw [List.cons_append, Scan.run_cons, Scan.run_cons]
    exact Scan.run_append a b (q.step c)

theorem Scan.run_dead : ∀ x : Bytes, Scan.run .dead x = .dead
  | [] => rfl
  | c :: x => by
    rw [Scan.run_cons]
    exact Scan.run_dead x

theorem Scan.step_ne_star1 (q : Scan) (c : Byte) : q.step c ≠ .star1 := by
  cases q <;> simp only [Scan.step] <;> (try split_ifs) <;> simp

theorem Scan.reject_head : ∀ q : Scan, q ≠ .star1 →
    Scan.run q [0x2A, 0x2A, 0x0A, 0x60, 0x60, 0x60, 0x0A] = .dead := by
  intro q hq
  cases q <;> first | exact absurd rfl hq | decide

/-- The scanner rejects the tail of a built message after any text that is
put in front of its "**". -/
theorem Scan.reject (data : Bytes) : ∀ (x : Bytes) (q : Scan), q ≠ .star1 →
    Scan.run q (x ++ (boldMark ++ (fence ++ (0x0A :: data)))) = .dead
  | [], q, hq => by
    have e : ([] : Bytes) ++ (boldMark ++ (fence ++ (0x0A :: data)))
        = [0x2A, 0x2A, 0x0A, 0x60, 0x60, 0x60, 0x0A] ++ data := rfl
    rw [e, Scan.run_append, Scan.reject_head q hq, Scan.run_dead]
  | c :: x, q, _ => by
    rw [List.cons_append, Scan.run_cons]
    exact Scan.reject data x (q.step c) (Scan.step_ne_star1 q c)

theorem Scan.gap_ws : ∀ (W : Bytes) (q : Scan), W.all isSpaceRE = true →
    (q = .gap ∨ q = .line) → (Scan.run q W = .gap ∨ Scan.run q W = .line)
  | [], _, _, hq => hq
  | c :: W, q, h, hq => by
    simp only [List.all_cons, Bool.and_eq_true] at h
    rw [Scan.run_cons]
    apply Scan.gap_ws W _ h.2
    rcases hq with hq | hq <;> subst hq <;> unfold Scan.step <;> dsimp only
    · by_cases hc : c.val = 0x0A
      · rw [if_pos hc]; exact Or.inr rfl
      · rw [if_neg hc, if_pos h.1]; exact Or.inl rfl
    · by_cases hc : c.val = 0x0A
      · rw [if_pos hc]; exact Or.inr rfl
      · rw [if_neg hc, if_pos h.1]; exact Or.inl rfl

theorem Scan.fence_of_gap (q : Scan) (hq : q = .gap ∨ q = .line) :
    Scan.run q fence = .lead := by
  rcases hq with hq | hq <;> subst hq <;> decide

theorem Scan.lead_ws : ∀ W : Bytes, W.all isSpaceRE = true → Scan.run .lead W = .lead
  | [], _ => rfl
  | c :: W, h => by
    simp only [List.all_cons, Bool.and_eq_true] at h
    rw [Scan.run_cons]
    have e : Scan.step .lead c = .lead := by
      unfold Scan.step
      dsimp only
      rw [if_pos h.1]
    rw [e]
    exact Scan.lead_ws W h.2

theorem Scan.body_run : ∀ (g : Bytes) (q : Scan), (∀ c ∈ g, c.val ≠ 0x0A) →
    (q = .lead ∨ q = .body) → (Scan.run q g = .lead ∨ Scan.run q g = .body)
  | [], _, _, hq => hq
  | c :: g, q, h, hq => by
    have hc : ¬ c.val = 0x0A := h c (List.mem_cons_self _ _)
    rw [Scan.run_cons]
    apply Scan.body_run g _ (fun d hd => h d (List.mem_cons_of_mem _ hd))
    rcases hq with hq | hq <;> subst hq <;> unfold Scan.step <;> dsimp only
    · by_cases hs : isSpaceRE c = true
      · rw [if_pos hs]; exact Or.inl rfl
      · rw [if_neg hs]; exact Or.inr rfl
    · rw [if_neg hc]; exact Or.inr rfl

theorem Scan.trail_ws : ∀ (W : Bytes) (q : Scan), W.all isSpaceRE = true →
    (q = .lead ∨ q = .body ∨ q = .trail) → Scan.run q W ≠ .dead
  | [], q, _, hq => by
    rcases hq with hq | hq | hq <;> subst hq <;> simp [Scan.run]
  | c :: W, q, h, hq => by
    simp only [List.all_cons, Bool.and_eq_true] at h
    rw [Scan.run_cons]
    apply Scan.trail_ws W _ h.2
    rcases hq with hq | hq | hq <;> subst hq <;> unfold Scan.step <;> dsimp only
    · rw [if_pos h.1]; exact Or.inl rfl
    · by_cases hc : c.val = 0x0A
      · rw [if_pos hc]; exact Or.inr (Or.inr rfl)
      · rw [if_neg hc]; exact Or.inr (Or.inl rfl)
    · rw [if_pos h.1]; exact Or.inr (Or.inr rfl)

/-- The scanner accepts what the pattern matches after the mode word. -/
theorem Scan.accept (W1 W2 g3 W3 : Bytes) (h1 : W1.all isSpaceRE = true)
    (h2 : W2.all isSpaceRE = true) (h3 : W3.all isSpaceRE = true)
    (hg : ∀ c ∈ g3, c.val ≠ 0x0A) :
    Scan.run .star1 (boldMark ++ (W1 ++ (fence ++ (W2 ++ (g3 ++ W3))))) ≠ .dead := by
  rw [Scan.run_append, Scan.run_append, Scan.run_append, Scan.run_append, Scan.run_append]
  have e0 : Scan.run .star1 boldMark = .gap := by decide
  rw [e0, Scan.fence_of_gap _ (Scan.gap_ws W1 .gap h1 (Or.inl rfl)), Scan.lead_ws W2 h2]
  apply Scan.trail_ws W3 _ h3
  rcases Scan.body_run g3 .lead hg (Or.inl rfl) with h | h
  · exact Or.inl h
  · exact Or.inr (Or.inl h)

/-- The mode word of a built message that the pattern matches is the matched
word, and the block of the message is what the pattern finds between the
fences. -/
theorem mode_of_match (mode data g2 W1 W2 g3 W3 : Bytes)
    (hg2 : g2 = encryptWord ∨ g2 = decryptWord) (h1 : W1.all isSpaceRE = true)
    (h2 : W2.all isSpaceRE = true) (h3 : W3.all isSpaceRE = true)
    (hg : ∀ c ∈ g3, c.val ≠ 0x0A)
    (h : mode ++ (boldMark ++ (fence ++ ([0x0A] ++ (data ++ fence))))
      = g2 ++ (boldMark ++ (W1 ++ (fence ++ (W2 ++ (g3 ++ (W3 ++ fence))))))) :
    mode = g2 ∧ 0x0A :: data = W2 ++ (g3 ++ W3) := by
  have h' : (mode ++ (boldMark ++ (fence ++ (0x0A :: data)))) ++ fence
      = (g2 ++ (boldMark ++ (W1 ++ (fence ++ (W2 ++ (g3 ++ W3)))))) ++ fence := by
    simpa only [List.append_assoc, List.singleton_append, List.cons_append,
      List.nil_append] using h
  have hc := List.append_cancel_right h'
  have hstar : ∀ c ∈ g2, c.val ≠ 0x2A := by
    rcases hg2 with e | e <;> subst e <;> simp [encryptWord, decryptWord] <;> decide
  have hmode : mode = g2 := by
    rcases List.append_eq_append_iff.mp hc with ⟨a, ha, hb⟩ | ⟨a, ha, hb⟩
    · cases a with
      | nil => rw [ha, List.append_nil]
      | cons d a =>
        exfalso
        have hd : d.val = 0x2A := by
          have := congrArg List.head? hb
          simp only [boldMark, List.cons_append, List.head?_cons, Option.some.injEq] at this
          rw [← this]
          rfl
        exact hstar d (by rw [ha]; simp) hd
    · cases a with
      | nil => rw [ha, List.append_nil]
      | cons d a =>
        exfalso
        have hacc := Scan.accept W1 W2 g3 W3 h1 h2 h3 hg
        rw [hb, List.cons_append, Scan.run_cons] at hacc
        exact hacc (Scan.reject data a _ (Scan.step_ne_star1 _ d))
  refine ⟨hmode, ?_⟩
  rw [hmode] at hc
  have hc2 := List.append_cancel_left (List.append_cancel_left hc)
  cases W1 with
  | nil =>
    rw [List.nil_append] at hc2
    exact List.append_cancel_left hc2
  | cons w W =>
    exfalso
    simp only [List.all_cons, Bool.and_eq_true] at h1
    cases W with
    | nil =>
      simp [fence] at hc2
    | cons w2 W =>
      simp only [fence, List.cons_append, List.cons.injEq] at hc2
      have hw2 := h1.2
      simp only [List.all_cons, Bool.and_eq_true] at hw2
      have := hw2.1
      rw [← hc2.2.1] at this
      revert this
      decide

/-! ## Lemmas: the pattern on a built message -/

theorem reStarGreedy_one {α : Type} (p : Byte → Bool) (c d : Byte) (rest : Bytes)
    (k : Bytes → Option α) (hc : p c = true) (hd : p d = false) (hk : k (d :: rest) = none) :
    reStarGreedy p (c :: d :: rest) k = k (c :: d :: rest) := by
  have e : reStarGreedy p (d :: rest) k = none := by
    unfold reStarGreedy
    rw [if_neg (by rw [hd]; simp)]
    exact hk
  unfold reStarGreedy
  rw [if_pos hc, e]

theorem patternClose_fence (g1 g2 g3 : Bytes) :
    patternClose g1 g2 g3 fence = some (g1, g2, g3) := by
  simp [patternClose, fence, reStarGreedy, reLit, isSpaceRE]

theorem patternClose_none (g1 g2 g3 front : Bytes) (d : Byte) (hd : isSpaceRE d = false) :
    patternClose g1 g2 g3 ((front ++ [d]) ++ fence) = none := by
  cases hr : patternClose g1 g2 g3 ((front ++ [d]) ++ fence) with
  | none => rfl
  | some r =>
    exfalso
    obtain ⟨_, W, hW, e⟩ := patternClose_some _ _ _ _ _ hr
    have e2 := List.append_cancel_right e
    have hmem : d ∈ W := by rw [← e2]; simp
    have := List.all_eq_true.mp hW d hmem
    rw [hd] at this
    exact Bool.false_ne_true this

/-- A payload with no newline that neither starts nor ends with a space is
what the pattern captures between the fences. -/
theorem patternBody_message (g1 g2 p : Bytes) (hp : p ≠ [])
    (hnl : ∀ c ∈ p, c.val ≠ 0x0A) (h1 : hasLeadingSpace p = false)
    (h2 : hasTrailingSpace p = false) :
    patternBody g1 g2 (boldMark ++ (fence ++ ([0x0A] ++ (p ++ fence)))) = some (g1, g2, p) := by
  obtain ⟨c, t, rfl⟩ := List.exists_cons_of_ne_nil hp
  have hc : isSpaceRE c = false := not_spaceRE_of_first c t h1
  have hlazy : reLazyDot ((c :: t) ++ fence).length [] ((c :: t) ++ fence)
      (fun g3 s10 => patternClose g1 g2 g3 s10) = some (g1, g2, c :: t) := by
    apply reLazyDot_capture fence _ _ _ _ (c :: t) [] (by simp) hnl
    · intro x y hxy hy
      rcases List.eq_nil_or_concat y with hy0 | ⟨front, d, hy1⟩
      · exact absurd hy0 hy
      · rw [List.concat_eq_append] at hy1
        subst hy1
        have hd : isSpaceRE d = false := by
          apply not_spaceRE_of_last (x ++ front) d
          have : (x ++ front) ++ [d] = c :: t := by rw [hxy, List.append_assoc]
          rw [this]
          exact h2
        exact patternClose_none g1 g2 _ front d hd
    · exact patternClose_fence g1 g2 _
    · intro d r hdr
      have : d = 0x0A := by
        have := congrArg List.head? hdr
        simp only [fence, List.head?_cons, Option.some.injEq] at this
        exact this.symm
      subst this
      decide
  have hstar : reStarGreedy isSpaceRE ([0x0A] ++ ((c :: t) ++ fence))
      (fun s9 => reLazyDot s9.length [] s9 fun g3 s10 => patternClose g1 g2 g3 s10)
      = some (g1, g2, c :: t) := by
    apply reStarGreedy_run isSpaceRE ((c :: t) ++ fence) _ _ _ hlazy [0x0A] (by decide)
    intro d r hdr
    rw [List.cons_append] at hdr
    have := (List.cons.inj hdr).1
    rw [← this]
    exact hc
  unfold patternBody
  rw [reLit_append]
  have e : reStarGreedy isSpaceRE (fence ++ ([0x0A] ++ ((c :: t) ++ fence)))
      (fun s7 => reLit fence s7 fun s8 =>
        reStarGreedy isSpaceRE s8 fun s9 =>
          reLazyDot s9.length [] s9 fun g3 s10 => patternClose g1 g2 g3 s10)
      = reLit fence (fence ++ ([0x0A] ++ ((c :: t) ++ fence))) (fun s8 =>
        reStarGreedy isSpaceRE s8 fun s9 =>
          reLazyDot s9.length [] s9 fun g3 s10 => patternClose g1 g2 g3 s10) := by
    have e0 : fence ++ ([0x0A] ++ ((c :: t) ++ fence))
        = 0x0A :: 0x60 :: ([0x60, 0x60] ++ ([0x0A] ++ ((c :: t) ++ fence))) := rfl
    rw [e0]
    apply reStarGreedy_one isSpaceRE 0x0A 0x60 _ _ (by decide) (by decide)
    have e1 : fence = 0x0A :: [0x60, 0x60, 0x60] := rfl
    rw [e1]
    unfold reLit
    rw [if_neg (by decide)]
  rw [e, reLit_append]
  exact hstar

theorem patternHead_message (g1 mode p : Bytes) (hmode : mode = encryptWord ∨ mode = decryptWord)
    (hp : p ≠ []) (hnl : ∀ c ∈ p, c.val ≠ 0x0A) (h1 : hasLeadingSpace p = false)
    (h2 : hasTrailingSpace p = false) :
    patternHead g1 ([0x20] ++ (text2BabeLabel ++ ([0x20] ++ (mode ++ (boldMark ++ (fence
      ++ ([0x0A] ++ (p ++ fence)))))))) = some (g1, mode, p) := by
  have hb := fun g2 => patternBody_message g1 g2 p hp hnl h1 h2
  unfold patternHead
  rw [List.singleton_append]
  simp only [reClass]
  rw [if_pos (by decide), reLit_append, List.singleton_append]
  simp only [reClass]
  rw [if_pos (by decide)]
  rcases hmode with e | e
  · subst e
    rw [reLit_append, hb]
    rfl
  · subst e
    have hnone : reLit encryptWord (decryptWord ++ (boldMark ++ (fence ++ ([0x0A]
        ++ (p ++ fence))))) (patternBody g1 encryptWord) = none := by
      simp [reLit, encryptWord, decryptWord]
    rw [hnone, reLit_append, hb]
    rfl

/-- The pattern matches the message built for a payload with no newline that
neither starts nor ends with a space, and captures the payload. -/
theorem find_message (mode p : Bytes) (hmode : mode = encryptWord ∨ mode = decryptWord)
    (hp : p ≠ []) (hnl : ∀ c ∈ p, c.val ≠ 0x0A) (h1 : hasLeadingSpace p = false)
    (h2 : hasTrailingSpace p = false) :
    FindStringSubmatch (encryptedDataMessage p mode)
      = some (if mode = decryptWord then unlockMarker else lockMarker, mode, p) := by
  have hh := fun g1 => patternHead_message g1 mode p hmode hp hnl h1 h2
  unfold FindStringSubmatch encryptedDataMessage
  by_cases hm : mode = decryptWord
  · rw [if_pos hm]
    have hnone : reLit lockMarker (unlockMarker ++ ([0x20] ++ (text2BabeLabel ++ ([0x20]
        ++ (mode ++ (boldMark ++ (fence ++ ([0x0A] ++ (p ++ fence))))))))) (patternHead lockMarker)
        = none := by
      simp [reLit, lockMarker, unlockMarker]
    rw [hnone, reLit_append, hh]
    rfl
  · rw [if_neg hm, reLit_append, hh]
    rfl

/-- The match of a built message, whatever its payload and mode word: the
mode word is the matched one, and the block between the fences is the
captured text with spaces around it. -/
theorem message_match (data mode g1 g2 g3 : Bytes)
    (h : FindStringSubmatch (encryptedDataMessage data mode) = some (g1, g2, g3)) :
    mode = g2 ∧ (g2 = encryptWord ∨ g2 = decryptWord) ∧ (∀ c ∈ g3, c.val ≠ 0x0A)
      ∧ ∃ W2 W3 : Bytes, W2.all isSpaceRE = true ∧ W3.all isSpaceRE = true
        ∧ 0x0A :: data = W2 ++ (g3 ++ W3) := by
  obtain ⟨hg1, hg2, hg3, c1, c2, W1, W2, W3, _, _, hW1, hW2, hW3, e⟩ := find_some _ _ _ _ h
  unfold encryptedDataMessage at e
  have hlen : (if mode = decryptWord then unlockMarker else lockMarker).length = g1.length := by
    rcases hg1 with e1 | e1 <;> subst e1 <;> split_ifs <;> rfl
  obtain ⟨_, e2⟩ := List.append_inj e hlen
  rw [List.singleton_append] at e2
  have e3 := List.append_cancel_left (List.cons.inj e2).2
  rw [List.singleton_append] at e3
  have e4 := (List.cons.inj e3).2
  obtain ⟨hm, hd⟩ := mode_of_match mode data g2 W1 W2 g3 W3 hg2 hW1 hW2 hW3 hg3 e4
  exact ⟨hm, hg2, hg3, W2, W3, hW2, hW3, hd⟩

/-! ## Lemmas: `ValidateText2BabeMessage` -/

theorem validate_ok (content data mode : Bytes)
    (h : ValidateText2BabeMessage content = .ok (data, mode)) :
    ∃ g1 g3 : Bytes, FindStringSubmatch (TrimSpace content) = some (g1, mode, g3)
      ∧ data = TrimSpace g3 ∧ data ≠ [] := by
  unfold ValidateText2BabeMessage at h
  cases hf : FindStringSubmatch (TrimSpace content) with
  | none => rw [hf] at h; cases h
  | some r =>
    obtain ⟨g1, g2, g3⟩ := r
    rw [hf] at h
    dsimp only at h
    split_ifs at h with he
    have h0 := Except.ok.inj h
    simp only [Prod.mk.injEq] at h0
    refine ⟨g1, g3, by rw [h0.2], h0.1.symm, ?_⟩
    rw [← h0.1]
    exact he

theorem validate_no_match (content : Bytes) (h : FindStringSubmatch (TrimSpace content) = none) :
    ValidateText2BabeMessage content = .error .notFromText2Babe := by
  unfold ValidateText2BabeMessage
  rw [h]

theorem validate_message (mode p : Bytes) (hmode : mode = encryptWord ∨ mode = decryptWord)
    (hp : p ≠ []) (hnl : ∀ c ∈ p, c.val ≠ 0x0A) (h1 : hasLeadingSpace p = false)
    (h2 : hasTrailingSpace p = false) :
    ValidateText2BabeMessage (encryptedDataMessage p mode) = .ok (p, mode) := by
  unfold ValidateText2BabeMessage
  rw [trimSpace_message, find_message mode p hmode hp hnl h1 h2]
  dsimp only
  rw [trimSpace_fixed p hp h1 h2, if_neg hp]

/-- The block of a built message is blank: nothing the pattern captures from
it survives the trim. -/
theorem blank_capture (p W2 g3 W3 : Bytes) (hp : TrimSpace p = [])
    (hW2 : W2.all isSpaceRE = true) (hW3 : W3.all isSpaceRE = true)
    (e : 0x0A :: p = W2 ++ (g3 ++ W3)) : TrimSpace g3 = [] := by
  apply trimSpace_of_left_blank
  have h0 : trimLeftSpace (p.length + 1) (0x0A :: p) = [] := by
    rw [trimLeft_ascii_space p.length 0x0A p (by decide)]
    exact trimSpace_blank p hp
  have hl : p.length + 1 = W2.length + (g3.length + W3.length) := by
    have := congrArg List.length e
    simpa using this
  rw [e, hl, trimLeft_spaces W2 _ _ hW2] at h0
  apply trimLeft_of_append g3.length g3 W3 _ (Nat.le_refl _) h0
  intro c hc
  exact (isSpaceRE_space c (List.all_eq_true.mp hW3 c hc)).1

/-! ## The envelope: `SendEncryptedData` and `ValidateText2BabeMessage` -/

set_option maxRecDepth 1000000 in
/-- C11 (counterexample): the payload "a\nb" is non-empty and has no backtick,
so no closing fence sequence, and the message built for it with the mode
"encrypt" is rejected as not from text2babe; the payload " a" is non-empty
and has no backtick, and parsing the message built for it returns "a", not
the payload. -/
theorem envelope_round_trip_counterexample :
    (ascii "a\nb" ≠ [] ∧ (∀ c ∈ ascii "a\nb", c.val ≠ 0x60)
        ∧ ValidateText2BabeMessage (encryptedDataMessage (ascii "a\nb") encryptWord)
          = .error .notFromText2Babe)
      ∧ (ascii " a" ≠ [] ∧ (∀ c ∈ ascii " a", c.val ≠ 0x60)
        ∧ ValidateText2BabeMessage (encryptedDataMessage (ascii " a") encryptWord)
          = .ok (ascii "a", encryptWord)) := by
  decide

/-- C11 (amended): for every non-empty payload with no newline byte that
neither starts nor ends with a whitespace rune, parsing the message built by
the `SendEncryptedData` template with the mode "encrypt" succeeds and returns
exactly the payload and "encrypt". -/
theorem envelope_round_trip (p : Bytes) (hp : p ≠ []) (hnl : ∀ c ∈ p, c.val ≠ 0x0A)
    (h1 : hasLeadingSpace p = false) (h2 : hasTrailingSpace p = false) :
    ValidateText2BabeMessage (encryptedDataMessage p encryptWord) = .ok (p, encryptWord) :=
  validate_message encryptWord p (Or.inl rfl) hp hnl h1 h2

set_option maxRecDepth 1000000 in
/-- Witness of `envelope_round_trip`: the base64 text "aGVsbG8=". -/
theorem envelope_round_trip_witness :
    ValidateText2BabeMessage (encryptedDataMessage (ascii "aGVsbG8=") encryptWord)
      = .ok (ascii "aGVsbG8=", encryptWord) :=
  envelope_round_trip (ascii "aGVsbG8=") (by decide) (by decide) (by decide) (by decide)

/-- C12: for every payload and every mode word other than "encrypt" and
"decrypt", parsing the message built by the `SendEncryptedData` template with
that mode word fails with the error "message is not from text2babe (invalid
format)". -/
theorem unsupported_mode_rejected (data mode : Bytes) (h1 : mode ≠ encryptWord)
    (h2 : mode ≠ decryptWord) :
    ValidateText2BabeMessage (encryptedDataMessage data mode) = .error .notFromText2Babe := by
  apply validate_no_match
  rw [trimSpace_message]
  cases hf : FindStringSubmatch (encryptedDataMessage data mode) with
  | none => rfl
  | some r =>
    exfalso
    obtain ⟨g1, g2, g3⟩ := r
    obtain ⟨hm, hg2, _⟩ := message_match data mode g1 g2 g3 hf
    rcases hg2 with e | e
    · exact h1 (hm.trans e)
    · exact h2 (hm.trans e)

set_option maxRecDepth 1000000 in
/-- Witness of `unsupported_mode_rejected`: the mode word "encode", which
`Config.Mode` takes when encryption is switched off, with the payload
"6869". -/
theorem unsupported_mode_rejected_witness :
    modeForEncryption false "encrypt" = "encode"
      ∧ ValidateText2BabeMessage (encryptedDataMessage (ascii "6869") (ascii "encode"))
        = .error .notFromText2Babe :=
  ⟨by decide, unsupported_mode_rejected (ascii "6869") (ascii "encode") (by decide) (by decide)⟩

/-- C13: whenever `ValidateText2BabeMessage` succeeds, the returned mode is
"encrypt" or "decrypt" and the returned payload is non-empty and neither
starts nor ends with a whitespace rune; and a message of the template whose
fenced block is empty or only whitespace (its trim is empty) is rejected. -/
theorem unwrap_postcondition :
    (∀ content data mode : Bytes, ValidateText2BabeMessage content = .ok (data, mode) →
        (mode = encryptWord ∨ mode = decryptWord) ∧ data ≠ []
          ∧ hasLeadingSpace data = false ∧ hasTrailingSpace data = false)
      ∧ (∀ block word : Bytes, TrimSpace block = [] →
        ∃ e : ValidateErr,
          ValidateText2BabeMessage (encryptedDataMessage block word) = .error e) := by
  constructor
  · intro content data mode h
    obtain ⟨g1, g3, hf, hd, hne⟩ := validate_ok content data mode h
    obtain ⟨_, hmode, _⟩ := find_some _ _ _ _ hf
    rw [hd] at hne
    have hedge := trimSpace_edges g3 hne
    rw [← hd] at hedge hne
    exact ⟨hmode, hne, hedge.1, hedge.2⟩
  · intro block word hb
    unfold ValidateText2BabeMessage
    rw [trimSpace_message]
    cases hf : FindStringSubmatch (encryptedDataMessage block word) with
    | none => exact ⟨_, rfl⟩
    | some r =>
      obtain ⟨g1, g2, g3⟩ := r
      obtain ⟨_, _, _, W2, W3, hW2, hW3, e⟩ := message_match block word g1 g2 g3 hf
      have hblank := blank_capture block W2 g3 W3 hb hW2 hW3 e
      dsimp only
      rw [if_pos hblank]
      exact ⟨_, rfl⟩

set_option maxRecDepth 1000000 in
/-- Witness of `unwrap_postcondition`: the message built for "6869" with the
mode "decrypt" is accepted, and the message built for the block of two spaces
is rejected. -/
theorem unwrap_postcondition_witness :
    (ValidateText2BabeMessage (encryptedDataMessage (ascii "6869") decryptWord)
        = .ok (ascii "6869", decryptWord)
      ∧ (decryptWord = encryptWord ∨ decryptWord = decryptWord) ∧ ascii "6869" ≠ []
      ∧ hasLeadingSpace (ascii "6869") = false ∧ hasTrailingSpace (ascii "6869") = false)
      ∧ (TrimSpace (ascii "  ") = []
        ∧ ∃ e : ValidateErr,
          ValidateText2BabeMessage (encryptedDataMessage (ascii "  ") encryptWord)
            = .error e) :=
  ⟨⟨by decide,
      unwrap_postcondition.1 (encryptedDataMessage (ascii "6869") decryptWord) (ascii "6869")
        decryptWord (by decide)⟩,
    ⟨by decide, unwrap_postcondition.2 (ascii "  ") encryptWord (by decide)⟩⟩

/-- C14: a message text whose trimmed form does not begin with one of the two
direction markers followed by a character of the class `\s` and the literal
"**Text2Babe", or does not end with a newline followed by the closing fence,
is rejected: the result is the error "message is not from text2babe (invalid
format)", with no payload. -/
theorem unrelated_text_rejected (content : Bytes)
    (h : ¬ beginsLikeEnvelope (TrimSpace content) ∨ ¬ endsWithFence (TrimSpace content)) :
    ValidateText2BabeMessage content = .error .notFromText2Babe := by
  apply validate_no_match
  cases hf : FindStringSubmatch (TrimSpace content) with
  | none => rfl
  | some r =>
    exfalso
    obtain ⟨g1, g2, g3⟩ := r
    obtain ⟨hg1, _, _, c1, c2, W1, W2, W3, hc1, _, _, _, _, e⟩ := find_some _ _ _ _ hf
    rcases h with h | h
    · apply h
      refine ⟨c1, c2 :: (g2 ++ (boldMark ++ (W1 ++ (fence ++ (W2 ++ (g3 ++ (W3 ++ fence))))))),
        hc1, ?_⟩
      rcases hg1 with e1 | e1
      · left; rw [e, e1]
      · right; rw [e, e1]
    · apply h
      refine ⟨g1 ++ (c1 :: (text2BabeLabel ++ (c2 :: (g2 ++ (boldMark ++ (W1 ++ (fence
        ++ (W2 ++ (g3 ++ W3))))))))), ?_⟩
      rw [e]
      simp only [List.append_assoc, List.cons_append]

set_option maxRecDepth 1000000 in
/-- Witness of `unrelated_text_rejected`: the text "hello", which does not
end with the closing fence. -/
theorem unrelated_text_rejected_witness :
    ¬ endsWithFence (TrimSpace (ascii "hello"))
      ∧ ValidateText2BabeMessage (ascii "hello") = .error .notFromText2Babe :=
  have h : ¬ endsWithFence (TrimSpace (ascii "hello")) := by
    have e : TrimSpace (ascii "hello") = [0x68, 0x65, 0x6C, 0x6C, 0x6F] := by decide
    rw [e]
    rintro ⟨front, hfront⟩
    have := congrArg List.getLast? hfront
    simp [fence] at this
  ⟨h, unrelated_text_rejected (ascii "hello") (Or.inr h)⟩

/-- C19: for the mode "encrypt" or "decrypt" and every payload `p`, parsing
the message built by the `SendEncryptedData` template returns exactly `p` and
the mode if and only if `p` is non-empty, has no newline byte, and neither
starts nor ends with a whitespace rune. -/
theorem envelope_exact_condition (mode p : Bytes)
    (hmode : mode = encryptWord ∨ mode = decryptWord) :
    ValidateText2BabeMessage (encryptedDataMessage p mode) = .ok (p, mode)
      ↔ (p ≠ [] ∧ (∀ c ∈ p, c.val ≠ 0x0A) ∧ hasLeadingSpace p = false
        ∧ hasTrailingSpace p = false) := by
  constructor
  · intro h
    obtain ⟨g1, g3, hf, hd, hne⟩ := validate_ok _ p mode h
    obtain ⟨_, _, hg3, _⟩ := find_some _ _ _ _ hf
    have hne3 : TrimSpace g3 ≠ [] := by rw [← hd]; exact hne
    have hedge := trimSpace_edges g3 hne3
    rw [← hd] at hedge
    refine ⟨hne, ?_, hedge.1, hedge.2⟩
    intro c hc
    rw [hd] at hc
    exact hg3 c (trimSpace_mem g3 c hc)
  · rintro ⟨hp, hnl, h1, h2⟩
    exact validate_message mode p hmode hp hnl h1 h2

set_option maxRecDepth 1000000 in
/-- Witness of `envelope_exact_condition`: the mode "decrypt" with the payload
"aGk=", which round-trips, and with the payload "a b\n", which does not. -/
theorem envelope_exact_condition_witness :
    (decryptWord = encryptWord ∨ decryptWord = decryptWord)
      ∧ ValidateText2BabeMessage (encryptedDataMessage (ascii "aGk=") decryptWord)
        = .ok (ascii "aGk=", decryptWord)
      ∧ ValidateText2BabeMessage (encryptedDataMessage (ascii "a b\n") decryptWord)
        ≠ .ok (ascii "a b\n", decryptWord) :=
  ⟨Or.inr rfl,
    (envelope_exact_condition decryptWord (ascii "aGk=") (Or.inr rfl)).mpr (by decide),
    fun h => absurd ((envelope_exact_condition decryptWord (ascii "a b\n") (Or.inr rfl)).mp h).2.1
      (by decide)⟩

end Text2Babe
